import Mathlib

/-!
The father/child calculation protocol of `father.c`.

`father.c` forks `NUM_PROC` child processes.  The father hands every operation of the
configuration file to a child through one `share_mem` record per child and a System V
semaphore set of `2*NUM_PROC+1` semaphores:

* semaphore `2*i`       ("Ready" of child `i`, initial value 1): the child waits for it to be 0;
* semaphore `2*i+1`     ("Busy" of child `i`, initial value 0): the father waits for it to be 0;
* semaphore `2*NUM_PROC` ("FreeCount", initial value `NUM_PROC`).

The embedding is a transition system in which every `semop` call and every group of accesses
to the shared record is one atomic step of the process that performs it.

Modelling conventions.
* C `int` values are mathematical integers reduced to 32 bits by `wrap32` wherever the C
  expression can leave the range; an integer division whose quotient does not exist
  (divisor 0, or `INT_MIN / -1`) stops the process that executes it (`SIGFPE`).
* C strings are lists of characters (the text before the terminator).  Where the father
  builds a line of the results, the sizes of the arrays it writes to are part of the model
  (`BUFLEN` bytes for each number, 32 bytes for the line): when the text and its terminator do
  not fit, the behaviour of the C code is undefined and the entry of the results is `none`.
* A fresh shared-memory segment and a fresh semaphore set are zero filled.
* Fields of the state whose documentation starts with "History" are auxiliary: no step reads
  them, they only record what has happened.
-/

namespace SystemCall

/-! ## Integers and the conversion helpers -/

/-- Smallest value of a C `int`. -/
def INT_MIN : Int := -2147483648

/-- Largest value of a C `int`. -/
def INT_MAX : Int := 2147483647

/-- Reduction of an integer to the 32-bit two's-complement range of a C `int`. -/
def wrap32 (x : Int) : Int := (x + 2147483648) % 4294967296 - 2147483648

/-- Pointwise update of an array modelled as a function. -/
def aggiorna {α : Type} (f : Nat → α) (i : Nat) (v : α) : Nat → α :=
  fun k => if k = i then v else f k

/-- The loop of `reverse` (father.c l.569-573): while `i < j` swap `s[i]` and `s[j]`. -/
def reverse_loop : Nat → Nat → Nat → List Char → List Char
  | 0, _, _, s => s
  | fuel + 1, i, j, s =>
    if i < j then
      reverse_loop fuel (i + 1) (j - 1) ((s.set i (s.getD j ' ')).set j (s.getD i ' '))
    else s

/-- In-place reversal of a string, `reverse` (father.c l.566-574): `i` starts at 0 and `j` at
`strlen(s)-1`; at most `strlen(s)` iterations are possible. -/
def reverse (s : List Char) : List Char :=
  reverse_loop s.length 0 (s.length - 1) s

/-- The `do ... while((n/=10)>0)` loop of `itoa` (father.c l.548-550): the characters
`n%10+'0'`, least significant first.  `%` and `/` are the C operators (truncation toward
zero). -/
def itoa_loop : Nat → Int → List Char
  | 0, _ => []
  | fuel + 1, n =>
    Char.ofNat (((Int.tmod n 10 + 48) % 256).toNat) ::
      (if 0 < Int.tdiv n 10 then itoa_loop fuel (Int.tdiv n 10) else [])

/-- Conversion of an `int` to text, `itoa` (father.c l.543-555).  The negation `n=-n` is a
32-bit negation.  The loop divides `n` by 10 at every iteration, so `|n|+1` iterations are
always enough. -/
def itoa (n : Int) : List Char :=
  let sign := n
  let n := if sign < 0 then wrap32 (-n) else n
  let s := itoa_loop (n.natAbs + 1) n
  let s := if sign < 0 then s ++ ['-'] else s
  reverse s

/-! ## Data model -/

/-- The record shared by the father and one child, `share_mem` (mylib.h l.18-29). -/
structure share_mem where
  /-- First operand. -/
  val1 : Int
  /-- Operation. -/
  op : Char
  /-- Second operand. -/
  val2 : Int
  /-- Result. -/
  res : Int
  /-- Set by the child when a calculation is finished. -/
  finish : Bool
deriving DecidableEq

/-- One operation line `<id> <num1> <op> <num2>` of the configuration file, as held by the
father in `val`, `op1`, `calc`, `op2`. -/
structure Ticket where
  /-- Number of the child that must execute the operation, 0 for the first free child. -/
  id : Nat
  /-- First operand. -/
  num1 : Int
  /-- Operation. -/
  op : Char
  /-- Second operand. -/
  num2 : Int
deriving DecidableEq

/-- Contents of the configuration file. -/
structure Config where
  /-- Number of child processes. -/
  NUM_PROC : Nat
  /-- The operations, in file order. -/
  tickets : List Ticket

/-- What the `switch(calc)` of a child does (father.c l.372-391). -/
inductive Outcome
  /-- A value is stored in `res`. -/
  | value (r : Int)
  /-- The `default` branch: a message is printed, `res` is left as it is. -/
  | unchanged
  /-- The branch `case 'K'`: `exit(0)`. -/
  | exit
  /-- The division has no quotient: the process is stopped by the host. -/
  | trap
deriving DecidableEq

/-- The `switch(calc)` of a child (father.c l.372-391) on the operands `op1`, `op2` and the
operation `c` (the variable `calc`) read from the record. -/
def calcolo (op1 : Int) (c : Char) (op2 : Int) : Outcome :=
  if c = '+' then Outcome.value (wrap32 (op1 + op2))
  else if c = '-' then Outcome.value (wrap32 (op1 - op2))
  else if c = '*' then Outcome.value (wrap32 (op1 * op2))
  else if c = '/' then
    if op2 = 0 ∨ (op1 = INT_MIN ∧ op2 = -1) then Outcome.trap
    else Outcome.value (wrap32 (Int.tdiv op1 op2))
  else if c = 'K' then Outcome.exit
  else Outcome.unchanged

/-- The constant `BUFLEN` of `mylib.h`: the size of the arrays `res`, `oper1` and `oper2`. -/
def BUFLEN : Nat := 10

/-- The call `itoa(n, s)` for an array `s` of `cap` bytes: the characters `itoa` stores, or
`none` when they and the terminator need more than `cap` bytes, so that `itoa` writes past
the end of the array and the behaviour is undefined. -/
def itoa_buf (cap : Nat) (n : Int) : Option (List Char) :=
  if (itoa n).length + 1 ≤ cap then some (itoa n) else none

/-- The text appended to `risultati[counter]` when a result is collected
(father.c l.313-322 and l.434-443): `itoa` of `res`, `val1` and `val2` into the arrays `res`,
`oper1` and `oper2` of `BUFLEN` bytes each (l.210-212), then the six calls of `strcat` into
the block of 32 bytes (l.219).  The result is `none` when one of the arrays or the block is
too small for what is written to it: the behaviour of the C code is undefined then and
nothing is said about the line.  The block `risultati[counter]` is taken to be empty before,
and `strcat` from the address of the field `op` to append that one character (the padding
bytes that follow `op` in the zero-filled record are 0). -/
def riga_risultato (m : share_mem) : Option (List Char) :=
  match itoa_buf BUFLEN m.res, itoa_buf BUFLEN m.val1, itoa_buf BUFLEN m.val2 with
  | some res, some oper1, some oper2 =>
    if (oper1 ++ [m.op] ++ oper2 ++ ['='] ++ res ++ ['\n']).length + 1 ≤ 32 then
      some (oper1 ++ [m.op] ++ oper2 ++ ['='] ++ res ++ ['\n'])
    else none
  | _, _, _ => none

/-! ## Semaphores -/

/-- One `struct sembuf`: the semaphore number and the operation. -/
structure sembuf where
  /-- Index of the semaphore in the set. -/
  sem_num : Nat
  /-- Positive: add; zero: wait for zero; negative: wait until the value is large enough,
  then subtract. -/
  sem_op : Int

/-- A `semop` call on the values `sem` of the set: the operations are performed in array
order, all or none.  `none` means that the call cannot be completed now (the caller sleeps,
or gets `-1` with `IPC_NOWAIT`). -/
def semop (sem : Nat → Nat) : List sembuf → Option (Nat → Nat)
  | [] => some sem
  | b :: rest =>
    if 0 < b.sem_op then
      semop (aggiorna sem b.sem_num (sem b.sem_num + b.sem_op.toNat)) rest
    else if b.sem_op = 0 then
      if sem b.sem_num = 0 then semop sem rest else none
    else if b.sem_op.natAbs ≤ sem b.sem_num then
      semop (aggiorna sem b.sem_num (sem b.sem_num - b.sem_op.natAbs)) rest
    else none

/-! ## Processes -/

/-- Program points of the father (process with `id == 0`).  The loop over the operations
(father.c l.230-343) and the final loop over the children (l.417-459) execute the same
sequence of steps; the index `i` is `val-1` in the first loop and `j` in the second. -/
inductive FatherPc
  /-- Before `semop` on the counting semaphore (l.278-281, l.418-421). -/
  | acquire
  /-- In the `for` loop that looks for a free child, before the test `j<NUM_PROC` and the
  `IPC_NOWAIT` probe of semaphore `2*j+1` (l.285-291). -/
  | scan (j : Nat)
  /-- Before the two-operation `semop` on semaphore `2*i+1` (l.302-308, l.423-429). -/
  | mark (i : Nat)
  /-- Before the test of `finish` (l.312, l.433). -/
  | harvest (i : Nat)
  /-- Before the writes to the record (l.333-335, l.451). -/
  | write (i : Nat)
  /-- Before `semop` on semaphore `2*i` (l.338-341, l.454-457). -/
  | signal (i : Nat)
  /-- After the final loop (l.461). -/
  | done
  /-- An index outside `0..NUM_PROC-1` was used for `memoria` and the semaphores. -/
  | fault
deriving DecidableEq

/-- Program points of a child (father.c l.354-408). -/
inductive ChildPc
  /-- Before the two-operation `semop` on its own semaphore `2*(id-1)` (l.356-362). -/
  | wait
  /-- Before reading the record and the `switch` (l.367-391). -/
  | compute
  /-- Before `finish=true` (l.392). -/
  | flag
  /-- Before `semop` on semaphore `2*(id-1)+1` (l.397-400). -/
  | release
  /-- Before `semop` on the counting semaphore (l.403-406). -/
  | free
  /-- After `exit(0)` (l.388). -/
  | exited
  /-- Stopped by a division without quotient (l.383). -/
  | crashed
deriving DecidableEq

/-- State of the whole system. -/
structure State where
  /-- Values of the semaphore set `semaforo`. -/
  semaforo : Nat → Nat
  /-- The shared records `memoria[i]`. -/
  memoria : Nat → share_mem
  /-- The results collected so far, `risultati[0..counter-1]`; an entry is `none` when the
  code overran an array while it built the line. -/
  risultati : List (Option (List Char))
  /-- Program point of the father. -/
  father : FatherPc
  /-- Number of iterations the father has completed: operations handed over, then children
  told to terminate. -/
  job : Nat
  /-- Program point of every child. -/
  child : Nat → ChildPc
  /-- History: the probes of the current search for a free child, `(j, true)` when semaphore
  `2*j+1` was 0 at the probe. -/
  probes : List (Nat × Bool)
  /-- History: every operation written to a record, with the index of the child. -/
  assigned : List (Nat × Ticket)
  /-- History: every value stored in `res`, with the index of the child. -/
  computed : List (Nat × Int)
  /-- History: every collected result, with the index of the child it came from. -/
  collected : List (Nat × Option (List Char))
  /-- History: the children to which `'K'` was written. -/
  killed : List Nat

/-- The variable `counter`. -/
def State.counter (s : State) : Nat := s.risultati.length

/-- State after the set-up (father.c l.129-219): semaphores `2*j` at 1, the counting
semaphore at `NUM_PROC`, zero-filled records, all children created. -/
def initial (cfg : Config) : State where
  semaforo := fun k =>
    if k = 2 * cfg.NUM_PROC then cfg.NUM_PROC
    else if k < 2 * cfg.NUM_PROC ∧ k % 2 = 0 then 1 else 0
  memoria := fun _ => ⟨0, Char.ofNat 0, 0, 0, false⟩
  risultati := []
  father := if 0 < cfg.tickets.length + cfg.NUM_PROC then FatherPc.acquire else FatherPc.done
  job := 0
  child := fun _ => ChildPc.wait
  probes := []
  assigned := []
  computed := []
  collected := []
  killed := []

/-- Program point of the father at the start of iteration `k`. -/
def next_pc (cfg : Config) (k : Nat) : FatherPc :=
  if k < cfg.tickets.length + cfg.NUM_PROC then FatherPc.acquire else FatherPc.done

/-- Program point of the father after the counting semaphore has been decremented in
iteration `k`: for an operation with `val==0` the search loop starts with `j=0`, for an
operation with `val>=1` the child is `val-1`, in the final loop the child is
`j = k - tickets.length`. -/
def target_pc (cfg : Config) (k : Nat) : FatherPc :=
  match cfg.tickets[k]? with
  | some t => if t.id = 0 then FatherPc.scan 0 else FatherPc.mark (t.id - 1)
  | none => FatherPc.mark (k - cfg.tickets.length)

/-- One step of the father.  `none`: the father is blocked in `semop` or has stopped.
Iteration `job` treats operation number `job` of the file while `job < tickets.length`, and
child `job - tickets.length` in the final loop. -/
def father_step (cfg : Config) (s : State) : Option State :=
  match s.father with
  | FatherPc.acquire =>
    match semop s.semaforo [⟨2 * cfg.NUM_PROC, -1⟩] with
    | some sem =>
      some { s with
        semaforo := sem
        probes := []
        father := target_pc cfg s.job }
    | none => none
  | FatherPc.scan j =>
    if j < cfg.NUM_PROC then
      match semop s.semaforo [⟨2 * j + 1, 0⟩] with
      | some sem =>
        some { s with semaforo := sem, probes := s.probes ++ [(j, true)], father := FatherPc.mark j }
      | none =>
        some { s with probes := s.probes ++ [(j, false)], father := FatherPc.scan (j + 1) }
    else some { s with father := FatherPc.mark j }
  | FatherPc.mark i =>
    if i < cfg.NUM_PROC then
      match semop s.semaforo [⟨2 * i + 1, 0⟩, ⟨2 * i + 1, 1⟩] with
      | some sem => some { s with semaforo := sem, father := FatherPc.harvest i }
      | none => none
    else some { s with father := FatherPc.fault }
  | FatherPc.harvest i =>
    if (s.memoria i).finish = true then
      some { s with
        risultati := s.risultati ++ [riga_risultato (s.memoria i)]
        collected := s.collected ++ [(i, riga_risultato (s.memoria i))]
        memoria := aggiorna s.memoria i { s.memoria i with finish := false }
        father := FatherPc.write i }
    else some { s with father := FatherPc.write i }
  | FatherPc.write i =>
    match cfg.tickets[s.job]? with
    | some t =>
      some { s with
        memoria := aggiorna s.memoria i { s.memoria i with val1 := t.num1, op := t.op, val2 := t.num2 }
        assigned := s.assigned ++ [(i, t)]
        father := FatherPc.signal i }
    | none =>
      some { s with
        memoria := aggiorna s.memoria i { s.memoria i with op := 'K' }
        killed := s.killed ++ [i]
        father := FatherPc.signal i }
  | FatherPc.signal i =>
    match semop s.semaforo [⟨2 * i, -1⟩] with
    | some sem =>
      some { s with semaforo := sem, job := s.job + 1, father := next_pc cfg (s.job + 1) }
    | none => none
  | FatherPc.done => none
  | FatherPc.fault => none

/-- One step of the child with index `i` (its `id` is `i+1`).  `none`: the child is blocked in
`semop` or has stopped. -/
def child_step (cfg : Config) (i : Nat) (s : State) : Option State :=
  match s.child i with
  | ChildPc.wait =>
    match semop s.semaforo [⟨2 * i, 0⟩, ⟨2 * i, 1⟩] with
    | some sem => some { s with semaforo := sem, child := aggiorna s.child i ChildPc.compute }
    | none => none
  | ChildPc.compute =>
    match calcolo (s.memoria i).val1 (s.memoria i).op (s.memoria i).val2 with
    | Outcome.value r =>
      some { s with
        memoria := aggiorna s.memoria i { s.memoria i with res := r }
        computed := s.computed ++ [(i, r)]
        child := aggiorna s.child i ChildPc.flag }
    | Outcome.unchanged => some { s with child := aggiorna s.child i ChildPc.flag }
    | Outcome.exit => some { s with child := aggiorna s.child i ChildPc.exited }
    | Outcome.trap => some { s with child := aggiorna s.child i ChildPc.crashed }
  | ChildPc.flag =>
    some { s with
      memoria := aggiorna s.memoria i { s.memoria i with finish := true }
      child := aggiorna s.child i ChildPc.release }
  | ChildPc.release =>
    match semop s.semaforo [⟨2 * i + 1, -1⟩] with
    | some sem => some { s with semaforo := sem, child := aggiorna s.child i ChildPc.free }
    | none => none
  | ChildPc.free =>
    match semop s.semaforo [⟨2 * cfg.NUM_PROC, 1⟩] with
    | some sem => some { s with semaforo := sem, child := aggiorna s.child i ChildPc.wait }
    | none => none
  | ChildPc.exited => none
  | ChildPc.crashed => none

/-- One step of the system: the father or one of the `NUM_PROC` children moves. -/
inductive Step (cfg : Config) : State → State → Prop
  | father {s t : State} : father_step cfg s = some t → Step cfg s t
  | child {s t : State} (i : Nat) : i < cfg.NUM_PROC → child_step cfg i s = some t → Step cfg s t

/-- States the system can be in. -/
inductive Reachable (cfg : Config) : State → Prop
  | init : Reachable cfg (initial cfg)
  | step {s t : State} : Reachable cfg s → Step cfg s t → Reachable cfg t

/-- A process name for schedules: `none` is the father, `some i` the child with index `i`. -/
abbrev Proc := Option Nat

/-- The step of the named process. -/
def proc_step (cfg : Config) (p : Proc) (s : State) : Option State :=
  match p with
  | none => father_step cfg s
  | some i => if i < cfg.NUM_PROC then child_step cfg i s else none

/-- Runs a schedule: the named processes move in turn; a process that cannot move is skipped. -/
def run (cfg : Config) : List Proc → State → State
  | [], s => s
  | p :: ps, s =>
    match proc_step cfg p s with
    | some t => run cfg ps t
    | none => run cfg ps s

/-! ## Views of the state used in the invariants -/

/-- Value of semaphore `2*i`, on which child `i` waits. -/
def ready (sem : Nat → Nat) (i : Nat) : Nat := sem (2 * i)

/-- Value of semaphore `2*i+1`, on which the father waits before using record `i`. -/
def busy (sem : Nat → Nat) (i : Nat) : Nat := sem (2 * i + 1)

/-- Value of the counting semaphore `2*NUM_PROC`. -/
def freecount (cfg : Config) (sem : Nat → Nat) : Nat := sem (2 * cfg.NUM_PROC)

/-- The father is between its `semop` on semaphore `2*i+1` and its `semop` on semaphore `2*i`:
the section in which it reads and writes `memoria[i]`. -/
def FatherPc.inCS (p : FatherPc) (i : Nat) : Bool :=
  match p with
  | FatherPc.harvest k => decide (k = i)
  | FatherPc.write k => decide (k = i)
  | FatherPc.signal k => decide (k = i)
  | _ => false

/-- The child is between its `semop` on semaphore `2*(id-1)` and its `semop` on semaphore
`2*(id-1)+1` (the section in which it reads and writes its record), or has stopped there. -/
def ChildPc.inCS (c : ChildPc) : Bool :=
  match c with
  | ChildPc.compute => true
  | ChildPc.flag => true
  | ChildPc.release => true
  | ChildPc.exited => true
  | ChildPc.crashed => true
  | _ => false

/-- The father has decremented the counting semaphore and has not yet set a semaphore
`2*i+1` for it. -/
def FatherPc.mid (p : FatherPc) : Nat :=
  match p with
  | FatherPc.scan _ => 1
  | FatherPc.mark _ => 1
  | FatherPc.fault => 1
  | _ => 0

/-- Number of indices `i < n` with `p i`. -/
def count_below (p : Nat → Bool) : Nat → Nat
  | 0 => 0
  | n + 1 => count_below p n + (if p n then 1 else 0)

/-- Number of children whose semaphore `2*i+1` is 0. -/
def free_children (cfg : Config) (s : State) : Nat :=
  count_below (fun i => decide (busy s.semaforo i = 0)) cfg.NUM_PROC

/-- Number of children that have cleared their semaphore `2*i+1` and not yet incremented the
counting semaphore. -/
def releasing (cfg : Config) (s : State) : Nat :=
  count_below (fun i => decide (s.child i = ChildPc.free)) cfg.NUM_PROC

/-- The four situations of the hand-shake between the father and child `i`:
record free, record held by the father, record handed over, record held by the child. -/
def Phase (s : State) (i : Nat) : Prop :=
  (busy s.semaforo i = 0 ∧ ready s.semaforo i = 1 ∧ (s.child i).inCS = false ∧
      s.father.inCS i = false) ∨
  (busy s.semaforo i = 1 ∧ ready s.semaforo i = 1 ∧ (s.child i).inCS = false ∧
      s.father.inCS i = true) ∨
  (busy s.semaforo i = 1 ∧ ready s.semaforo i = 0 ∧ (s.child i).inCS = false ∧
      s.father.inCS i = false) ∨
  (busy s.semaforo i = 1 ∧ ready s.semaforo i = 1 ∧ (s.child i).inCS = true ∧
      s.father.inCS i = false)

/-- The steps of the system with the `semop` calls evaluated: `Step` is contained in
`Trans` (`Step.trans`). -/
inductive Trans (cfg : Config) : State → State → Prop
  | acquire (s : State) : s.father = FatherPc.acquire → 1 ≤ freecount cfg s.semaforo →
      Trans cfg s { s with
        semaforo := aggiorna s.semaforo (2 * cfg.NUM_PROC) (freecount cfg s.semaforo - 1)
        probes := []
        father := target_pc cfg s.job }
  | scan_free (s : State) (j : Nat) : s.father = FatherPc.scan j → j < cfg.NUM_PROC →
      busy s.semaforo j = 0 →
      Trans cfg s { s with probes := s.probes ++ [(j, true)], father := FatherPc.mark j }
  | scan_busy (s : State) (j : Nat) : s.father = FatherPc.scan j → j < cfg.NUM_PROC →
      busy s.semaforo j ≠ 0 →
      Trans cfg s { s with probes := s.probes ++ [(j, false)], father := FatherPc.scan (j + 1) }
  | scan_end (s : State) (j : Nat) : s.father = FatherPc.scan j → ¬ j < cfg.NUM_PROC →
      Trans cfg s { s with father := FatherPc.mark j }
  | mark (s : State) (i : Nat) : s.father = FatherPc.mark i → i < cfg.NUM_PROC →
      busy s.semaforo i = 0 →
      Trans cfg s { s with
        semaforo := aggiorna s.semaforo (2 * i + 1) 1
        father := FatherPc.harvest i }
  | mark_fault (s : State) (i : Nat) : s.father = FatherPc.mark i → ¬ i < cfg.NUM_PROC →
      Trans cfg s { s with father := FatherPc.fault }
  | harvest (s : State) (i : Nat) : s.father = FatherPc.harvest i →
      (s.memoria i).finish = true →
      Trans cfg s { s with
        risultati := s.risultati ++ [riga_risultato (s.memoria i)]
        collected := s.collected ++ [(i, riga_risultato (s.memoria i))]
        memoria := aggiorna s.memoria i { s.memoria i with finish := false }
        father := FatherPc.write i }
  | harvest_none (s : State) (i : Nat) : s.father = FatherPc.harvest i →
      (s.memoria i).finish = false →
      Trans cfg s { s with father := FatherPc.write i }
  | write (s : State) (i : Nat) (t : Ticket) : s.father = FatherPc.write i →
      cfg.tickets[s.job]? = some t →
      Trans cfg s { s with
        memoria := aggiorna s.memoria i
          { s.memoria i with val1 := t.num1, op := t.op, val2 := t.num2 }
        assigned := s.assigned ++ [(i, t)]
        father := FatherPc.signal i }
  | write_K (s : State) (i : Nat) : s.father = FatherPc.write i →
      cfg.tickets[s.job]? = none →
      Trans cfg s { s with
        memoria := aggiorna s.memoria i { s.memoria i with op := 'K' }
        killed := s.killed ++ [i]
        father := FatherPc.signal i }
  | signal (s : State) (i : Nat) : s.father = FatherPc.signal i → 1 ≤ ready s.semaforo i →
      Trans cfg s { s with
        semaforo := aggiorna s.semaforo (2 * i) (ready s.semaforo i - 1)
        job := s.job + 1
        father := next_pc cfg (s.job + 1) }
  | wake (s : State) (i : Nat) : i < cfg.NUM_PROC → s.child i = ChildPc.wait →
      ready s.semaforo i = 0 →
      Trans cfg s { s with
        semaforo := aggiorna s.semaforo (2 * i) 1
        child := aggiorna s.child i ChildPc.compute }
  | compute (s : State) (i : Nat) (r : Int) : i < cfg.NUM_PROC → s.child i = ChildPc.compute →
      calcolo (s.memoria i).val1 (s.memoria i).op (s.memoria i).val2 = Outcome.value r →
      Trans cfg s { s with
        memoria := aggiorna s.memoria i { s.memoria i with res := r }
        computed := s.computed ++ [(i, r)]
        child := aggiorna s.child i ChildPc.flag }
  | compute_default (s : State) (i : Nat) : i < cfg.NUM_PROC → s.child i = ChildPc.compute →
      calcolo (s.memoria i).val1 (s.memoria i).op (s.memoria i).val2 = Outcome.unchanged →
      Trans cfg s { s with child := aggiorna s.child i ChildPc.flag }
  | compute_exit (s : State) (i : Nat) : i < cfg.NUM_PROC → s.child i = ChildPc.compute →
      calcolo (s.memoria i).val1 (s.memoria i).op (s.memoria i).val2 = Outcome.exit →
      Trans cfg s { s with child := aggiorna s.child i ChildPc.exited }
  | compute_trap (s : State) (i : Nat) : i < cfg.NUM_PROC → s.child i = ChildPc.compute →
      calcolo (s.memoria i).val1 (s.memoria i).op (s.memoria i).val2 = Outcome.trap →
      Trans cfg s { s with child := aggiorna s.child i ChildPc.crashed }
  | flag (s : State) (i : Nat) : i < cfg.NUM_PROC → s.child i = ChildPc.flag →
      Trans cfg s { s with
        memoria := aggiorna s.memoria i { s.memoria i with finish := true }
        child := aggiorna s.child i ChildPc.release }
  | release (s : State) (i : Nat) : i < cfg.NUM_PROC → s.child i = ChildPc.release →
      1 ≤ busy s.semaforo i →
      Trans cfg s { s with
        semaforo := aggiorna s.semaforo (2 * i + 1) (busy s.semaforo i - 1)
        child := aggiorna s.child i ChildPc.free }
  | free (s : State) (i : Nat) : i < cfg.NUM_PROC → s.child i = ChildPc.free →
      Trans cfg s { s with
        semaforo := aggiorna s.semaforo (2 * cfg.NUM_PROC) (freecount cfg s.semaforo + 1)
        child := aggiorna s.child i ChildPc.wait }

/-- The hand-shake invariant: every child is in one of the four situations of `Phase`, the
father only uses records that exist, the counting semaphore accounts for the children whose
semaphore `2*i+1` is 0, and a search for a free child always has a free child ahead. -/
structure Protocol (cfg : Config) (s : State) : Prop where
  phase : ∀ i, i < cfg.NUM_PROC → Phase s i
  cs_lt : ∀ i, s.father.inCS i = true → i < cfg.NUM_PROC
  balance : freecount cfg s.semaforo + s.father.mid + releasing cfg s = free_children cfg s
  scan : ∀ j, s.father = FatherPc.scan j →
    ∃ k, j ≤ k ∧ k < cfg.NUM_PROC ∧ busy s.semaforo k = 0

/-- The father is about to wake a child (`semop` on semaphore `2*i`). -/
def FatherPc.isSignal (p : FatherPc) : Bool :=
  match p with
  | FatherPc.signal _ => true
  | _ => false

/-- Number of children to which the father has written `'K'`. -/
def kills (cfg : Config) (s : State) : Nat :=
  (s.job - cfg.tickets.length) +
    (if s.father.isSignal = true ∧ cfg.tickets.length ≤ s.job then 1 else 0)

/-- Invariant on the progress of the father and on the `finish` flags. -/
structure Flags (cfg : Config) (s : State) : Prop where
  job_lt : s.father ≠ FatherPc.done → s.job < cfg.tickets.length + cfg.NUM_PROC
  job_eq : s.father = FatherPc.done → s.job = cfg.tickets.length + cfg.NUM_PROC
  drain : cfg.tickets.length ≤ s.job →
    ∀ i, s.father = FatherPc.mark i ∨ s.father.inCS i = true → i = s.job - cfg.tickets.length
  drain_scan : ∀ j, s.father = FatherPc.scan j → s.job < cfg.tickets.length
  killed_eq : s.killed = List.range (kills cfg s)
  killed : ∀ i, i < cfg.NUM_PROC → i < kills cfg s →
    (s.memoria i).op = 'K' ∧ (s.memoria i).finish = false ∧
      (s.father.inCS i = true ∨ ready s.semaforo i = 0 ∨ s.child i = ChildPc.compute ∨
        s.child i = ChildPc.exited)
  write_clear : ∀ i, i < cfg.NUM_PROC →
    s.father = FatherPc.write i ∨ s.father = FatherPc.signal i → (s.memoria i).finish = false
  ready_clear : ∀ i, i < cfg.NUM_PROC → ready s.semaforo i = 0 → (s.memoria i).finish = false
  child_clear : ∀ i, i < cfg.NUM_PROC → (s.child i).inCS = true →
    s.child i ≠ ChildPc.release → (s.memoria i).finish = false

/-- The entries of a history that belong to child `i`, in order. -/
def view {α : Type} (i : Nat) (l : List (Nat × α)) : List α :=
  l.filterMap (fun p => if p.1 = i then some p.2 else none)

/-- Sequential evaluation of one operation as the specification words it: `+`, `-`, `*` are
integer addition, subtraction and multiplication, `/` is integer division truncating toward
zero. -/
def sequential (t : Ticket) : Int :=
  if t.op = '+' then t.num1 + t.num2
  else if t.op = '-' then t.num1 - t.num2
  else if t.op = '*' then t.num1 * t.num2
  else Int.tdiv t.num1 t.num2

/-- The value a child stores in `res` when it calculates the operation `t`
(`calcolo_eq_risultato`): the sequential evaluation reduced to 32 bits. -/
def risultato (t : Ticket) : Int := wrap32 (sequential t)

/-- The entry of the results for the operation `t`: what the collection code builds from a
record that holds the operation and the result its child stores for it. -/
def riga (t : Ticket) : Option (List Char) :=
  riga_risultato ⟨t.num1, t.op, t.num2, risultato t, true⟩

/-- The operators of the configuration file are the four arithmetic operators. -/
def ValidOps (cfg : Config) : Prop :=
  ∀ t ∈ cfg.tickets, t.op = '+' ∨ t.op = '-' ∨ t.op = '*' ∨ t.op = '/'

instance (cfg : Config) : Decidable (ValidOps cfg) := by
  unfold ValidOps
  infer_instance

/-- Record `i` holds the operands of `t`. -/
def Holds (m : share_mem) (t : Ticket) : Prop :=
  m.val1 = t.num1 ∧ m.op = t.op ∧ m.val2 = t.num2

/-- Child `i` has been given its record and has not yet stored a result. -/
def Handed (s : State) (i : Nat) : Prop :=
  s.father = FatherPc.signal i ∨ ready s.semaforo i = 0 ∨ s.child i = ChildPc.compute ∨
    s.child i = ChildPc.crashed

/-- Relation between record `i` and the histories of child `i`: its operations `A`, the
values `R` it stored and its collected lines `H`.  Either the last operation is in the record
and not yet calculated, or it is calculated and not yet collected, or everything is
collected. -/
def Slot (s : State) (i : Nat) : Prop :=
  ((s.memoria i).op ≠ 'K' → Handed s i →
    ∃ A t, view i s.assigned = A ++ [t] ∧ Holds (s.memoria i) t ∧
      view i s.computed = A.map risultato ∧ view i s.collected = A.map riga) ∧
  (s.child i = ChildPc.flag ∨ (s.memoria i).finish = true →
    ∃ A t, view i s.assigned = A ++ [t] ∧ Holds (s.memoria i) t ∧
      (s.memoria i).res = risultato t ∧
      view i s.computed = (A ++ [t]).map risultato ∧ view i s.collected = A.map riga) ∧
  (¬ ((s.memoria i).op ≠ 'K' ∧ Handed s i) → s.child i ≠ ChildPc.flag →
    (s.memoria i).finish = false →
    view i s.computed = (view i s.assigned).map risultato ∧
      view i s.collected = (view i s.assigned).map riga)

/-- Invariant on the search for a free child and on the child chosen for an operation. -/
structure Search (cfg : Config) (s : State) : Prop where
  scanning : ∀ j, s.father = FatherPc.scan j →
    s.probes = (List.range j).map (fun k => (k, false)) ∧
      ∃ t, cfg.tickets[s.job]? = some t ∧ t.id = 0
  chosen_free : ∀ t i, cfg.tickets[s.job]? = some t → t.id = 0 →
    s.father = FatherPc.mark i ∨ s.father.inCS i = true →
      i < cfg.NUM_PROC ∧ s.probes = (List.range i).map (fun k => (k, false)) ++ [(i, true)]
  chosen_id : ∀ t i, cfg.tickets[s.job]? = some t → t.id ≠ 0 →
    s.father = FatherPc.mark i ∨ s.father.inCS i = true → i + 1 = t.id

/-- Invariant on the histories. -/
structure Data (cfg : Config) (s : State) : Prop where
  log : s.risultati = s.collected.map Prod.snd
  handed : s.assigned.map Prod.snd = cfg.tickets.take s.assigned.length
  handed_len : s.assigned.length =
    min cfg.tickets.length (s.job + (if s.father.isSignal = true then 1 else 0))
  assigned_lt : ∀ p ∈ s.assigned, p.1 < cfg.NUM_PROC ∧ (p.2.id ≠ 0 → p.1 + 1 = p.2.id)
  collected_lt : ∀ p ∈ s.collected, p.1 < cfg.NUM_PROC
  slot : ∀ i, i < cfg.NUM_PROC → Slot s i

/-! ## Example configurations and schedules -/

/-- The configuration with `NUM_PROC=1` and the operations `1 3 + 4` and `0 10 - 2`. -/
def scenario1 : Config := ⟨1, [⟨1, 3, '+', 4⟩, ⟨0, 10, '-', 2⟩]⟩

/-- The configuration with `NUM_PROC=2` and the operations `0 6 * 7` and `0 9 / 3`. -/
def scenario2 : Config := ⟨2, [⟨0, 6, '*', 7⟩, ⟨0, 9, '/', 3⟩]⟩

/-- The configuration with `NUM_PROC=1` and the operation `1 65536 * 32768`, whose product
is `2^31`. -/
def scenario_overflow : Config := ⟨1, [⟨1, 65536, '*', 32768⟩]⟩

/-- The configuration with `NUM_PROC=2` and the operations `0 3 + 4` and `0 65536 * 32768`. -/
def scenario_log : Config := ⟨2, [⟨0, 3, '+', 4⟩, ⟨0, 65536, '*', 32768⟩]⟩

/-- The configuration with `NUM_PROC=2` and the operation `2 100000 * 10000`, whose result
`1000000000` has ten digits. -/
def scenario_digits : Config := ⟨2, [⟨2, 100000, '*', 10000⟩]⟩

/-- The configuration with `NUM_PROC=1` and the operation `1 100000 * 10000`, whose result
`1000000000` has ten digits. -/
def scenario_overrun : Config := ⟨1, [⟨1, 100000, '*', 10000⟩]⟩

/-- The configuration with `NUM_PROC=1` and the operations `1 5 / 0` and `1 1 + 1`. -/
def scenario_zero : Config := ⟨1, [⟨1, 5, '/', 0⟩, ⟨1, 1, '+', 1⟩]⟩

/-- A configuration with `NUM_PROC=2` and operations for named children only. -/
def scenario3 : Config := ⟨2, [⟨2, 8, '/', 3⟩, ⟨1, 2, '*', 5⟩, ⟨2, 7, '-', 9⟩]⟩

/-- The schedule in which the father, child 0 and child 1 take turns, `n` times. -/
def turns (n : Nat) : List Proc :=
  (List.replicate n [none, some 0, some 1]).flatten

/-- The schedule in which the father moves `n` times. -/
def father_turns (n : Nat) : List Proc := List.replicate n none

/-- Concatenation of the lists `f 0, f 1, ..., f (n-1)`. -/
def gather {α : Type} (f : Nat → List α) : Nat → List α
  | 0 => []
  | n + 1 => gather f n ++ f n

/-- Decimal notation of an integer as the specification understands it: a minus sign for
a negative number, then the decimal digits of the absolute value, most significant first,
without leading zero (`0` for zero). -/
def decimal (n : Int) : List Char :=
  if n < 0 then '-' :: Nat.toDigits 10 n.natAbs else Nat.toDigits 10 n.natAbs

/-- The line `<num1><op><num2>=<result>` with the numbers in decimal notation, ended by a
newline. -/
def decimal_line (num1 : Int) (op : Char) (num2 : Int) (result : Int) : List Char :=
  decimal num1 ++ [op] ++ decimal num2 ++ ['='] ++ decimal result ++ ['\n']

/-! ## The first pass over the configuration file -/

/-- The loop that counts the lines (father.c l.87-95) from its first `read` on: the rest of
the file, the current content of `buf` and the current value of `righe`.  Every iteration
reads one character into `buf`; at the end of the file `read` returns 0 and leaves `buf` as it
is; in both cases the test `buf=='\n'` follows, and the loop ends when `read` returned 0. -/
def conta_righe : List Char → Char → Int → Int
  | [], buf, righe => if buf = '\n' then righe + 1 else righe
  | c :: rest, _, righe => conta_righe rest c (if c = '\n' then righe + 1 else righe)

/-- The value of `righe` after the first pass (father.c l.69, l.87-95) over a readable file.
`r0` and `buf0` are the values the uninitialised variables `r` and `buf` happen to have: with
`r0 = 0` the loop is not entered. -/
def righe (file : List Char) (r0 : Int) (buf0 : Char) : Int :=
  if r0 ≠ 0 then conta_righe file buf0 (-2) else -2

/-- A configuration file: the first line, the operation lines, each ended by a newline, and
the empty line that ends the list. -/
def config_file (first : List Char) (lines : List (List Char)) : List Char :=
  first ++ ['\n'] ++ (lines.map (fun l => l ++ ['\n'])).flatten ++ ['\n']

/-! ## Termination of the runs -/

/-- Every `val` of the configuration file names an existing child or is 0. -/
def ValidIds (cfg : Config) : Prop :=
  ∀ t ∈ cfg.tickets, t.id ≤ cfg.NUM_PROC

instance (cfg : Config) : Decidable (ValidIds cfg) := by
  unfold ValidIds
  infer_instance

/-- No operation of the configuration file is a division without quotient. -/
def NoTrap (cfg : Config) : Prop :=
  ∀ t ∈ cfg.tickets, calcolo t.num1 t.op t.num2 ≠ Outcome.trap

instance (cfg : Config) : Decidable (NoTrap cfg) := by
  unfold NoTrap
  infer_instance

/-- Sum of `f i` for `i < n`. -/
def sum_below (f : Nat → Nat) : Nat → Nat
  | 0 => 0
  | n + 1 => sum_below f n + f n

/-- Steps the father still makes in the current iteration, as an upper bound. -/
def father_work (n : Nat) : FatherPc → Nat
  | FatherPc.acquire => n + 11
  | FatherPc.scan j => n - j + 10
  | FatherPc.mark _ => 9
  | FatherPc.harvest _ => 8
  | FatherPc.write _ => 7
  | FatherPc.signal _ => 6
  | FatherPc.done => 0
  | FatherPc.fault => 0

/-- Steps a child still makes before it waits again. -/
def child_work : ChildPc → Nat
  | ChildPc.wait => 0
  | ChildPc.compute => 4
  | ChildPc.flag => 3
  | ChildPc.release => 2
  | ChildPc.free => 1
  | ChildPc.exited => 0
  | ChildPc.crashed => 0

/-- Steps child `i` still makes without a further signal of the father: a child whose
semaphore `2*i` is 0 has a whole round of five steps before it. -/
def pending_work (s : State) (i : Nat) : Nat :=
  child_work (s.child i) + (if ready s.semaforo i = 0 then 5 else 0)

/-- An upper bound on the number of steps the system can still make. -/
def remaining (cfg : Config) (s : State) : Nat :=
  (cfg.NUM_PROC + 12) * (cfg.tickets.length + cfg.NUM_PROC - s.job) +
    father_work cfg.NUM_PROC s.father + sum_below (pending_work s) cfg.NUM_PROC

/-- Invariant on the termination marker: a child that has exited has `'K'` in its record, and
only the children told to terminate have `'K'` in their record. -/
structure Marker (cfg : Config) (s : State) : Prop where
  exited : ∀ i, i < cfg.NUM_PROC → s.child i = ChildPc.exited → (s.memoria i).op = 'K'
  marked : ∀ i, i < cfg.NUM_PROC → (s.memoria i).op = 'K' → i < kills cfg s

/-! ## Basic lemmas -/

theorem aggiorna_same {α : Type} (f : Nat → α) (i : Nat) (v : α) : aggiorna f i v i = v := by
  simp [aggiorna]

theorem aggiorna_ne {α : Type} (f : Nat → α) {i k : Nat} (v : α) (h : k ≠ i) :
    aggiorna f i v k = f k := by
  simp [aggiorna, h]

theorem semop_dec (sem : Nat → Nat) (k : Nat) :
    semop sem [⟨k, -1⟩] = if 1 ≤ sem k then some (aggiorna sem k (sem k - 1)) else none := by
  simp [semop]

theorem semop_inc (sem : Nat → Nat) (k : Nat) :
    semop sem [⟨k, 1⟩] = some (aggiorna sem k (sem k + 1)) := by
  simp [semop]

theorem semop_zero (sem : Nat → Nat) (k : Nat) :
    semop sem [⟨k, 0⟩] = if sem k = 0 then some sem else none := by
  simp [semop]

theorem semop_zero_inc (sem : Nat → Nat) (k : Nat) :
    semop sem [⟨k, 0⟩, ⟨k, 1⟩] = if sem k = 0 then some (aggiorna sem k 1) else none := by
  by_cases h : sem k = 0 <;> simp [semop, h]

theorem father_step_trans {cfg : Config} {s t : State} (h : father_step cfg s = some t) :
    Trans cfg s t := by
  unfold father_step at h
  split at h
  · rename_i hpc
    rw [semop_dec] at h
    by_cases hs : 1 ≤ s.semaforo (2 * cfg.NUM_PROC)
    · simp only [hs, if_true] at h
      cases h
      exact Trans.acquire s hpc hs
    · simp [hs] at h
  · rename_i j hpc
    by_cases hj : j < cfg.NUM_PROC
    · simp only [hj, if_true, semop_zero] at h
      by_cases hb : s.semaforo (2 * j + 1) = 0
      · simp only [hb, if_true] at h
        cases h
        exact Trans.scan_free s j hpc hj hb
      · simp only [hb, if_false] at h
        cases h
        exact Trans.scan_busy s j hpc hj hb
    · simp only [hj, if_false] at h
      cases h
      exact Trans.scan_end s j hpc hj
  · rename_i i hpc
    by_cases hi : i < cfg.NUM_PROC
    · simp only [hi, if_true, semop_zero_inc] at h
      by_cases hb : s.semaforo (2 * i + 1) = 0
      · simp only [hb, if_true] at h
        cases h
        exact Trans.mark s i hpc hi hb
      · simp [hb] at h
    · simp only [hi, if_false] at h
      cases h
      exact Trans.mark_fault s i hpc hi
  · rename_i i hpc
    by_cases hf : (s.memoria i).finish = true
    · simp only [hf, if_true] at h
      cases h
      exact Trans.harvest s i hpc hf
    · simp only [hf] at h
      cases h
      exact Trans.harvest_none s i hpc (by simpa using hf)
  · rename_i i hpc
    split at h
    · rename_i t ht
      cases h
      exact Trans.write s i t hpc ht
    · rename_i ht
      cases h
      exact Trans.write_K s i hpc ht
  · rename_i i hpc
    rw [semop_dec] at h
    by_cases hs : 1 ≤ s.semaforo (2 * i)
    · simp only [hs, if_true] at h
      cases h
      exact Trans.signal s i hpc hs
    · simp [hs] at h
  · cases h
  · cases h

theorem child_step_trans {cfg : Config} {s t : State} {i : Nat} (hi : i < cfg.NUM_PROC)
    (h : child_step cfg i s = some t) : Trans cfg s t := by
  unfold child_step at h
  split at h
  · rename_i hpc
    rw [semop_zero_inc] at h
    by_cases hs : s.semaforo (2 * i) = 0
    · simp only [hs, if_true] at h
      cases h
      exact Trans.wake s i hi hpc hs
    · simp [hs] at h
  · rename_i hpc
    split at h
    · rename_i r hr
      cases h
      exact Trans.compute s i r hi hpc hr
    · rename_i hr
      cases h
      exact Trans.compute_default s i hi hpc hr
    · rename_i hr
      cases h
      exact Trans.compute_exit s i hi hpc hr
    · rename_i hr
      cases h
      exact Trans.compute_trap s i hi hpc hr
  · rename_i hpc
    cases h
    exact Trans.flag s i hi hpc
  · rename_i hpc
    rw [semop_dec] at h
    by_cases hs : 1 ≤ s.semaforo (2 * i + 1)
    · simp only [hs, if_true] at h
      cases h
      exact Trans.release s i hi hpc hs
    · simp [hs] at h
  · rename_i hpc
    rw [semop_inc] at h
    cases h
    exact Trans.free s i hi hpc
  · cases h
  · cases h

theorem Step.trans {cfg : Config} {s t : State} (h : Step cfg s t) : Trans cfg s t := by
  cases h with
  | father h => exact father_step_trans h
  | child i hi h => exact child_step_trans hi h

/-- Induction principle for reachable states in terms of `Trans`. -/
theorem Reachable.invariant {cfg : Config} (P : State → Prop) (h0 : P (initial cfg))
    (hstep : ∀ s t, Reachable cfg s → P s → Trans cfg s t → P t) :
    ∀ s, Reachable cfg s → P s := by
  intro s hs
  induction hs with
  | init => exact h0
  | step hr hst ih => exact hstep _ _ hr ih hst.trans

theorem run_reachable (cfg : Config) (ps : List Proc) :
    ∀ s, Reachable cfg s → Reachable cfg (run cfg ps s) := by
  induction ps with
  | nil => intro s hs; exact hs
  | cons p ps ih =>
    intro s hs
    unfold run
    cases hp : proc_step cfg p s with
    | none => exact ih s hs
    | some t =>
      apply ih t
      cases p with
      | none => exact Reachable.step hs (Step.father hp)
      | some i =>
        simp only [proc_step] at hp
        by_cases hi : i < cfg.NUM_PROC
        · simp only [hi, if_true] at hp
          exact Reachable.step hs (Step.child i hi hp)
        · simp [hi] at hp

/-! ### Semaphore views under updates -/

@[simp] theorem ready_upd_even (sem : Nat → Nat) (i k v : Nat) :
    ready (aggiorna sem (2 * i) v) k = if k = i then v else ready sem k := by
  simp only [ready, aggiorna]
  by_cases h : k = i
  · simp [h]
  · have : ¬ 2 * k = 2 * i := by omega
    simp [h, this]

@[simp] theorem ready_upd_odd (sem : Nat → Nat) (i k v : Nat) :
    ready (aggiorna sem (2 * i + 1) v) k = ready sem k := by
  simp only [ready, aggiorna]
  have : ¬ 2 * k = 2 * i + 1 := by omega
  simp [this]

@[simp] theorem busy_upd_even (sem : Nat → Nat) (i k v : Nat) :
    busy (aggiorna sem (2 * i) v) k = busy sem k := by
  simp only [busy, aggiorna]
  have : ¬ 2 * k + 1 = 2 * i := by omega
  simp [this]

@[simp] theorem busy_upd_odd (sem : Nat → Nat) (i k v : Nat) :
    busy (aggiorna sem (2 * i + 1) v) k = if k = i then v else busy sem k := by
  simp only [busy, aggiorna]
  by_cases h : k = i
  · simp [h]
  · have : ¬ 2 * k + 1 = 2 * i + 1 := by omega
    simp [h, this]

@[simp] theorem freecount_upd_even (cfg : Config) (sem : Nat → Nat) (i v : Nat) :
    freecount cfg (aggiorna sem (2 * i) v) =
      if i = cfg.NUM_PROC then v else freecount cfg sem := by
  simp only [freecount, aggiorna]
  by_cases h : i = cfg.NUM_PROC
  · simp [h]
  · have : ¬ 2 * cfg.NUM_PROC = 2 * i := by omega
    simp [h, this]

@[simp] theorem freecount_upd_odd (cfg : Config) (sem : Nat → Nat) (i v : Nat) :
    freecount cfg (aggiorna sem (2 * i + 1) v) = freecount cfg sem := by
  simp only [freecount, aggiorna]
  have : ¬ 2 * cfg.NUM_PROC = 2 * i + 1 := by omega
  simp [this]

/-! ### Counting -/

theorem count_below_congr {p q : Nat → Bool} {n : Nat} (h : ∀ k, k < n → p k = q k) :
    count_below p n = count_below q n := by
  induction n with
  | zero => rfl
  | succ n ih =>
    simp only [count_below]
    rw [ih (fun k hk => h k (by omega)), h n (by omega)]

/-- Changing the predicate at one index below `n` changes the count by that index only. -/
theorem count_below_update {p q : Nat → Bool} {n i : Nat} (hi : i < n)
    (h : ∀ k, k ≠ i → p k = q k) :
    count_below p n + (if q i then 1 else 0) = count_below q n + (if p i then 1 else 0) := by
  induction n with
  | zero => omega
  | succ n ih =>
    simp only [count_below]
    by_cases hin : i = n
    · subst hin
      have := count_below_congr (p := p) (q := q) (n := i) (fun k hk => h k (by omega))
      omega
    · have := ih (by omega)
      rw [h n (fun e => hin e.symm)]
      omega

theorem count_below_le (p : Nat → Bool) (n : Nat) : count_below p n ≤ n := by
  induction n with
  | zero => simp [count_below]
  | succ n ih => simp only [count_below]; split <;> omega

theorem count_below_pos {p : Nat → Bool} {n : Nat} (h : 0 < count_below p n) :
    ∃ k, k < n ∧ p k = true := by
  induction n with
  | zero => simp [count_below] at h
  | succ n ih =>
    simp only [count_below] at h
    by_cases hp : p n = true
    · exact ⟨n, by omega, hp⟩
    · simp only [hp] at h
      obtain ⟨k, hk, hpk⟩ := ih (by simpa using h)
      exact ⟨k, by omega, hpk⟩

theorem count_below_zero {p : Nat → Bool} {n : Nat} (h : ∀ k, k < n → p k = false) :
    count_below p n = 0 := by
  induction n with
  | zero => rfl
  | succ n ih =>
    simp only [count_below]
    rw [ih (fun k hk => h k (by omega)), h n (by omega)]
    simp

theorem count_below_all {p : Nat → Bool} {n : Nat} (h : ∀ k, k < n → p k = true) :
    count_below p n = n := by
  induction n with
  | zero => rfl
  | succ n ih =>
    simp only [count_below]
    rw [ih (fun k hk => h k (by omega)), h n (by omega)]
    simp

theorem count_free_upd (ch : Nat → ChildPc) {n i : Nat} (c : ChildPc) (hi : i < n) :
    count_below (fun k => decide (aggiorna ch i c k = ChildPc.free)) n +
        (if ch i = ChildPc.free then 1 else 0) =
      count_below (fun k => decide (ch k = ChildPc.free)) n +
        (if c = ChildPc.free then 1 else 0) := by
  have h := count_below_update (p := fun k => decide (aggiorna ch i c k = ChildPc.free))
    (q := fun k => decide (ch k = ChildPc.free)) hi
    (by intro k hk; simp [aggiorna, hk])
  simpa [aggiorna] using h

theorem count_busy_upd_odd (sem : Nat → Nat) {n i : Nat} (v : Nat) (hi : i < n) :
    count_below (fun k => decide (busy (aggiorna sem (2 * i + 1) v) k = 0)) n +
        (if busy sem i = 0 then 1 else 0) =
      count_below (fun k => decide (busy sem k = 0)) n + (if v = 0 then 1 else 0) := by
  have h := count_below_update
    (p := fun k => decide (busy (aggiorna sem (2 * i + 1) v) k = 0))
    (q := fun k => decide (busy sem k = 0)) hi
    (by intro k hk; simp [hk])
  simpa using h

@[simp] theorem target_pc_inCS (cfg : Config) (k i : Nat) : (target_pc cfg k).inCS i = false := by
  unfold target_pc
  split
  · split <;> rfl
  · rfl

@[simp] theorem target_pc_mid (cfg : Config) (k : Nat) : (target_pc cfg k).mid = 1 := by
  unfold target_pc
  split
  · split <;> rfl
  · rfl

@[simp] theorem next_pc_inCS (cfg : Config) (k i : Nat) : (next_pc cfg k).inCS i = false := by
  unfold next_pc
  split <;> rfl

@[simp] theorem next_pc_mid (cfg : Config) (k : Nat) : (next_pc cfg k).mid = 0 := by
  unfold next_pc
  split <;> rfl

theorem target_pc_scan {cfg : Config} {k j : Nat} (h : target_pc cfg k = FatherPc.scan j) :
    j = 0 := by
  unfold target_pc at h
  split at h
  · split at h
    · cases h; rfl
    · cases h
  · cases h

theorem next_pc_ne_scan (cfg : Config) (k j : Nat) : next_pc cfg k ≠ FatherPc.scan j := by
  unfold next_pc
  split <;> simp

theorem protocol_initial (cfg : Config) : Protocol cfg (initial cfg) := by
  refine ⟨?_, ?_, ?_, ?_⟩
  · intro i hi
    left
    refine ⟨?_, ?_, rfl, ?_⟩
    · have h1 : ¬ 2 * i + 1 = 2 * cfg.NUM_PROC := by omega
      have h2 : ¬ (2 * i + 1) % 2 = 0 := by omega
      simp [busy, SystemCall.initial, h1, h2]
    · have h1 : ¬ 2 * i = 2 * cfg.NUM_PROC := by omega
      have h2 : 2 * i < 2 * cfg.NUM_PROC := by omega
      simp [ready, SystemCall.initial, h1, h2]
    · simp only [SystemCall.initial]
      split <;> rfl
  · intro i h
    simp only [SystemCall.initial] at h
    split at h <;> simp [FatherPc.inCS] at h
  · have hm : (SystemCall.initial cfg).father.mid = 0 := by
      simp only [SystemCall.initial]
      split <;> rfl
    have hr : releasing cfg (SystemCall.initial cfg) = 0 := by
      apply count_below_zero
      intro k _
      simp [SystemCall.initial]
    have hf : free_children cfg (SystemCall.initial cfg) = cfg.NUM_PROC := by
      apply count_below_all
      intro k hk
      have h1 : ¬ 2 * k + 1 = 2 * cfg.NUM_PROC := by omega
      have h2 : ¬ (2 * k + 1) % 2 = 0 := by omega
      simp [busy, SystemCall.initial, h1, h2]
    rw [hm, hr, hf]
    simp [freecount, SystemCall.initial]
  · intro j h
    simp only [SystemCall.initial] at h
    split at h <;> cases h

/-! ### Program points -/

@[simp] theorem FatherPc.inCS_acquire (i : Nat) : FatherPc.acquire.inCS i = false := rfl
@[simp] theorem FatherPc.inCS_scan (j i : Nat) : (FatherPc.scan j).inCS i = false := rfl
@[simp] theorem FatherPc.inCS_mark (j i : Nat) : (FatherPc.mark j).inCS i = false := rfl
@[simp] theorem FatherPc.inCS_harvest (j i : Nat) :
    (FatherPc.harvest j).inCS i = decide (j = i) := rfl
@[simp] theorem FatherPc.inCS_write (j i : Nat) :
    (FatherPc.write j).inCS i = decide (j = i) := rfl
@[simp] theorem FatherPc.inCS_signal (j i : Nat) :
    (FatherPc.signal j).inCS i = decide (j = i) := rfl
@[simp] theorem FatherPc.inCS_done (i : Nat) : FatherPc.done.inCS i = false := rfl
@[simp] theorem FatherPc.inCS_fault (i : Nat) : FatherPc.fault.inCS i = false := rfl
@[simp] theorem FatherPc.mid_acquire : FatherPc.acquire.mid = 0 := rfl
@[simp] theorem FatherPc.mid_scan (j : Nat) : (FatherPc.scan j).mid = 1 := rfl
@[simp] theorem FatherPc.mid_mark (j : Nat) : (FatherPc.mark j).mid = 1 := rfl
@[simp] theorem FatherPc.mid_harvest (j : Nat) : (FatherPc.harvest j).mid = 0 := rfl
@[simp] theorem FatherPc.mid_write (j : Nat) : (FatherPc.write j).mid = 0 := rfl
@[simp] theorem FatherPc.mid_signal (j : Nat) : (FatherPc.signal j).mid = 0 := rfl
@[simp] theorem FatherPc.mid_done : FatherPc.done.mid = 0 := rfl
@[simp] theorem FatherPc.mid_fault : FatherPc.fault.mid = 1 := rfl
@[simp] theorem ChildPc.inCS_wait : ChildPc.wait.inCS = false := rfl
@[simp] theorem ChildPc.inCS_compute : ChildPc.compute.inCS = true := rfl
@[simp] theorem ChildPc.inCS_flag : ChildPc.flag.inCS = true := rfl
@[simp] theorem ChildPc.inCS_release : ChildPc.release.inCS = true := rfl
@[simp] theorem ChildPc.inCS_free : ChildPc.free.inCS = false := rfl
@[simp] theorem ChildPc.inCS_exited : ChildPc.exited.inCS = true := rfl
@[simp] theorem ChildPc.inCS_crashed : ChildPc.crashed.inCS = true := rfl

theorem phase_step {cfg : Config} {s t : State} (hp : Protocol cfg s) (h : Trans cfg s t) :
    ∀ k, k < cfg.NUM_PROC → Phase t k := by
  intro k hk
  have hph := hp.phase k hk
  have hkN : k ≠ cfg.NUM_PROC := by omega
  unfold Phase at hph ⊢
  cases h with
  | acquire hpc hs => simp [hpc, hkN] at hph ⊢; exact hph
  | scan_free j hpc hj hb => simp [hpc] at hph ⊢; exact hph
  | scan_busy j hpc hj hb => simp [hpc] at hph ⊢; exact hph
  | scan_end j hpc hj => simp [hpc] at hph ⊢; exact hph
  | mark i hpc hi hb =>
    by_cases hki : k = i
    · subst hki; simp [hpc, hb] at hph ⊢; simp_all
    · have hik : i ≠ k := fun e => hki e.symm
      simp [hpc, hki, hik] at hph ⊢; exact hph
  | mark_fault i hpc hi => simp [hpc] at hph ⊢; exact hph
  | harvest i hpc hf => simp [hpc] at hph ⊢; exact hph
  | harvest_none i hpc hf => simp [hpc] at hph ⊢; exact hph
  | write i tk hpc ht => simp [hpc] at hph ⊢; exact hph
  | write_K i hpc ht => simp [hpc] at hph ⊢; exact hph
  | signal i hpc hs =>
    by_cases hki : k = i
    · subst hki; simp [hpc] at hph ⊢; simp_all
    · have hik : i ≠ k := fun e => hki e.symm
      simp [hpc, hki, hik] at hph ⊢; exact hph
  | wake i hi hpc hs =>
    by_cases hki : k = i
    · subst hki; simp [hpc, hs, aggiorna] at hph ⊢; simp_all
    · simp [hki, aggiorna] at hph ⊢; exact hph
  | compute i r hi hpc hr =>
    by_cases hki : k = i
    · subst hki; simp [hpc, aggiorna] at hph ⊢; exact hph
    · simp [hki, aggiorna] at hph ⊢; exact hph
  | compute_default i hi hpc hr =>
    by_cases hki : k = i
    · subst hki; simp [hpc, aggiorna] at hph ⊢; exact hph
    · simp [hki, aggiorna] at hph ⊢; exact hph
  | compute_exit i hi hpc hr =>
    by_cases hki : k = i
    · subst hki; simp [hpc, aggiorna] at hph ⊢; exact hph
    · simp [hki, aggiorna] at hph ⊢; exact hph
  | compute_trap i hi hpc hr =>
    by_cases hki : k = i
    · subst hki; simp [hpc, aggiorna] at hph ⊢; exact hph
    · simp [hki, aggiorna] at hph ⊢; exact hph
  | flag i hi hpc =>
    by_cases hki : k = i
    · subst hki; simp [hpc, aggiorna] at hph ⊢; exact hph
    · simp [hki, aggiorna] at hph ⊢; exact hph
  | release i hi hpc hs =>
    by_cases hki : k = i
    · subst hki; simp [hpc, aggiorna] at hph ⊢; simp_all
    · simp [hki, aggiorna] at hph ⊢; exact hph
  | free i hi hpc =>
    by_cases hki : k = i
    · subst hki; simp [hpc, aggiorna, hkN] at hph ⊢; exact hph
    · simp [hki, aggiorna, hkN] at hph ⊢; exact hph

theorem cs_lt_step {cfg : Config} {s t : State} (hp : Protocol cfg s) (h : Trans cfg s t) :
    ∀ k, t.father.inCS k = true → k < cfg.NUM_PROC := by
  intro k hk
  have hcs := hp.cs_lt k
  cases h with
  | acquire hpc hs => simp at hk
  | scan_free j hpc hj hb => simp at hk
  | scan_busy j hpc hj hb => simp at hk
  | scan_end j hpc hj => simp at hk
  | mark i hpc hi hb => simp at hk; omega
  | mark_fault i hpc hi => simp at hk
  | harvest i hpc hf => simp [hpc] at hk hcs; exact hcs hk
  | harvest_none i hpc hf => simp [hpc] at hk hcs; exact hcs hk
  | write i tk hpc ht => simp [hpc] at hk hcs; exact hcs hk
  | write_K i hpc ht => simp [hpc] at hk hcs; exact hcs hk
  | signal i hpc hs => simp at hk
  | wake i hi hpc hs => exact hcs hk
  | compute i r hi hpc hr => exact hcs hk
  | compute_default i hi hpc hr => exact hcs hk
  | compute_exit i hi hpc hr => exact hcs hk
  | compute_trap i hi hpc hr => exact hcs hk
  | flag i hi hpc => exact hcs hk
  | release i hi hpc hs => exact hcs hk
  | free i hi hpc => exact hcs hk

theorem balance_step {cfg : Config} {s t : State} (hp : Protocol cfg s) (h : Trans cfg s t) :
    freecount cfg t.semaforo + t.father.mid + releasing cfg t = free_children cfg t := by
  have hb := hp.balance
  unfold releasing free_children at hb ⊢
  cases h with
  | acquire hpc hs => simp [hpc] at hb ⊢; omega
  | scan_free j hpc hj hb0 => simp [hpc] at hb ⊢; omega
  | scan_busy j hpc hj hb0 => simp [hpc] at hb ⊢; omega
  | scan_end j hpc hj => simp [hpc] at hb ⊢; omega
  | mark i hpc hi hb0 =>
    have hc := count_busy_upd_odd s.semaforo 1 hi
    simp [hb0] at hc
    simp [hpc] at hb ⊢
    omega
  | mark_fault i hpc hi => simp [hpc] at hb ⊢; omega
  | harvest i hpc hf => simp [hpc] at hb ⊢; omega
  | harvest_none i hpc hf => simp [hpc] at hb ⊢; omega
  | write i tk hpc ht => simp [hpc] at hb ⊢; omega
  | write_K i hpc ht => simp [hpc] at hb ⊢; omega
  | signal i hpc hs =>
    have hi : i < cfg.NUM_PROC := hp.cs_lt i (by simp [hpc])
    have hiN : i ≠ cfg.NUM_PROC := by omega
    simp [hpc, hiN] at hb ⊢
    omega
  | wake i hi hpc hs =>
    have hiN : i ≠ cfg.NUM_PROC := by omega
    have hc := count_free_upd s.child ChildPc.compute hi
    simp [hpc] at hc
    simp [hiN, hc] at hb ⊢
    omega
  | compute i r hi hpc hr =>
    have hc := count_free_upd s.child ChildPc.flag hi
    simp [hpc] at hc
    simp [hc] at hb ⊢
    omega
  | compute_default i hi hpc hr =>
    have hc := count_free_upd s.child ChildPc.flag hi
    simp [hpc] at hc
    simp [hc] at hb ⊢
    omega
  | compute_exit i hi hpc hr =>
    have hc := count_free_upd s.child ChildPc.exited hi
    simp [hpc] at hc
    simp [hc] at hb ⊢
    omega
  | compute_trap i hi hpc hr =>
    have hc := count_free_upd s.child ChildPc.crashed hi
    simp [hpc] at hc
    simp [hc] at hb ⊢
    omega
  | flag i hi hpc =>
    have hc := count_free_upd s.child ChildPc.release hi
    simp [hpc] at hc
    simp [hc] at hb ⊢
    omega
  | release i hi hpc hs =>
    have hph := hp.phase i hi
    simp [Phase, hpc] at hph
    have hc := count_free_upd s.child ChildPc.free hi
    simp [hpc] at hc
    have h0 : busy s.semaforo i - 1 = 0 := by omega
    have hc2 := count_busy_upd_odd s.semaforo 0 hi
    have h10 : ¬ (1 = 0) := by decide
    simp only [hph.1, if_true, h10, if_false] at hc2
    simp only [h0] at hb ⊢
    simp only [freecount_upd_odd]
    omega
  | free i hi hpc =>
    have hc := count_free_upd s.child ChildPc.wait hi
    simp [hpc] at hc
    simp at hb ⊢
    omega

theorem scan_step {cfg : Config} {s t : State} (hp : Protocol cfg s) (h : Trans cfg s t) :
    ∀ j, t.father = FatherPc.scan j →
      ∃ k, j ≤ k ∧ k < cfg.NUM_PROC ∧ busy t.semaforo k = 0 := by
  intro j hj
  have hsc := hp.scan j
  cases h with
  | acquire hpc hs =>
    have hj0 := target_pc_scan hj
    have hb := hp.balance
    simp only [hpc, FatherPc.mid_acquire] at hb
    have hpos : 0 < free_children cfg s := by omega
    obtain ⟨k, hk, hbk⟩ := count_below_pos hpos
    exact ⟨k, by omega, hk, by simpa using hbk⟩
  | scan_free j' hpc hj' hb => cases hj
  | scan_busy j' hpc hj' hb =>
    cases hj
    obtain ⟨k, hk1, hk2, hk3⟩ := hp.scan j' hpc
    have : k ≠ j' := by
      intro e
      subst e
      exact hb hk3
    exact ⟨k, by omega, hk2, hk3⟩
  | scan_end j' hpc hj' => cases hj
  | mark i hpc hi hb => cases hj
  | mark_fault i hpc hi => cases hj
  | harvest i hpc hf => cases hj
  | harvest_none i hpc hf => cases hj
  | write i tk hpc ht => cases hj
  | write_K i hpc ht => cases hj
  | signal i hpc hs => exact absurd hj (next_pc_ne_scan _ _ _)
  | wake i hi hpc hs =>
    obtain ⟨k, hk1, hk2, hk3⟩ := hsc hj
    exact ⟨k, hk1, hk2, by simpa using hk3⟩
  | compute i r hi hpc hr => exact hsc hj
  | compute_default i hi hpc hr => exact hsc hj
  | compute_exit i hi hpc hr => exact hsc hj
  | compute_trap i hi hpc hr => exact hsc hj
  | flag i hi hpc => exact hsc hj
  | release i hi hpc hs =>
    obtain ⟨k, hk1, hk2, hk3⟩ := hsc hj
    refine ⟨k, hk1, hk2, ?_⟩
    simp only [busy_upd_odd]
    by_cases hki : k = i
    · subst hki
      simp [hk3]
    · simp [hki, hk3]
  | free i hi hpc =>
    obtain ⟨k, hk1, hk2, hk3⟩ := hsc hj
    exact ⟨k, hk1, hk2, by simpa using hk3⟩

theorem protocol_step {cfg : Config} {s t : State} (hp : Protocol cfg s) (h : Trans cfg s t) :
    Protocol cfg t :=
  ⟨phase_step hp h, cs_lt_step hp h, balance_step hp h, scan_step hp h⟩

theorem Reachable.protocol {cfg : Config} {s : State} (h : Reachable cfg s) : Protocol cfg s :=
  Reachable.invariant (Protocol cfg) (protocol_initial cfg) (fun _ _ _ hp ht => protocol_step hp ht) s h

@[simp] theorem FatherPc.isSignal_acquire : FatherPc.acquire.isSignal = false := rfl
@[simp] theorem FatherPc.isSignal_scan (j : Nat) : (FatherPc.scan j).isSignal = false := rfl
@[simp] theorem FatherPc.isSignal_mark (j : Nat) : (FatherPc.mark j).isSignal = false := rfl
@[simp] theorem FatherPc.isSignal_harvest (j : Nat) : (FatherPc.harvest j).isSignal = false := rfl
@[simp] theorem FatherPc.isSignal_write (j : Nat) : (FatherPc.write j).isSignal = false := rfl
@[simp] theorem FatherPc.isSignal_signal (j : Nat) : (FatherPc.signal j).isSignal = true := rfl
@[simp] theorem FatherPc.isSignal_done : FatherPc.done.isSignal = false := rfl
@[simp] theorem FatherPc.isSignal_fault : FatherPc.fault.isSignal = false := rfl

@[simp] theorem target_pc_isSignal (cfg : Config) (k : Nat) :
    (target_pc cfg k).isSignal = false := by
  unfold target_pc
  split
  · split <;> rfl
  · rfl

@[simp] theorem next_pc_isSignal (cfg : Config) (k : Nat) : (next_pc cfg k).isSignal = false := by
  unfold next_pc
  split <;> rfl

theorem target_pc_ne_done (cfg : Config) (k : Nat) : target_pc cfg k ≠ FatherPc.done := by
  unfold target_pc
  split
  · split <;> simp
  · simp

theorem target_pc_drain {cfg : Config} {k : Nat} (h : cfg.tickets.length ≤ k) :
    target_pc cfg k = FatherPc.mark (k - cfg.tickets.length) := by
  unfold target_pc
  have : cfg.tickets[k]? = none := List.getElem?_eq_none h
  rw [this]

theorem target_pc_scan_lt {cfg : Config} {k j : Nat} (h : target_pc cfg k = FatherPc.scan j) :
    k < cfg.tickets.length := by
  by_contra hk
  rw [target_pc_drain (by omega)] at h
  cases h

theorem next_pc_ne_mark (cfg : Config) (k j : Nat) : next_pc cfg k ≠ FatherPc.mark j := by
  unfold next_pc
  split <;> simp

theorem isSignal_of_inCS {p : FatherPc} {i : Nat} (h : p = FatherPc.signal i) :
    p.isSignal = true := by
  subst h; rfl

theorem flags_initial (cfg : Config) : Flags cfg (initial cfg) := by
  refine ⟨?_, ?_, ?_, ?_, ?_, ?_, ?_, ?_, ?_⟩
  · intro h
    simp only [SystemCall.initial] at h ⊢
    by_contra hn
    simp [hn] at h
  · intro h
    simp only [SystemCall.initial] at h ⊢
    split at h
    · cases h
    · omega
  · intro _ i h
    simp only [SystemCall.initial] at h
    split at h <;> simp at h
  · intro j h
    simp only [SystemCall.initial] at h
    split at h <;> cases h
  · have : kills cfg (SystemCall.initial cfg) = 0 := by
      simp only [kills, SystemCall.initial]
      split <;> simp
    rw [this]
    rfl
  · intro i _ h
    have : kills cfg (SystemCall.initial cfg) = 0 := by
      simp only [kills, SystemCall.initial]
      split <;> simp
    omega
  · intro i _ _
    rfl
  · intro i _ _
    rfl
  · intro i _ _ _
    rfl

theorem job_lt_step {cfg : Config} {s t : State} (hf : Flags cfg s) (h : Trans cfg s t) :
    t.father ≠ FatherPc.done → t.job < cfg.tickets.length + cfg.NUM_PROC := by
  have h1 := hf.job_lt
  cases h with
  | signal i hpc hs =>
    intro hd
    simp only [next_pc] at hd ⊢
    by_contra hn
    simp [hn] at hd
  | acquire hpc hs => intro _; exact h1 (by simp [hpc])
  | scan_free j hpc hj hb => intro _; exact h1 (by simp [hpc])
  | scan_busy j hpc hj hb => intro _; exact h1 (by simp [hpc])
  | scan_end j hpc hj => intro _; exact h1 (by simp [hpc])
  | mark i hpc hi hb => intro _; exact h1 (by simp [hpc])
  | mark_fault i hpc hi => intro _; exact h1 (by simp [hpc])
  | harvest i hpc hf => intro _; exact h1 (by simp [hpc])
  | harvest_none i hpc hf => intro _; exact h1 (by simp [hpc])
  | write i tk hpc ht => intro _; exact h1 (by simp [hpc])
  | write_K i hpc ht => intro _; exact h1 (by simp [hpc])
  | _ => exact h1

theorem job_eq_step {cfg : Config} {s t : State} (hf : Flags cfg s) (h : Trans cfg s t) :
    t.father = FatherPc.done → t.job = cfg.tickets.length + cfg.NUM_PROC := by
  have h1 := hf.job_eq
  have h2 := hf.job_lt
  cases h with
  | signal i hpc hs =>
    intro hd
    have := h2 (by simp [hpc])
    simp only [next_pc] at hd ⊢
    split at hd
    · cases hd
    · omega
  | acquire hpc hs => intro hd; exact absurd hd (target_pc_ne_done _ _)
  | scan_free j hpc hj hb => intro hd; cases hd
  | scan_busy j hpc hj hb => intro hd; cases hd
  | scan_end j hpc hj => intro hd; cases hd
  | mark i hpc hi hb => intro hd; cases hd
  | mark_fault i hpc hi => intro hd; cases hd
  | harvest i hpc hf => intro hd; cases hd
  | harvest_none i hpc hf => intro hd; cases hd
  | write i tk hpc ht => intro hd; cases hd
  | write_K i hpc ht => intro hd; cases hd
  | _ => exact h1

theorem drain_step {cfg : Config} {s t : State} (hf : Flags cfg s) (h : Trans cfg s t) :
    cfg.tickets.length ≤ t.job →
      ∀ i, t.father = FatherPc.mark i ∨ t.father.inCS i = true →
        i = t.job - cfg.tickets.length := by
  have h1 := hf.drain
  have h2 := hf.drain_scan
  cases h with
  | acquire hpc hs =>
    intro hj i hi
    simp only [target_pc_drain hj, FatherPc.inCS_mark] at hi
    rcases hi with hi | hi
    · cases hi; rfl
    · cases hi
  | scan_free j hpc hj hb => intro hj'; have := h2 j hpc; simp only at hj'; omega
  | scan_busy j hpc hj hb => intro hj'; have := h2 j hpc; simp only at hj'; omega
  | scan_end j hpc hj => intro hj'; have := h2 j hpc; simp only at hj'; omega
  | mark i hpc hi hb =>
    intro hj k hk
    simp at hk
    exact h1 hj k (by simp [hpc, hk])
  | mark_fault i hpc hi => intro hj k hk; simp at hk
  | harvest i hpc hf =>
    intro hj k hk
    simp at hk
    exact h1 hj k (by simp [hpc, hk])
  | harvest_none i hpc hf =>
    intro hj k hk
    simp at hk
    exact h1 hj k (by simp [hpc, hk])
  | write i tk hpc ht =>
    intro hj k hk
    simp at hk
    exact h1 hj k (by simp [hpc, hk])
  | write_K i hpc ht =>
    intro hj k hk
    simp at hk
    exact h1 hj k (by simp [hpc, hk])
  | signal i hpc hs =>
    intro hj k hk
    simp [next_pc_ne_mark] at hk
  | _ => exact h1

theorem drain_scan_step {cfg : Config} {s t : State} (hf : Flags cfg s) (h : Trans cfg s t) :
    ∀ j, t.father = FatherPc.scan j → t.job < cfg.tickets.length := by
  have h2 := hf.drain_scan
  cases h with
  | acquire hpc hs => intro j hj; exact target_pc_scan_lt hj
  | scan_busy j hpc hj hb => intro j' _; exact h2 j hpc
  | signal i hpc hs => intro j hj; exact absurd hj (next_pc_ne_scan _ _ _)
  | scan_free j hpc hj hb => intro j' hj'; cases hj'
  | scan_end j hpc hj => intro j' hj'; cases hj'
  | mark i hpc hi hb => intro j' hj'; cases hj'
  | mark_fault i hpc hi => intro j' hj'; cases hj'
  | harvest i hpc hf => intro j' hj'; cases hj'
  | harvest_none i hpc hf => intro j' hj'; cases hj'
  | write i tk hpc ht => intro j' hj'; cases hj'
  | write_K i hpc ht => intro j' hj'; cases hj'
  | _ => exact h2

/-- How the number of `'K'` writes changes in one step. -/
theorem kills_step {cfg : Config} {s t : State} (hf : Flags cfg s) (h : Trans cfg s t) :
    (kills cfg t = kills cfg s ∧ t.killed = s.killed) ∨
    (∃ i, s.father = FatherPc.write i ∧ cfg.tickets[s.job]? = none ∧
      kills cfg t = kills cfg s + 1 ∧ t.killed = s.killed ++ [i] ∧ i = kills cfg s) := by
  cases h with
  | write_K i hpc ht =>
    right
    have hj : cfg.tickets.length ≤ s.job := by
      by_contra hn
      have := List.getElem?_eq_getElem (l := cfg.tickets) (n := s.job) (by omega)
      rw [this] at ht
      cases ht
    have := hf.drain hj i (Or.inr (by simp [hpc]))
    refine ⟨i, hpc, ht, ?_, rfl, ?_⟩
    · simp [kills, hpc, hj]
    · simp [kills, hpc, this]
  | write i tk hpc ht =>
    left
    have hj : s.job < cfg.tickets.length := by
      by_contra hn
      rw [List.getElem?_eq_none (by omega)] at ht
      cases ht
    have : ¬ cfg.tickets.length ≤ s.job := by omega
    simp [kills, hpc, this]
  | signal i hpc hs =>
    left
    simp only [kills, hpc, next_pc_isSignal, FatherPc.isSignal_signal, and_true, true_and]
    by_cases hj : cfg.tickets.length ≤ s.job
    · simp [hj]; omega
    · simp [hj]; omega
  | acquire hpc hs => left; simp [kills, hpc]
  | scan_free j hpc hj hb => left; simp [kills, hpc]
  | scan_busy j hpc hj hb => left; simp [kills, hpc]
  | scan_end j hpc hj => left; simp [kills, hpc]
  | mark i hpc hi hb => left; simp [kills, hpc]
  | mark_fault i hpc hi => left; simp [kills, hpc]
  | harvest i hpc hf => left; simp [kills, hpc]
  | harvest_none i hpc hf => left; simp [kills, hpc]
  | wake i hi hpc hs => left; simp [kills]
  | compute i r hi hpc hr => left; simp [kills]
  | compute_default i hi hpc hr => left; simp [kills]
  | compute_exit i hi hpc hr => left; simp [kills]
  | compute_trap i hi hpc hr => left; simp [kills]
  | flag i hi hpc => left; simp [kills]
  | release i hi hpc hs => left; simp [kills]
  | free i hi hpc => left; simp [kills]

theorem killed_eq_step {cfg : Config} {s t : State} (hf : Flags cfg s) (h : Trans cfg s t) :
    t.killed = List.range (kills cfg t) := by
  rcases kills_step hf h with ⟨h1, h2⟩ | ⟨i, _, _, h1, h2, h3⟩
  · rw [h1, h2]; exact hf.killed_eq
  · rw [h1, h2, List.range_succ, hf.killed_eq, h3]

theorem calcolo_K (a b : Int) : calcolo a 'K' b = Outcome.exit := by
  simp [calcolo]

theorem write_clear_step {cfg : Config} {s t : State} (hp : Protocol cfg s) (hf : Flags cfg s)
    (h : Trans cfg s t) :
    ∀ k, k < cfg.NUM_PROC →
      t.father = FatherPc.write k ∨ t.father = FatherPc.signal k →
        (t.memoria k).finish = false := by
  intro k hk hw
  have h1 := hf.write_clear k hk
  cases h with
  | acquire hpc hs =>
    rcases hw with hw | hw <;> simp only [target_pc] at hw <;> split at hw <;>
      (try split at hw) <;> cases hw
  | scan_free j hpc hj hb => simp at hw
  | scan_busy j hpc hj hb => simp at hw
  | scan_end j hpc hj => simp at hw
  | mark i hpc hi hb => simp at hw
  | mark_fault i hpc hi => simp at hw
  | harvest i hpc hfin => simp at hw; subst hw; simp [aggiorna]
  | harvest_none i hpc hfin => simp at hw; subst hw; exact hfin
  | write i tk hpc ht => simp at hw; subst hw; simp [aggiorna]; exact h1 (Or.inl hpc)
  | write_K i hpc ht => simp at hw; subst hw; simp [aggiorna]; exact h1 (Or.inl hpc)
  | signal i hpc hs =>
    rcases hw with hw | hw <;> simp only [next_pc] at hw <;> split at hw <;> cases hw
  | wake i hi hpc hs => exact h1 hw
  | compute i r hi hpc hr =>
    have := h1 hw
    by_cases hki : k = i
    · subst hki; simpa [aggiorna] using this
    · simpa [aggiorna, hki] using this
  | compute_default i hi hpc hr => exact h1 hw
  | compute_exit i hi hpc hr => exact h1 hw
  | compute_trap i hi hpc hr => exact h1 hw
  | flag i hi hpc =>
    have := h1 hw
    by_cases hki : k = i
    · subst hki
      have hph := hp.phase k hk
      simp only [Phase, hpc] at hph
      have hw' : s.father = FatherPc.write k ∨ s.father = FatherPc.signal k := hw
      rcases hw' with hw' | hw' <;> simp [hw'] at hph
    · simpa [aggiorna, hki] using this
  | release i hi hpc hs => exact h1 hw
  | free i hi hpc => exact h1 hw

theorem ready_clear_step {cfg : Config} {s t : State} (hp : Protocol cfg s) (hf : Flags cfg s)
    (h : Trans cfg s t) :
    ∀ k, k < cfg.NUM_PROC → ready t.semaforo k = 0 → (t.memoria k).finish = false := by
  intro k hk hr
  have h1 := hf.ready_clear k hk
  have hkN : k ≠ cfg.NUM_PROC := by omega
  cases h with
  | acquire hpc hs => simp [hkN] at hr; exact h1 hr
  | scan_free j hpc hj hb => exact h1 hr
  | scan_busy j hpc hj hb => exact h1 hr
  | scan_end j hpc hj => exact h1 hr
  | mark i hpc hi hb => simp at hr; exact h1 hr
  | mark_fault i hpc hi => exact h1 hr
  | harvest i hpc hfin =>
    by_cases hki : k = i
    · subst hki; simp [aggiorna]
    · simpa [aggiorna, hki] using h1 hr
  | harvest_none i hpc hfin => exact h1 hr
  | write i tk hpc ht =>
    by_cases hki : k = i
    · subst hki; simpa [aggiorna] using h1 hr
    · simpa [aggiorna, hki] using h1 hr
  | write_K i hpc ht =>
    by_cases hki : k = i
    · subst hki; simpa [aggiorna] using h1 hr
    · simpa [aggiorna, hki] using h1 hr
  | signal i hpc hs =>
    by_cases hki : k = i
    · subst hki; exact hf.write_clear k hk (Or.inr hpc)
    · simp [hki] at hr; exact h1 hr
  | wake i hi hpc hs =>
    by_cases hki : k = i
    · subst hki; simp at hr
    · simp [hki] at hr; exact h1 hr
  | compute i r hi hpc hr' =>
    by_cases hki : k = i
    · subst hki; simpa [aggiorna] using h1 hr
    · simpa [aggiorna, hki] using h1 hr
  | compute_default i hi hpc hr' => exact h1 hr
  | compute_exit i hi hpc hr' => exact h1 hr
  | compute_trap i hi hpc hr' => exact h1 hr
  | flag i hi hpc =>
    by_cases hki : k = i
    · subst hki
      have hph := hp.phase k hk
      simp only [Phase, hpc] at hph
      simp at hr
      simp [hr] at hph
    · simpa [aggiorna, hki] using h1 hr
  | release i hi hpc hs => simp at hr; exact h1 hr
  | free i hi hpc => simp [hkN] at hr; exact h1 hr

theorem child_clear_step {cfg : Config} {s t : State} (hf : Flags cfg s)
    (h : Trans cfg s t) :
    ∀ k, k < cfg.NUM_PROC → (t.child k).inCS = true → t.child k ≠ ChildPc.release →
      (t.memoria k).finish = false := by
  intro k hk hc hne
  have h1 := hf.child_clear k hk
  cases h with
  | acquire hpc hs => exact h1 hc hne
  | scan_free j hpc hj hb => exact h1 hc hne
  | scan_busy j hpc hj hb => exact h1 hc hne
  | scan_end j hpc hj => exact h1 hc hne
  | mark i hpc hi hb => exact h1 hc hne
  | mark_fault i hpc hi => exact h1 hc hne
  | harvest i hpc hfin =>
    by_cases hki : k = i
    · subst hki; simp [aggiorna]
    · simpa [aggiorna, hki] using h1 hc hne
  | harvest_none i hpc hfin => exact h1 hc hne
  | write i tk hpc ht =>
    by_cases hki : k = i
    · subst hki; simpa [aggiorna] using h1 hc hne
    · simpa [aggiorna, hki] using h1 hc hne
  | write_K i hpc ht =>
    by_cases hki : k = i
    · subst hki; simpa [aggiorna] using h1 hc hne
    · simpa [aggiorna, hki] using h1 hc hne
  | signal i hpc hs => exact h1 hc hne
  | wake i hi hpc hs =>
    by_cases hki : k = i
    · subst hki; exact hf.ready_clear k hk hs
    · simp [aggiorna, hki] at hc hne; exact h1 hc hne
  | compute i r hi hpc hr' =>
    by_cases hki : k = i
    · subst hki; simpa [aggiorna] using h1 (by simp [hpc]) (by simp [hpc])
    · simp [aggiorna, hki] at hc hne ⊢; exact h1 hc hne
  | compute_default i hi hpc hr' =>
    by_cases hki : k = i
    · subst hki; exact h1 (by simp [hpc]) (by simp [hpc])
    · simp [aggiorna, hki] at hc hne ⊢; exact h1 hc hne
  | compute_exit i hi hpc hr' =>
    by_cases hki : k = i
    · subst hki; exact h1 (by simp [hpc]) (by simp [hpc])
    · simp [aggiorna, hki] at hc hne ⊢; exact h1 hc hne
  | compute_trap i hi hpc hr' =>
    by_cases hki : k = i
    · subst hki; exact h1 (by simp [hpc]) (by simp [hpc])
    · simp [aggiorna, hki] at hc hne ⊢; exact h1 hc hne
  | flag i hi hpc =>
    by_cases hki : k = i
    · subst hki; simp [aggiorna] at hne
    · simp [aggiorna, hki] at hc hne ⊢; exact h1 hc hne
  | release i hi hpc hs =>
    by_cases hki : k = i
    · subst hki; simp [aggiorna] at hc
    · simp [aggiorna, hki] at hc hne ⊢; exact h1 hc hne
  | free i hi hpc =>
    by_cases hki : k = i
    · subst hki; simp [aggiorna] at hc
    · simp [aggiorna, hki] at hc hne ⊢; exact h1 hc hne

theorem killed_step {cfg : Config} {s t : State} (hp : Protocol cfg s) (hf : Flags cfg s)
    (h : Trans cfg s t) :
    ∀ k, k < cfg.NUM_PROC → k < kills cfg t →
      (t.memoria k).op = 'K' ∧ (t.memoria k).finish = false ∧
        (t.father.inCS k = true ∨ ready t.semaforo k = 0 ∨ t.child k = ChildPc.compute ∨
          t.child k = ChildPc.exited) := by
  intro k hk hkl
  have h1 := hf.killed k hk
  have hkN : k ≠ cfg.NUM_PROC := by omega
  have hph := hp.phase k hk
  have hks := kills_step hf h
  cases h with
  | write_K i hpc ht =>
    rcases hks with ⟨_, hkd⟩ | ⟨i', hpc', _, hks, _, hik⟩
    · simp at hkd
    · rw [hpc] at hpc'
      cases hpc'
      by_cases hki : k = i
      · subst hki
        have := hf.write_clear k hk (Or.inl hpc)
        simp [aggiorna, this]
      · have hlt : k < kills cfg s := by omega
        obtain ⟨ha, hb, hc⟩ := h1 hlt
        have hik' : ¬ i = k := fun e => hki e.symm
        simp [hpc, hik'] at hc
        simp [aggiorna, hki, ha, hb, hik', hc]
  | write i tk hpc ht =>
    rcases hks with ⟨hks, _⟩ | ⟨i', _, hn, _⟩
    · have hj : s.job < cfg.tickets.length := by
        by_contra hn
        rw [List.getElem?_eq_none (by omega)] at ht
        cases ht
      have hk0 : kills cfg s = 0 := by
        have : ¬ cfg.tickets.length ≤ s.job := by omega
        simp [kills, this]
        omega
      omega
    · rw [hn] at ht; cases ht
  | signal i hpc hs =>
    rcases hks with ⟨hks, _⟩ | ⟨i', hpc', _⟩
    · rw [hks] at hkl
      obtain ⟨ha, hb, hc⟩ := h1 hkl
      refine ⟨ha, hb, ?_⟩
      by_cases hki : k = i
      · subst hki
        simp only [Phase, hpc] at hph
        simp at hph
        simp [hph.2.1]
      · have hik' : ¬ i = k := fun e => hki e.symm
        simp [hpc, hik'] at hc
        simp [hki, hc]
    · rw [hpc] at hpc'; cases hpc'
  | harvest i hpc hfin =>
    rcases hks with ⟨hks, _⟩ | ⟨i', hpc', _⟩
    · rw [hks] at hkl
      obtain ⟨ha, hb, hc⟩ := h1 hkl
      by_cases hki : k = i
      · subst hki; simp [aggiorna, ha]
      · simp [hpc] at hc
        simp [aggiorna, hki, ha, hb, hc]
    · rw [hpc] at hpc'; cases hpc'
  | harvest_none i hpc hfin =>
    rcases hks with ⟨hks, _⟩ | ⟨i', hpc', _⟩
    · rw [hks] at hkl
      obtain ⟨ha, hb, hc⟩ := h1 hkl
      simp [hpc] at hc
      simp [ha, hb, hc]
    · rw [hpc] at hpc'; cases hpc'
  | acquire hpc hs =>
    rcases hks with ⟨hks, _⟩ | ⟨i', hpc', _⟩
    · rw [hks] at hkl
      obtain ⟨ha, hb, hc⟩ := h1 hkl
      simp [hpc] at hc
      simp [ha, hb, hc, hkN]
    · rw [hpc] at hpc'; cases hpc'
  | scan_free j hpc hj hb =>
    rcases hks with ⟨hks, _⟩ | ⟨i', hpc', _⟩
    · rw [hks] at hkl
      obtain ⟨ha, hb, hc⟩ := h1 hkl
      simp [hpc] at hc
      simp [ha, hb, hc]
    · rw [hpc] at hpc'; cases hpc'
  | scan_busy j hpc hj hb =>
    rcases hks with ⟨hks, _⟩ | ⟨i', hpc', _⟩
    · rw [hks] at hkl
      obtain ⟨ha, hb, hc⟩ := h1 hkl
      simp [hpc] at hc
      simp [ha, hb, hc]
    · rw [hpc] at hpc'; cases hpc'
  | scan_end j hpc hj =>
    rcases hks with ⟨hks, _⟩ | ⟨i', hpc', _⟩
    · rw [hks] at hkl
      obtain ⟨ha, hb, hc⟩ := h1 hkl
      simp [hpc] at hc
      simp [ha, hb, hc]
    · rw [hpc] at hpc'; cases hpc'
  | mark i hpc hi hb =>
    rcases hks with ⟨hks, _⟩ | ⟨i', hpc', _⟩
    · rw [hks] at hkl
      obtain ⟨ha, hb, hc⟩ := h1 hkl
      simp [hpc] at hc
      simp [ha, hb, hc]
    · rw [hpc] at hpc'; cases hpc'
  | mark_fault i hpc hi =>
    rcases hks with ⟨hks, _⟩ | ⟨i', hpc', _⟩
    · rw [hks] at hkl
      obtain ⟨ha, hb, hc⟩ := h1 hkl
      simp [hpc] at hc
      simp [ha, hb, hc]
    · rw [hpc] at hpc'; cases hpc'
  | wake i hi hpc hs =>
    rcases hks with ⟨hks, _⟩ | ⟨i', hpc', _, hks, hkd, _⟩
    · rw [hks] at hkl
      obtain ⟨ha, hb, hc⟩ := h1 hkl
      refine ⟨ha, hb, ?_⟩
      by_cases hki : k = i
      · subst hki; simp [aggiorna]
      · simpa [aggiorna, hki] using hc
    · simp at hkd
  | compute i r hi hpc hr =>
    rcases hks with ⟨hks, _⟩ | ⟨i', hpc', _, hks, hkd, _⟩
    · rw [hks] at hkl
      obtain ⟨ha, hb, hc⟩ := h1 hkl
      by_cases hki : k = i
      · subst hki
        rw [ha, calcolo_K] at hr
        cases hr
      · simpa [aggiorna, hki] using ⟨ha, hb, hc⟩
    · simp at hkd
  | compute_default i hi hpc hr =>
    rcases hks with ⟨hks, _⟩ | ⟨i', hpc', _, hks, hkd, _⟩
    · rw [hks] at hkl
      obtain ⟨ha, hb, hc⟩ := h1 hkl
      by_cases hki : k = i
      · subst hki
        rw [ha, calcolo_K] at hr
        cases hr
      · simpa [aggiorna, hki] using ⟨ha, hb, hc⟩
    · simp at hkd
  | compute_trap i hi hpc hr =>
    rcases hks with ⟨hks, _⟩ | ⟨i', hpc', _, hks, hkd, _⟩
    · rw [hks] at hkl
      obtain ⟨ha, hb, hc⟩ := h1 hkl
      by_cases hki : k = i
      · subst hki
        rw [ha, calcolo_K] at hr
        cases hr
      · simpa [aggiorna, hki] using ⟨ha, hb, hc⟩
    · simp at hkd
  | compute_exit i hi hpc hr =>
    rcases hks with ⟨hks, _⟩ | ⟨i', hpc', _, hks, hkd, _⟩
    · rw [hks] at hkl
      obtain ⟨ha, hb, hc⟩ := h1 hkl
      refine ⟨ha, hb, ?_⟩
      by_cases hki : k = i
      · subst hki; simp [aggiorna]
      · simpa [aggiorna, hki] using hc
    · simp at hkd
  | flag i hi hpc =>
    rcases hks with ⟨hks, _⟩ | ⟨i', hpc', _, hks, hkd, _⟩
    · rw [hks] at hkl
      obtain ⟨ha, hb, hc⟩ := h1 hkl
      by_cases hki : k = i
      · subst hki
        simp only [Phase, hpc] at hph
        simp at hph
        simp [hph.2.1, hph.2.2, hpc] at hc
      · simpa [aggiorna, hki] using ⟨ha, hb, hc⟩
    · simp at hkd
  | release i hi hpc hs =>
    rcases hks with ⟨hks, _⟩ | ⟨i', hpc', _, hks, hkd, _⟩
    · rw [hks] at hkl
      obtain ⟨ha, hb, hc⟩ := h1 hkl
      by_cases hki : k = i
      · subst hki
        simp only [Phase, hpc] at hph
        simp at hph
        simp [hph.2.1, hph.2.2, hpc] at hc
      · simpa [aggiorna, hki] using ⟨ha, hb, hc⟩
    · simp at hkd
  | free i hi hpc =>
    rcases hks with ⟨hks, _⟩ | ⟨i', hpc', _, hks, hkd, _⟩
    · rw [hks] at hkl
      obtain ⟨ha, hb, hc⟩ := h1 hkl
      refine ⟨ha, hb, ?_⟩
      by_cases hki : k = i
      · subst hki
        simp [hpc] at hc
        simp [aggiorna, hkN, hc]
      · simpa [aggiorna, hki, hkN] using hc
    · simp at hkd

theorem flags_step {cfg : Config} {s t : State} (hp : Protocol cfg s) (hf : Flags cfg s)
    (h : Trans cfg s t) : Flags cfg t :=
  ⟨job_lt_step hf h, job_eq_step hf h, drain_step hf h, drain_scan_step hf h,
    killed_eq_step hf h, killed_step hp hf h, write_clear_step hp hf h,
    ready_clear_step hp hf h, child_clear_step hf h⟩

theorem Reachable.protocol_flags {cfg : Config} {s : State} (h : Reachable cfg s) :
    Protocol cfg s ∧ Flags cfg s :=
  Reachable.invariant (fun s => Protocol cfg s ∧ Flags cfg s)
    ⟨protocol_initial cfg, flags_initial cfg⟩
    (fun _ _ _ hp ht => ⟨protocol_step hp.1 ht, flags_step hp.1 hp.2 ht⟩) s h

theorem Reachable.flags {cfg : Config} {s : State} (h : Reachable cfg s) : Flags cfg s :=
  h.protocol_flags.2

/-! ### The search for a free child -/

theorem search_initial (cfg : Config) : Search cfg (initial cfg) := by
  refine ⟨?_, ?_, ?_⟩
  · intro j h
    simp only [SystemCall.initial] at h
    split at h <;> cases h
  · intro t i _ _ h
    simp only [SystemCall.initial] at h
    split at h <;> simp at h
  · intro t i _ _ h
    simp only [SystemCall.initial] at h
    split at h <;> simp at h

theorem target_pc_cases (cfg : Config) (k : Nat) :
    (∃ t, cfg.tickets[k]? = some t ∧ t.id = 0 ∧ target_pc cfg k = FatherPc.scan 0) ∨
    (∃ t, cfg.tickets[k]? = some t ∧ t.id ≠ 0 ∧ target_pc cfg k = FatherPc.mark (t.id - 1)) ∨
    (cfg.tickets[k]? = none ∧ target_pc cfg k = FatherPc.mark (k - cfg.tickets.length)) := by
  unfold target_pc
  cases h : cfg.tickets[k]? with
  | none => right; right; simp
  | some t =>
    by_cases h0 : t.id = 0
    · left; exact ⟨t, rfl, h0, by simp [h0]⟩
    · right; left; exact ⟨t, rfl, h0, by simp [h0]⟩

theorem search_step {cfg : Config} {s t : State} (hp : Protocol cfg s) (hs : Search cfg s)
    (h : Trans cfg s t) : Search cfg t := by
  have h1 := hs.scanning
  have h2 := hs.chosen_free
  have h3 := hs.chosen_id
  cases h with
  | acquire hpc hsem =>
    rcases target_pc_cases cfg s.job with ⟨tk, htk, hid, hpc'⟩ | ⟨tk, htk, hid, hpc'⟩ | ⟨htk, hpc'⟩
    · refine ⟨?_, ?_, ?_⟩
      · intro j hj
        simp only [hpc'] at hj
        cases hj
        exact ⟨rfl, tk, htk, hid⟩
      · intro t' i _ _ hi
        simp [hpc'] at hi
      · intro t' i _ _ hi
        simp [hpc'] at hi
    · refine ⟨?_, ?_, ?_⟩
      · intro j hj
        simp [hpc'] at hj
      · intro t' i ht' hid' hi
        simp only at ht'
        rw [htk] at ht'
        cases ht'
        exact absurd hid' hid
      · intro t' i ht' hid' hi
        simp only at ht'
        rw [htk] at ht'
        cases ht'
        simp [hpc'] at hi
        omega
    · refine ⟨?_, ?_, ?_⟩
      · intro j hj
        simp [hpc'] at hj
      · intro t' i ht' _ _
        simp only at ht'
        rw [htk] at ht'
        cases ht'
      · intro t' i ht' _ _
        simp only at ht'
        rw [htk] at ht'
        cases ht'
  | scan_free j hpc hj hb =>
    obtain ⟨hpr, tk, htk, hid⟩ := h1 j hpc
    refine ⟨?_, ?_, ?_⟩
    · intro j' hj'
      cases hj'
    · intro t' i ht' hid' hi
      simp at hi
      subst hi
      exact ⟨hj, by simp [hpr]⟩
    · intro t' i ht' hid' hi
      simp only at ht'
      rw [htk] at ht'
      cases ht'
      exact absurd hid hid'
  | scan_busy j hpc hj hb =>
    obtain ⟨hpr, tk, htk, hid⟩ := h1 j hpc
    refine ⟨?_, ?_, ?_⟩
    · intro j' hj'
      cases hj'
      exact ⟨by simp [hpr, List.range_succ], tk, htk, hid⟩
    · intro t' i ht' hid' hi
      simp at hi
    · intro t' i ht' hid' hi
      simp at hi
  | scan_end j hpc hj =>
    obtain ⟨k, hk1, hk2, _⟩ := hp.scan j hpc
    omega
  | mark i hpc hi hb =>
    refine ⟨?_, ?_, ?_⟩
    · intro j' hj'
      cases hj'
    · intro t' i' ht' hid' hi'
      simp at hi'
      exact h2 t' i' ht' hid' (Or.inl (by rw [hpc, hi']))
    · intro t' i' ht' hid' hi'
      simp at hi'
      exact h3 t' i' ht' hid' (Or.inl (by rw [hpc, hi']))
  | mark_fault i hpc hi =>
    refine ⟨?_, ?_, ?_⟩
    · intro j' hj'
      cases hj'
    · intro t' i' ht' hid' hi'
      simp at hi'
    · intro t' i' ht' hid' hi'
      simp at hi'
  | harvest i hpc hfin =>
    refine ⟨?_, ?_, ?_⟩
    · intro j' hj'
      cases hj'
    · intro t' i' ht' hid' hi'
      simp at hi'
      exact h2 t' i' ht' hid' (Or.inr (by simp [hpc, hi']))
    · intro t' i' ht' hid' hi'
      simp at hi'
      exact h3 t' i' ht' hid' (Or.inr (by simp [hpc, hi']))
  | harvest_none i hpc hfin =>
    refine ⟨?_, ?_, ?_⟩
    · intro j' hj'
      cases hj'
    · intro t' i' ht' hid' hi'
      simp at hi'
      exact h2 t' i' ht' hid' (Or.inr (by simp [hpc, hi']))
    · intro t' i' ht' hid' hi'
      simp at hi'
      exact h3 t' i' ht' hid' (Or.inr (by simp [hpc, hi']))
  | write i tk hpc ht =>
    refine ⟨?_, ?_, ?_⟩
    · intro j' hj'
      cases hj'
    · intro t' i' ht' hid' hi'
      simp at hi'
      exact h2 t' i' ht' hid' (Or.inr (by simp [hpc, hi']))
    · intro t' i' ht' hid' hi'
      simp at hi'
      exact h3 t' i' ht' hid' (Or.inr (by simp [hpc, hi']))
  | write_K i hpc ht =>
    refine ⟨?_, ?_, ?_⟩
    · intro j' hj'
      cases hj'
    · intro t' i' ht' hid' hi'
      simp at hi'
      exact h2 t' i' ht' hid' (Or.inr (by simp [hpc, hi']))
    · intro t' i' ht' hid' hi'
      simp at hi'
      exact h3 t' i' ht' hid' (Or.inr (by simp [hpc, hi']))
  | signal i hpc hsem =>
    refine ⟨?_, ?_, ?_⟩
    · intro j' hj'
      exact absurd hj' (next_pc_ne_scan _ _ _)
    · intro t' i' ht' hid' hi'
      simp [next_pc_ne_mark] at hi'
    · intro t' i' ht' hid' hi'
      simp [next_pc_ne_mark] at hi'
  | wake i hi hpc hsem => exact ⟨h1, h2, h3⟩
  | compute i r hi hpc hr => exact ⟨h1, h2, h3⟩
  | compute_default i hi hpc hr => exact ⟨h1, h2, h3⟩
  | compute_exit i hi hpc hr => exact ⟨h1, h2, h3⟩
  | compute_trap i hi hpc hr => exact ⟨h1, h2, h3⟩
  | flag i hi hpc => exact ⟨h1, h2, h3⟩
  | release i hi hpc hsem => exact ⟨h1, h2, h3⟩
  | free i hi hpc => exact ⟨h1, h2, h3⟩

/-! ### Histories -/

@[simp] theorem view_nil {α : Type} (i : Nat) : view i ([] : List (Nat × α)) = [] := rfl

@[simp] theorem view_snoc {α : Type} (i v : Nat) (l : List (Nat × α)) (x : α) :
    view i (l ++ [(v, x)]) = if v = i then view i l ++ [x] else view i l := by
  unfold view
  by_cases h : v = i <;> simp [List.filterMap_append, h]

theorem mem_of_mem_view {α : Type} {i : Nat} {l : List (Nat × α)} {x : α} (h : x ∈ view i l) :
    (i, x) ∈ l := by
  unfold view at h
  rw [List.mem_filterMap] at h
  obtain ⟨p, hp, hx⟩ := h
  split at hx
  · rename_i hpi
    cases hx
    have : p = (i, p.2) := by rw [← hpi]
    rw [← this]
    exact hp
  · cases hx

theorem calcolo_valid {a b : Int} {c : Char}
    (h : c = '+' ∨ c = '-' ∨ c = '*' ∨ c = '/') :
    (∃ r, calcolo a c b = Outcome.value r) ∨ calcolo a c b = Outcome.trap := by
  rcases h with h | h | h | h <;> subst h
  · left; exact ⟨wrap32 (a + b), by simp [calcolo]⟩
  · left; exact ⟨wrap32 (a - b), by simp [calcolo]⟩
  · left; exact ⟨wrap32 (a * b), by simp [calcolo]⟩
  · by_cases hz : b = 0 ∨ (a = INT_MIN ∧ b = -1)
    · right; simp [calcolo, hz]
    · left; exact ⟨wrap32 (Int.tdiv a b), by simp [calcolo, hz]⟩

theorem valid_ne_K {c : Char} (h : c = '+' ∨ c = '-' ∨ c = '*' ∨ c = '/') : c ≠ 'K' := by
  rcases h with h | h | h | h <;> subst h <;> decide

theorem riga_of_holds {m : share_mem} {t : Ticket} (h : Holds m t) (hr : m.res = risultato t) :
    riga_risultato m = riga t := by
  obtain ⟨h1, h2, h3⟩ := h
  simp [riga_risultato, riga, h1, h2, h3, hr]

/-- Whenever the `switch` of a child stores a value for a valid operator, the value is
`risultato`. -/
theorem calcolo_eq_risultato {t : Ticket} {r : Int}
    (hop : t.op = '+' ∨ t.op = '-' ∨ t.op = '*' ∨ t.op = '/')
    (hr : calcolo t.num1 t.op t.num2 = Outcome.value r) : risultato t = r := by
  unfold calcolo at hr
  unfold risultato sequential
  rcases hop with h | h | h | h <;> rw [h] at hr ⊢
  · simp at hr; simp [hr]
  · simp at hr; simp [hr]
  · simp at hr; simp [hr]
  · simp at hr
    split at hr
    · cases hr
    · simp at hr; simp [hr]

theorem risultato_of_holds {m : share_mem} {t : Ticket} {r : Int} (h : Holds m t)
    (hop : t.op = '+' ∨ t.op = '-' ∨ t.op = '*' ∨ t.op = '/')
    (hr : calcolo m.val1 m.op m.val2 = Outcome.value r) : risultato t = r := by
  obtain ⟨h1, h2, h3⟩ := h
  rw [h1, h2, h3] at hr
  exact calcolo_eq_risultato hop hr

theorem isSignal_iff {p : FatherPc} : p.isSignal = true ↔ ∃ i, p = FatherPc.signal i := by
  cases p <;> simp [FatherPc.isSignal]

theorem ticket_of_some {cfg : Config} {k : Nat} {t : Ticket} (h : cfg.tickets[k]? = some t) :
    k < cfg.tickets.length ∧ t ∈ cfg.tickets := by
  have hk : k < cfg.tickets.length := by
    by_contra hn
    rw [List.getElem?_eq_none (by omega)] at h
    cases h
  exact ⟨hk, List.getElem?_mem h⟩

theorem ticket_of_none {cfg : Config} {k : Nat} (h : cfg.tickets[k]? = none) :
    cfg.tickets.length ≤ k := by
  by_contra hn
  rw [List.getElem?_eq_getElem (by omega)] at h
  cases h

theorem data_initial (cfg : Config) : Data cfg (initial cfg) := by
  refine ⟨rfl, rfl, ?_, ?_, ?_, ?_⟩
  · simp only [SystemCall.initial]
    split <;> simp
  · intro p hp
    simp [SystemCall.initial] at hp
  · intro p hp
    simp [SystemCall.initial] at hp
  · intro i _
    refine ⟨?_, ?_, ?_⟩
    · intro _ hh
      rcases hh with hh | hh | hh | hh
      · simp only [SystemCall.initial] at hh
        split at hh <;> cases hh
      · have h1 : ¬ 2 * i = 2 * cfg.NUM_PROC := by omega
        have h2 : 2 * i < 2 * cfg.NUM_PROC := by omega
        simp [ready, SystemCall.initial, h1, h2] at hh
      · simp [SystemCall.initial] at hh
      · simp [SystemCall.initial] at hh
    · intro hh
      simp [SystemCall.initial] at hh
    · intro _ _ _
      simp [SystemCall.initial]

theorem data_global_step {cfg : Config} {s t : State} (hp : Protocol cfg s)
    (hs : Search cfg s) (hd : Data cfg s) (h : Trans cfg s t) :
    t.risultati = t.collected.map Prod.snd ∧
    t.assigned.map Prod.snd = cfg.tickets.take t.assigned.length ∧
    t.assigned.length =
      min cfg.tickets.length (t.job + (if t.father.isSignal = true then 1 else 0)) ∧
    (∀ p ∈ t.assigned, p.1 < cfg.NUM_PROC ∧ (p.2.id ≠ 0 → p.1 + 1 = p.2.id)) ∧
    (∀ p ∈ t.collected, p.1 < cfg.NUM_PROC) := by
  have h1 := hd.log
  have h2 := hd.handed
  have h3 := hd.handed_len
  have h4 := hd.assigned_lt
  have h5 := hd.collected_lt
  cases h with
  | acquire hpc hsem => simp [hpc] at h3; exact ⟨h1, h2, by simpa using h3, h4, h5⟩
  | scan_free j hpc hj hb => simp [hpc] at h3; exact ⟨h1, h2, by simpa using h3, h4, h5⟩
  | scan_busy j hpc hj hb => simp [hpc] at h3; exact ⟨h1, h2, by simpa using h3, h4, h5⟩
  | scan_end j hpc hj => simp [hpc] at h3; exact ⟨h1, h2, by simpa using h3, h4, h5⟩
  | mark i hpc hi hb => simp [hpc] at h3; exact ⟨h1, h2, by simpa using h3, h4, h5⟩
  | mark_fault i hpc hi => simp [hpc] at h3; exact ⟨h1, h2, by simpa using h3, h4, h5⟩
  | harvest i hpc hfin =>
    simp [hpc] at h3
    refine ⟨by simp [h1], h2, by simpa using h3, h4, ?_⟩
    intro p hp'
    simp at hp'
    rcases hp' with hp' | hp'
    · exact h5 p hp'
    · subst hp'
      exact hp.cs_lt i (by simp [hpc])
  | harvest_none i hpc hfin => simp [hpc] at h3; exact ⟨h1, h2, by simpa using h3, h4, h5⟩
  | write i tk hpc ht =>
    simp [hpc] at h3
    obtain ⟨hjl, _⟩ := ticket_of_some ht
    have hlen : s.assigned.length = s.job := by omega
    refine ⟨h1, ?_, ?_, ?_, h5⟩
    · simp only [List.map_append, List.length_append, List.length_singleton, List.map_cons,
        List.map_nil, h2, hlen]
      rw [List.take_succ, ht]
      rfl
    · simp [hlen]
      omega
    · intro p hp'
      simp at hp'
      rcases hp' with hp' | hp'
      · exact h4 p hp'
      · subst hp'
        refine ⟨hp.cs_lt i (by simp [hpc]), ?_⟩
        intro hid
        exact hs.chosen_id tk i ht hid (Or.inr (by simp [hpc]))
  | write_K i hpc ht =>
    simp [hpc] at h3
    have := ticket_of_none ht
    refine ⟨h1, h2, ?_, h4, h5⟩
    simp
    omega
  | signal i hpc hsem =>
    simp [hpc] at h3
    refine ⟨h1, h2, ?_, h4, h5⟩
    simp
    omega
  | wake i hi hpc hsem => exact ⟨h1, h2, h3, h4, h5⟩
  | compute i r hi hpc hr => exact ⟨h1, h2, h3, h4, h5⟩
  | compute_default i hi hpc hr => exact ⟨h1, h2, h3, h4, h5⟩
  | compute_exit i hi hpc hr => exact ⟨h1, h2, h3, h4, h5⟩
  | compute_trap i hi hpc hr => exact ⟨h1, h2, h3, h4, h5⟩
  | flag i hi hpc => exact ⟨h1, h2, h3, h4, h5⟩
  | release i hi hpc hsem => exact ⟨h1, h2, h3, h4, h5⟩
  | free i hi hpc => exact ⟨h1, h2, h3, h4, h5⟩

theorem target_pc_ne_signal (cfg : Config) (k i : Nat) : target_pc cfg k ≠ FatherPc.signal i := by
  intro h
  have := target_pc_isSignal cfg k
  rw [h] at this
  cases this

theorem next_pc_ne_signal (cfg : Config) (k i : Nat) : next_pc cfg k ≠ FatherPc.signal i := by
  intro h
  have := next_pc_isSignal cfg k
  rw [h] at this
  cases this

theorem ChildPc.idle_of_not_inCS {c : ChildPc} (h : c.inCS = false) :
    c = ChildPc.wait ∨ c = ChildPc.free := by
  cases c <;> simp [ChildPc.inCS] at h ⊢

theorem assigned_mem_tickets {cfg : Config} {s : State} (hd : Data cfg s) {k : Nat}
    {tk : Ticket} (h : (k, tk) ∈ s.assigned) : tk ∈ cfg.tickets := by
  have : tk ∈ s.assigned.map Prod.snd := List.mem_map.mpr ⟨(k, tk), h, rfl⟩
  rw [hd.handed] at this
  exact List.mem_of_mem_take this

/-- A step that leaves record `k`, the control state around it and its histories as they are
keeps `Slot`. -/
theorem slot_frame {s t : State} {k : Nat} (hm : t.memoria k = s.memoria k)
    (hc : t.child k = ChildPc.flag ↔ s.child k = ChildPc.flag)
    (hh : Handed t k ↔ Handed s k)
    (ha : view k t.assigned = view k s.assigned)
    (hcmp : view k t.computed = view k s.computed)
    (hcol : view k t.collected = view k s.collected) (h : Slot s k) : Slot t k := by
  unfold Slot at h ⊢
  have hc' : t.child k ≠ ChildPc.flag ↔ s.child k ≠ ChildPc.flag := not_congr hc
  rw [hm, ha, hcmp, hcol, hh, hc, hc']
  exact h

theorem slot_step {cfg : Config} {s t : State} (hv : ValidOps cfg)
    (hp : Protocol cfg s) (hf : Flags cfg s) (hd : Data cfg s) (h : Trans cfg s t) :
    ∀ k, k < cfg.NUM_PROC → Slot t k := by
  intro k hk
  have hs := hd.slot k hk
  have hph := hp.phase k hk
  have hkN : k ≠ cfg.NUM_PROC := by omega
  cases h with
  | acquire hpc hsem =>
    refine slot_frame (s := s) rfl Iff.rfl ?_ rfl rfl rfl hs
    simp [Handed, hpc, hkN, target_pc_ne_signal]
  | scan_free j hpc hj hb =>
    refine slot_frame (s := s) rfl Iff.rfl ?_ rfl rfl rfl hs
    simp [Handed, hpc]
  | scan_busy j hpc hj hb =>
    refine slot_frame (s := s) rfl Iff.rfl ?_ rfl rfl rfl hs
    simp [Handed, hpc]
  | scan_end j hpc hj =>
    refine slot_frame (s := s) rfl Iff.rfl ?_ rfl rfl rfl hs
    simp [Handed, hpc]
  | mark i hpc hi hb =>
    refine slot_frame (s := s) rfl Iff.rfl ?_ rfl rfl rfl hs
    simp [Handed, hpc]
  | mark_fault i hpc hi =>
    refine slot_frame (s := s) rfl Iff.rfl ?_ rfl rfl rfl hs
    simp [Handed, hpc]
  | harvest_none i hpc hfin =>
    refine slot_frame (s := s) rfl Iff.rfl ?_ rfl rfl rfl hs
    simp [Handed, hpc]
  | harvest i hpc hfin =>
    by_cases hki : k = i
    · subst hki
      simp only [Phase, hpc] at hph
      simp at hph
      obtain ⟨_, hrd, hidle⟩ := hph
      have hidle' := ChildPc.idle_of_not_inCS hidle
      obtain ⟨A, tk, hA, hH, hres, hR, hC⟩ := hs.2.1 (Or.inr hfin)
      have hnh : ¬ Handed s k := by
        intro hh
        rcases hh with hh | hh | hh | hh
        · rw [hpc] at hh; cases hh
        · omega
        · rcases hidle' with e | e <;> rw [e] at hh <;> cases hh
        · rcases hidle' with e | e <;> rw [e] at hh <;> cases hh
      refine ⟨?_, ?_, ?_⟩
      · intro _ hh
        exfalso
        apply hnh
        simpa [Handed, hpc] using hh
      · intro hh
        exfalso
        rcases hh with hh | hh
        · have hh' : s.child k = ChildPc.flag := hh
          rcases hidle' with e | e <;> rw [e] at hh' <;> cases hh'
        · simp [aggiorna] at hh
      · intro _ _ _
        simp only [view_snoc, if_true]
        refine ⟨hR.trans (by rw [hA]), ?_⟩
        rw [hC, hA, riga_of_holds hH hres]
        simp
    · refine slot_frame (s := s) (by simp [aggiorna, hki]) Iff.rfl ?_ rfl rfl ?_ hs
      · simp [Handed, hpc]
      · have : ¬ i = k := fun e => hki e.symm
        simp [this]
  | write i tk hpc ht =>
    by_cases hki : k = i
    · subst hki
      simp only [Phase, hpc] at hph
      simp at hph
      obtain ⟨_, hrd, hidle⟩ := hph
      have hidle' := ChildPc.idle_of_not_inCS hidle
      have hfin := hf.write_clear k hk (Or.inl hpc)
      have hnh : ¬ Handed s k := by
        intro hh
        rcases hh with hh | hh | hh | hh
        · rw [hpc] at hh; cases hh
        · omega
        · rcases hidle' with e | e <;> rw [e] at hh <;> cases hh
        · rcases hidle' with e | e <;> rw [e] at hh <;> cases hh
      have hnf : s.child k ≠ ChildPc.flag := by
        intro hh
        rcases hidle' with e | e <;> rw [e] at hh <;> cases hh
      obtain ⟨hR, hC⟩ := hs.2.2 (fun hh => hnh hh.2) hnf hfin
      have hop : tk.op ≠ 'K' := valid_ne_K (hv tk (ticket_of_some ht).2)
      refine ⟨?_, ?_, ?_⟩
      · intro _ _
        refine ⟨view k s.assigned, tk, by simp, ?_, hR, hC⟩
        simp [Holds, aggiorna]
      · intro hh
        exfalso
        rcases hh with hh | hh
        · exact hnf hh
        · simp [aggiorna, hfin] at hh
      · intro hh
        exfalso
        apply hh
        refine ⟨by simpa [aggiorna] using hop, Or.inl rfl⟩
    · refine slot_frame (s := s) (by simp [aggiorna, hki]) Iff.rfl ?_ ?_ rfl rfl hs
      · have : ¬ i = k := fun e => hki e.symm
        simp [Handed, hpc, this]
      · have : ¬ i = k := fun e => hki e.symm
        simp [this]
  | write_K i hpc ht =>
    by_cases hki : k = i
    · subst hki
      simp only [Phase, hpc] at hph
      simp at hph
      obtain ⟨_, hrd, hidle⟩ := hph
      have hidle' := ChildPc.idle_of_not_inCS hidle
      have hfin := hf.write_clear k hk (Or.inl hpc)
      have hnh : ¬ Handed s k := by
        intro hh
        rcases hh with hh | hh | hh | hh
        · rw [hpc] at hh; cases hh
        · omega
        · rcases hidle' with e | e <;> rw [e] at hh <;> cases hh
        · rcases hidle' with e | e <;> rw [e] at hh <;> cases hh
      have hnf : s.child k ≠ ChildPc.flag := by
        intro hh
        rcases hidle' with e | e <;> rw [e] at hh <;> cases hh
      obtain ⟨hR, hC⟩ := hs.2.2 (fun hh => hnh hh.2) hnf hfin
      refine ⟨?_, ?_, ?_⟩
      · intro hh
        simp [aggiorna] at hh
      · intro hh
        exfalso
        rcases hh with hh | hh
        · exact hnf hh
        · simp [aggiorna, hfin] at hh
      · intro _ _ _
        exact ⟨hR, hC⟩
    · refine slot_frame (s := s) (by simp [aggiorna, hki]) Iff.rfl ?_ rfl rfl rfl hs
      have : ¬ i = k := fun e => hki e.symm
      simp [Handed, hpc, this]
  | signal i hpc hsem =>
    by_cases hki : k = i
    · subst hki
      simp only [Phase, hpc] at hph
      simp at hph
      obtain ⟨_, hrd, hidle⟩ := hph
      refine slot_frame (s := s) rfl Iff.rfl ?_ rfl rfl rfl hs
      simp [Handed, hpc, hrd]
    · refine slot_frame (s := s) rfl Iff.rfl ?_ rfl rfl rfl hs
      have : ¬ i = k := fun e => hki e.symm
      simp [Handed, hpc, this, hki, next_pc_ne_signal]
  | wake i hi hpc hsem =>
    by_cases hki : k = i
    · subst hki
      refine slot_frame (s := s) rfl ?_ ?_ rfl rfl rfl hs
      · simp [aggiorna, hpc]
      · simp [Handed, aggiorna, hsem]
    · refine slot_frame (s := s) rfl ?_ ?_ rfl rfl rfl hs
      · simp [aggiorna, hki]
      · simp [Handed, aggiorna, hki]
  | compute i r hi hpc hr =>
    by_cases hki : k = i
    · subst hki
      simp only [Phase, hpc] at hph
      simp at hph
      obtain ⟨_, hrd, hnocs⟩ := hph
      have hop : (s.memoria k).op ≠ 'K' := by
        intro e
        rw [e, calcolo_K] at hr
        cases hr
      obtain ⟨A, tk, hA, hH, hR, hC⟩ := hs.1 hop (Or.inr (Or.inr (Or.inl hpc)))
      have hmem : tk ∈ cfg.tickets :=
        assigned_mem_tickets hd (mem_of_mem_view (by rw [hA]; simp))
      have hres := risultato_of_holds hH (hv tk hmem) hr
      refine ⟨?_, ?_, ?_⟩
      · intro _ hh
        exfalso
        rcases hh with hh | hh | hh | hh
        · have hh' : s.father = FatherPc.signal k := hh
          simp [hh'] at hnocs
        · have hh' : ready s.semaforo k = 0 := hh
          omega
        · simp [aggiorna] at hh
        · simp [aggiorna] at hh
      · intro _
        refine ⟨A, tk, hA, ?_, ?_, ?_, hC⟩
        · simpa [Holds, aggiorna] using hH
        · simp [aggiorna, hres]
        · simp [hR, hres]
      · intro _ hh
        simp [aggiorna] at hh
    · refine slot_frame (s := s) (by simp [aggiorna, hki]) ?_ ?_ rfl ?_ rfl hs
      · simp [aggiorna, hki]
      · simp [Handed, aggiorna, hki]
      · have : ¬ i = k := fun e => hki e.symm
        simp [this]
  | compute_default i hi hpc hr =>
    by_cases hki : k = i
    · subst hki
      exfalso
      have hop : (s.memoria k).op ≠ 'K' := by
        intro e
        rw [e, calcolo_K] at hr
        cases hr
      obtain ⟨A, tk, hA, hH, hR, hC⟩ := hs.1 hop (Or.inr (Or.inr (Or.inl hpc)))
      have hmem : tk ∈ cfg.tickets :=
        assigned_mem_tickets hd (mem_of_mem_view (by rw [hA]; simp))
      obtain ⟨h1, h2, h3⟩ := hH
      rw [h1, h2, h3] at hr
      rcases calcolo_valid (a := tk.num1) (b := tk.num2) (hv tk hmem) with ⟨r, e⟩ | e <;>
        rw [e] at hr <;> cases hr
    · refine slot_frame (s := s) rfl ?_ ?_ rfl rfl rfl hs
      · simp [aggiorna, hki]
      · simp [Handed, aggiorna, hki]
  | compute_exit i hi hpc hr =>
    by_cases hki : k = i
    · subst hki
      have hop : (s.memoria k).op = 'K' := by
        by_contra hop
        obtain ⟨A, tk, hA, hH, hR, hC⟩ := hs.1 hop (Or.inr (Or.inr (Or.inl hpc)))
        have hmem : tk ∈ cfg.tickets :=
          assigned_mem_tickets hd (mem_of_mem_view (by rw [hA]; simp))
        obtain ⟨h1, h2, h3⟩ := hH
        rw [h1, h2, h3] at hr
        rcases calcolo_valid (a := tk.num1) (b := tk.num2) (hv tk hmem) with ⟨r, e⟩ | e <;>
          rw [e] at hr <;> cases hr
      have hfin := hf.child_clear k hk (by simp [hpc]) (by simp [hpc])
      obtain ⟨hR, hC⟩ := hs.2.2 (fun hh => hh.1 hop) (by simp [hpc]) hfin
      refine ⟨?_, ?_, ?_⟩
      · intro hh
        exact absurd hop hh
      · intro hh
        exfalso
        rcases hh with hh | hh
        · simp [aggiorna] at hh
        · have hh' : (s.memoria k).finish = true := hh
          simp [hfin] at hh'
      · intro _ _ _
        exact ⟨hR, hC⟩
    · refine slot_frame (s := s) rfl ?_ ?_ rfl rfl rfl hs
      · simp [aggiorna, hki]
      · simp [Handed, aggiorna, hki]
  | compute_trap i hi hpc hr =>
    by_cases hki : k = i
    · subst hki
      refine slot_frame (s := s) rfl ?_ ?_ rfl rfl rfl hs
      · simp [aggiorna, hpc]
      · simp [Handed, aggiorna, hpc]
    · refine slot_frame (s := s) rfl ?_ ?_ rfl rfl rfl hs
      · simp [aggiorna, hki]
      · simp [Handed, aggiorna, hki]
  | flag i hi hpc =>
    by_cases hki : k = i
    · subst hki
      simp only [Phase, hpc] at hph
      simp at hph
      obtain ⟨_, hrd, hnocs⟩ := hph
      obtain ⟨A, tk, hA, hH, hres, hR, hC⟩ := hs.2.1 (Or.inl hpc)
      refine ⟨?_, ?_, ?_⟩
      · intro _ hh
        exfalso
        rcases hh with hh | hh | hh | hh
        · have hh' : s.father = FatherPc.signal k := hh
          simp [hh'] at hnocs
        · have hh' : ready s.semaforo k = 0 := hh
          omega
        · simp [aggiorna] at hh
        · simp [aggiorna] at hh
      · intro _
        refine ⟨A, tk, hA, ?_, ?_, hR, hC⟩
        · simpa [Holds, aggiorna] using hH
        · simpa [aggiorna] using hres
      · intro _ _ hh
        simp [aggiorna] at hh
    · refine slot_frame (s := s) (by simp [aggiorna, hki]) ?_ ?_ rfl rfl rfl hs
      · simp [aggiorna, hki]
      · simp [Handed, aggiorna, hki]
  | release i hi hpc hsem =>
    by_cases hki : k = i
    · subst hki
      refine slot_frame (s := s) rfl ?_ ?_ rfl rfl rfl hs
      · simp [aggiorna, hpc]
      · simp [Handed, aggiorna, hpc]
    · refine slot_frame (s := s) rfl ?_ ?_ rfl rfl rfl hs
      · simp [aggiorna, hki]
      · simp [Handed, aggiorna, hki]
  | free i hi hpc =>
    by_cases hki : k = i
    · subst hki
      refine slot_frame (s := s) rfl ?_ ?_ rfl rfl rfl hs
      · simp [aggiorna, hpc]
      · simp [Handed, aggiorna, hpc, hkN]
    · refine slot_frame (s := s) rfl ?_ ?_ rfl rfl rfl hs
      · simp [aggiorna, hki]
      · simp [Handed, aggiorna, hki, hkN]

theorem data_step {cfg : Config} {s t : State} (hv : ValidOps cfg) (hp : Protocol cfg s)
    (hf : Flags cfg s) (hs : Search cfg s) (hd : Data cfg s) (h : Trans cfg s t) :
    Data cfg t := by
  obtain ⟨h1, h2, h3, h4, h5⟩ := data_global_step hp hs hd h
  exact ⟨h1, h2, h3, h4, h5, slot_step hv hp hf hd h⟩

/-- All invariants together. -/
theorem Reachable.invariants {cfg : Config} {s : State} (hv : ValidOps cfg)
    (h : Reachable cfg s) : Protocol cfg s ∧ Flags cfg s ∧ Search cfg s ∧ Data cfg s :=
  Reachable.invariant (fun s => Protocol cfg s ∧ Flags cfg s ∧ Search cfg s ∧ Data cfg s)
    ⟨protocol_initial cfg, flags_initial cfg, search_initial cfg, data_initial cfg⟩
    (fun _ _ _ hp ht =>
      ⟨protocol_step hp.1 ht, flags_step hp.1 hp.2.1 ht, search_step hp.1 hp.2.2.1 ht,
        data_step hv hp.1 hp.2.1 hp.2.2.1 hp.2.2.2 ht⟩) s h

theorem Reachable.search {cfg : Config} {s : State} (h : Reachable cfg s) : Search cfg s :=
  (Reachable.invariant (fun s => Protocol cfg s ∧ Search cfg s)
    ⟨protocol_initial cfg, search_initial cfg⟩
    (fun _ _ _ hp ht => ⟨protocol_step hp.1 ht, search_step hp.1 hp.2 ht⟩) s h).2

theorem father_step_blocked {cfg : Config} {s : State} (h : s.father = FatherPc.acquire)
    (h0 : freecount cfg s.semaforo = 0) : father_step cfg s = none := by
  unfold freecount at h0
  simp [father_step, h, semop_dec, h0]

/-! ### Partition of a history among the children -/

theorem gather_congr {α : Type} {f g : Nat → List α} {n : Nat}
    (h : ∀ i, i < n → f i = g i) : gather f n = gather g n := by
  induction n with
  | zero => rfl
  | succ n ih =>
    simp only [gather]
    rw [ih (fun i hi => h i (by omega)), h n (by omega)]

theorem gather_map {α β : Type} (f : Nat → List α) (g : α → β) (n : Nat) :
    gather (fun i => (f i).map g) n = (gather f n).map g := by
  induction n with
  | zero => rfl
  | succ n ih => simp only [gather, ih, List.map_append]

theorem gather_insert {α : Type} (f : Nat → List α) (x : α) {v n : Nat} (hv : v < n) :
    List.Perm (gather (fun i => if v = i then x :: f i else f i) n) (x :: gather f n) := by
  induction n with
  | zero => omega
  | succ n ih =>
    simp only [gather]
    by_cases hvn : v = n
    · subst hvn
      have : gather (fun i => if v = i then x :: f i else f i) v = gather f v := by
        apply gather_congr
        intro i hi
        have : ¬ v = i := by omega
        simp [this]
      rw [this]
      simp only [if_true]
      exact List.perm_middle
    · have h1 := ih (by omega)
      simp only [hvn, if_false]
      exact List.Perm.append_right (f n) h1

theorem gather_nil {α : Type} (n : Nat) : gather (fun _ => ([] : List α)) n = [] := by
  induction n with
  | zero => rfl
  | succ n ih => simp [gather, ih]

theorem view_cons {α : Type} (i v : Nat) (l : List (Nat × α)) (x : α) :
    view i ((v, x) :: l) = if v = i then x :: view i l else view i l := by
  unfold view
  by_cases h : v = i <;> simp [List.filterMap_cons, h]

/-- A history whose indices are below `n` is, up to order, the concatenation of the views of
the children `0, ..., n-1`. -/
theorem perm_gather_view {α : Type} (l : List (Nat × α)) (n : Nat)
    (h : ∀ p ∈ l, p.1 < n) : List.Perm (l.map Prod.snd) (gather (fun i => view i l) n) := by
  induction l with
  | nil =>
    have : gather (fun i => view i ([] : List (Nat × α))) n = [] := gather_nil n
    rw [this]
    exact List.Perm.refl _
  | cons p l ih =>
    obtain ⟨v, x⟩ := p
    have hv : v < n := h (v, x) (by simp)
    have h1 := ih (fun p hp => h p (by simp [hp]))
    have h2 : gather (fun i => view i ((v, x) :: l)) n =
        gather (fun i => if v = i then x :: view i l else view i l) n := by
      apply gather_congr
      intro i _
      exact view_cons i v l x
    rw [h2]
    simp only [List.map_cons]
    exact (List.Perm.cons x h1).trans (gather_insert _ x hv).symm

/-- When the final loop is finished, every child has stored a result for each of its
operations and every one of them has been collected. -/
theorem slot_of_done {cfg : Config} {s : State} (hv : ValidOps cfg) (hr : Reachable cfg s)
    (hd : s.father = FatherPc.done) (i : Nat) (hi : i < cfg.NUM_PROC) :
    view i s.computed = (view i s.assigned).map risultato ∧
      view i s.collected = (view i s.assigned).map riga := by
  obtain ⟨hp, hf, _, hdat⟩ := hr.invariants hv
  have hk : kills cfg s = cfg.NUM_PROC := by
    have := hf.job_eq hd
    simp [kills, hd, this]
  obtain ⟨hop, hfin, hc⟩ := hf.killed i hi (by omega)
  have hnf : s.child i ≠ ChildPc.flag := by
    intro e
    have hph := hp.phase i hi
    simp only [Phase, e, hd] at hph
    simp at hph
    rcases hc with hc | hc | hc | hc
    · simp [hd] at hc
    · omega
    · rw [e] at hc; cases hc
    · rw [e] at hc; cases hc
  exact (hdat.slot i hi).2.2 (fun hh => hh.1 hop) hnf hfin

theorem assigned_of_done {cfg : Config} {s : State} (hv : ValidOps cfg) (hr : Reachable cfg s)
    (hd : s.father = FatherPc.done) : s.assigned.map Prod.snd = cfg.tickets := by
  obtain ⟨_, hf, _, hdat⟩ := hr.invariants hv
  have hlen := hdat.handed_len
  have := hf.job_eq hd
  rw [hdat.handed, hlen]
  simp [hd, this]

/-! ### The values stored by one child -/

theorem wrap32_of_range {x : Int} (h1 : INT_MIN ≤ x) (h2 : x ≤ INT_MAX) : wrap32 x = x := by
  unfold INT_MIN at h1
  unfold INT_MAX at h2
  unfold wrap32
  omega

theorem wrap32_range (x : Int) : INT_MIN ≤ wrap32 x ∧ wrap32 x ≤ INT_MAX := by
  unfold INT_MIN INT_MAX wrap32
  omega

theorem view_eq_filter {l : List (Nat × Ticket)} (h : ∀ p ∈ l, p.1 + 1 = p.2.id) (i : Nat) :
    view i l = (l.map Prod.snd).filter (fun t => decide (t.id = i + 1)) := by
  induction l with
  | nil => rfl
  | cons p l ih =>
    obtain ⟨v, t⟩ := p
    have hv : v + 1 = t.id := h (v, t) (by simp)
    rw [view_cons, ih (fun p hp => h p (by simp [hp]))]
    simp only [List.map_cons, List.filter_cons]
    by_cases hvi : v = i
    · have : t.id = i + 1 := by omega
      simp [hvi, this]
    · have : ¬ t.id = i + 1 := by omega
      simp [hvi, this]

/-- In every reachable state the values stored by child `i` are those of its first operations,
in order. -/
theorem computed_prefix {cfg : Config} {s : State} (hv : ValidOps cfg) (hr : Reachable cfg s)
    (i : Nat) (hi : i < cfg.NUM_PROC) :
    view i s.computed <+: (view i s.assigned).map risultato := by
  obtain ⟨_, _, _, hdat⟩ := hr.invariants hv
  obtain ⟨h1, h2, h3⟩ := hdat.slot i hi
  by_cases hpend : (s.memoria i).op ≠ 'K' ∧ Handed s i
  · obtain ⟨A, t, hA, _, hR, _⟩ := h1 hpend.1 hpend.2
    rw [hR, hA, List.map_append]
    exact List.prefix_append _ _
  · by_cases hfl : s.child i = ChildPc.flag ∨ (s.memoria i).finish = true
    · obtain ⟨A, t, hA, _, _, hR, _⟩ := h2 hfl
      rw [hR, hA]
    · have hnf : s.child i ≠ ChildPc.flag := fun e => hfl (Or.inl e)
      have hfin : (s.memoria i).finish = false := by
        cases hfv : (s.memoria i).finish
        · rfl
        · exact absurd (Or.inr hfv) hfl
      rw [(h3 hpend hnf hfin).1]

/-! ### `reverse` and `itoa` -/

theorem getD_swap_left (a m b : List Char) (x z d : Char) :
    (a ++ x :: (m ++ z :: b)).getD a.length d = x := by
  rw [List.getD_append_right _ _ _ _ (Nat.le_refl _)]
  simp

theorem getD_swap_right (a m b : List Char) (x z d : Char) :
    (a ++ x :: (m ++ z :: b)).getD (a.length + (m.length + 2) - 1) d = z := by
  rw [List.getD_append_right _ _ _ _ (by omega)]
  have h1 : a.length + (m.length + 2) - 1 - a.length = m.length + 1 := by omega
  rw [h1, List.getD_cons_succ, List.getD_append_right _ _ _ _ (Nat.le_refl _)]
  simp

theorem set_swap (a m b : List Char) (x z : Char) :
    ((a ++ x :: (m ++ z :: b)).set a.length z).set (a.length + (m.length + 2) - 1) x =
      a ++ z :: (m ++ x :: b) := by
  rw [List.set_append_right _ _ (Nat.le_refl _)]
  rw [List.set_append_right _ _ (by omega)]
  have h1 : a.length + (m.length + 2) - 1 - a.length = m.length + 1 := by omega
  rw [h1]
  simp [List.set_append_right]

/-- The loop of `reverse` reverses the part of the string between `i` and `j`. -/
theorem reverse_loop_spec : ∀ (fuel : Nat) (a m b : List Char), m.length ≤ 2 * fuel →
    reverse_loop fuel a.length (a.length + m.length - 1) (a ++ m ++ b) = a ++ m.reverse ++ b
  | 0, a, m, b, h => by
    have : m = [] := List.eq_nil_of_length_eq_zero (by omega)
    subst this
    simp [reverse_loop]
  | fuel + 1, a, m, b, h => by
    match m, h with
    | [], _ => simp [reverse_loop]
    | [x], _ => simp [reverse_loop]
    | x :: y :: rest, h =>
      rcases List.eq_nil_or_concat (y :: rest) with hnil | ⟨m', z, hm⟩
      · cases hnil
      · rw [List.concat_eq_append] at hm
        rw [hm]
        have hlen : (y :: rest).length = m'.length + 1 := by rw [hm]; simp
        have hl : (x :: (m' ++ [z])).length = m'.length + 2 := by simp
        have hlt : a.length < a.length + (x :: (m' ++ [z])).length - 1 := by rw [hl]; omega
        rw [reverse_loop, if_pos hlt]
        have hs : a ++ x :: (m' ++ [z]) ++ b = a ++ x :: (m' ++ z :: b) := by simp
        rw [hs, hl, getD_swap_left, getD_swap_right, set_swap]
        have h2 := reverse_loop_spec fuel (a ++ [z]) m' (x :: b)
          (by simp only [List.length_cons] at h hlen; omega)
        have h3 : (a ++ [z]).length = a.length + 1 := by simp
        have h4 : a.length + 1 + m'.length - 1 = a.length + (m'.length + 2) - 1 - 1 := by omega
        rw [h3, h4] at h2
        have h5 : a ++ [z] ++ m' ++ x :: b = a ++ z :: (m' ++ x :: b) := by simp
        rw [h5] at h2
        rw [h2]
        simp

theorem reverse_eq (s : List Char) : reverse s = s.reverse := by
  have h := reverse_loop_spec s.length [] s [] (by omega)
  simpa [reverse] using h

theorem digit_char : ∀ d, d < 10 → Char.ofNat (d + 48) = Nat.digitChar d := by decide

/-- For a non-negative number the loop of `itoa` produces the decimal digits, least
significant first. -/
theorem itoa_loop_nat : ∀ (fuel m : Nat) (ds : List Char), m < fuel →
    Nat.toDigitsCore 10 fuel m ds = (itoa_loop fuel (m : Int)).reverse ++ ds
  | 0, m, ds, h => by omega
  | fuel + 1, m, ds, h => by
    rw [Nat.toDigitsCore, itoa_loop]
    have h1 : Int.tmod (m : Int) 10 = ((m % 10 : Nat) : Int) := rfl
    have h2 : Int.tdiv (m : Int) 10 = ((m / 10 : Nat) : Int) := rfl
    have h3 : ((((m % 10 : Nat) : Int) + 48) % 256).toNat = m % 10 + 48 := by omega
    rw [h1, h2, h3, digit_char _ (Nat.mod_lt _ (by decide))]
    by_cases h0 : m / 10 = 0
    · have : ¬ (0 : Int) < ((m / 10 : Nat) : Int) := by omega
      simp [h0]
    · have hpos : (0 : Int) < ((m / 10 : Nat) : Int) := by omega
      simp only [h0, if_false, hpos, if_true]
      rw [itoa_loop_nat fuel (m / 10) _ (by omega)]
      simp

theorem itoa_nonneg (m : Nat) : itoa (m : Int) = Nat.toDigits 10 m := by
  have hneg : ¬ ((m : Int) < 0) := by omega
  simp only [itoa, hneg, if_false, reverse_eq]
  have h := itoa_loop_nat (m + 1) m [] (by omega)
  simp only [List.append_nil] at h
  rw [Nat.toDigits, h]
  simp

/-- The function `itoa` writes the decimal notation of every `int` other than `INT_MIN`. -/
theorem itoa_eq_decimal (n : Int) (h1 : INT_MIN < n) (h2 : n ≤ INT_MAX) :
    itoa n = decimal n := by
  unfold INT_MIN at h1
  unfold INT_MAX at h2
  by_cases hn : n < 0
  · have hw : wrap32 (-n) = -n := by unfold wrap32; omega
    have hm : -n = ((n.natAbs : Nat) : Int) := by omega
    have hneg : ¬ (((n.natAbs : Nat) : Int) < 0) := by omega
    simp only [itoa, decimal, hn, if_true, hw, reverse_eq]
    rw [hm]
    have h := itoa_loop_nat (n.natAbs + 1) n.natAbs [] (by omega)
    simp only [List.append_nil] at h
    simp only [Int.natAbs_ofNat, List.reverse_append, List.reverse_cons, List.reverse_nil,
      List.nil_append, List.singleton_append]
    rw [Nat.toDigits, h]
  · obtain ⟨m, rfl⟩ := Int.eq_ofNat_of_zero_le (by omega : 0 ≤ n)
    rw [decimal, if_neg hn, itoa_nonneg]
    simp

theorem itoa_INT_MIN : itoa INT_MIN = ['-', '('] := by decide

/-! ### One child -/

theorem view_zero_of_single {α : Type} {l : List (Nat × α)} (h : ∀ p ∈ l, p.1 < 1) :
    view 0 l = l.map Prod.snd := by
  induction l with
  | nil => rfl
  | cons p l ih =>
    obtain ⟨v, x⟩ := p
    have hv : v < 1 := h (v, x) (by simp)
    have hv0 : v = 0 := by omega
    rw [view_cons, ih (fun p hp => h p (by simp [hp]))]
    simp [hv0]

theorem itoa_buf_eq_decimal (n : Int) (h1 : INT_MIN < n) (h2 : n ≤ INT_MAX)
    (h3 : (decimal n).length + 1 ≤ BUFLEN) : itoa_buf BUFLEN n = some (decimal n) := by
  simp only [itoa_buf, itoa_eq_decimal n h1 h2]
  rw [if_pos h3]

/-- When the operands and the stored result are above `INT_MIN` and each of them has at most
`BUFLEN - 1` characters in decimal notation, the line built for the operation is the line
`<num1><op><num2>=<result>` in decimal notation. -/
theorem riga_eq_decimal_line (t : Ticket) (h1 : INT_MIN < t.num1) (h2 : t.num1 ≤ INT_MAX)
    (h3 : INT_MIN < t.num2) (h4 : t.num2 ≤ INT_MAX) (h5 : risultato t ≠ INT_MIN)
    (f1 : (decimal t.num1).length + 1 ≤ BUFLEN) (f2 : (decimal t.num2).length + 1 ≤ BUFLEN)
    (f3 : (decimal (risultato t)).length + 1 ≤ BUFLEN) :
    riga t = some (decimal_line t.num1 t.op t.num2 (risultato t)) := by
  have hr := wrap32_range (sequential t)
  have h6 : INT_MIN < risultato t := by
    have : INT_MIN ≤ risultato t := hr.1
    omega
  simp only [riga, riga_risultato, decimal_line]
  rw [itoa_buf_eq_decimal _ h1 h2 f1, itoa_buf_eq_decimal _ h3 h4 f2,
    itoa_buf_eq_decimal _ h6 hr.2 f3]
  have hlen : (decimal t.num1 ++ [t.op] ++ decimal t.num2 ++ ['='] ++ decimal (risultato t) ++
      ['\n']).length + 1 ≤ 32 := by
    simp only [List.length_append, List.length_singleton]
    simp only [BUFLEN] at f1 f2 f3
    omega
  simp only [hlen, if_true]

/-! ### The number of lines -/

theorem conta_righe_no_newline (l : List Char) (hl : '\n' ∉ l) (rest : List Char)
    (buf : Char) (n : Int) :
    conta_righe (l ++ '\n' :: rest) buf n = conta_righe rest '\n' (n + 1) := by
  induction l generalizing buf n with
  | nil => simp [conta_righe]
  | cons c l ih =>
    have hc : c ≠ '\n' := fun e => hl (by simp [e])
    have hl' : '\n' ∉ l := fun e => hl (by simp [e])
    simp only [List.cons_append, conta_righe, hc, if_false]
    exact ih hl' c n

theorem conta_righe_lines (lines : List (List Char)) (hl : ∀ l ∈ lines, '\n' ∉ l)
    (rest : List Char) (buf : Char) (n : Int) :
    conta_righe ((lines.map (fun l => l ++ ['\n'])).flatten ++ rest) buf n =
      conta_righe rest (if lines = [] then buf else '\n') (n + lines.length) := by
  induction lines generalizing buf n with
  | nil => simp
  | cons l lines ih =>
    have h1 : '\n' ∉ l := hl l (by simp)
    have h2 : ∀ l' ∈ lines, '\n' ∉ l' := fun l' h => hl l' (by simp [h])
    simp only [List.map_cons, List.flatten_cons, List.append_assoc, List.singleton_append,
      List.cons_append, List.nil_append]
    rw [conta_righe_no_newline l h1, ih h2]
    have h3 : (if lines = [] then '\n' else '\n') = '\n' := by split <;> rfl
    simp only [h3, List.length_cons, Nat.cast_add, Nat.cast_one]
    have h4 : n + 1 + (lines.length : Int) = n + ((lines.length : Int) + 1) := by omega
    rw [h4]
    simp

/-- What the first pass computes on a well-formed configuration file with `M` operation
lines: `M + 1`, because the test of `buf` is made once more after the `read` that finds
the end of the file, when `buf` still holds the last newline. -/
theorem righe_config_file (first : List Char) (lines : List (List Char))
    (hfirst : '\n' ∉ first) (hlines : ∀ l ∈ lines, '\n' ∉ l) (r0 : Int) (hr0 : r0 ≠ 0)
    (buf0 : Char) :
    righe (config_file first lines) r0 buf0 = lines.length + 1 := by
  simp only [righe, hr0, ne_eq, not_false_eq_true, if_true, config_file, List.append_assoc,
    List.singleton_append, List.cons_append]
  rw [conta_righe_no_newline first hfirst]
  simp only [List.nil_append]
  rw [conta_righe_lines lines hlines]
  simp only [conta_righe, if_true]
  omega

/-! ## Every run ends, and it ends with the final loop finished -/

theorem calcolo_exit {a b : Int} {c : Char} (h : calcolo a c b = Outcome.exit) : c = 'K' := by
  unfold calcolo at h
  split at h
  · cases h
  · split at h
    · cases h
    · split at h
      · cases h
      · split at h
        · split at h <;> cases h
        · split at h
          · assumption
          · cases h

theorem marker_initial (cfg : Config) : Marker cfg (initial cfg) := by
  refine ⟨?_, ?_⟩
  · intro i _ h
    simp [initial] at h
  · intro i _ h
    simp [initial] at h

theorem marker_step {cfg : Config} {s t : State} (hv : ValidOps cfg) (hp : Protocol cfg s)
    (hf : Flags cfg s) (hm : Marker cfg s) (h : Trans cfg s t) : Marker cfg t := by
  have h1 := hm.exited
  have h2 := hm.marked
  have hks := kills_step hf h
  cases h with
  | acquire hpc hs =>
    rcases hks with ⟨hk, _⟩ | ⟨i', hpc', _⟩
    · exact ⟨h1, fun i hi ho => by rw [hk]; exact h2 i hi ho⟩
    · rw [hpc] at hpc'; cases hpc'
  | scan_free j hpc hj hb =>
    rcases hks with ⟨hk, _⟩ | ⟨i', hpc', _⟩
    · exact ⟨h1, fun i hi ho => by rw [hk]; exact h2 i hi ho⟩
    · rw [hpc] at hpc'; cases hpc'
  | scan_busy j hpc hj hb =>
    rcases hks with ⟨hk, _⟩ | ⟨i', hpc', _⟩
    · exact ⟨h1, fun i hi ho => by rw [hk]; exact h2 i hi ho⟩
    · rw [hpc] at hpc'; cases hpc'
  | scan_end j hpc hj =>
    rcases hks with ⟨hk, _⟩ | ⟨i', hpc', _⟩
    · exact ⟨h1, fun i hi ho => by rw [hk]; exact h2 i hi ho⟩
    · rw [hpc] at hpc'; cases hpc'
  | mark i hpc hi hb =>
    rcases hks with ⟨hk, _⟩ | ⟨i', hpc', _⟩
    · exact ⟨h1, fun i hi ho => by rw [hk]; exact h2 i hi ho⟩
    · rw [hpc] at hpc'; cases hpc'
  | mark_fault i hpc hi =>
    rcases hks with ⟨hk, _⟩ | ⟨i', hpc', _⟩
    · exact ⟨h1, fun i hi ho => by rw [hk]; exact h2 i hi ho⟩
    · rw [hpc] at hpc'; cases hpc'
  | harvest_none i hpc hfin =>
    rcases hks with ⟨hk, _⟩ | ⟨i', hpc', _⟩
    · exact ⟨h1, fun i hi ho => by rw [hk]; exact h2 i hi ho⟩
    · rw [hpc] at hpc'; cases hpc'
  | signal i hpc hs =>
    rcases hks with ⟨hk, _⟩ | ⟨i', hpc', _⟩
    · exact ⟨h1, fun i hi ho => by rw [hk]; exact h2 i hi ho⟩
    · rw [hpc] at hpc'; cases hpc'
  | harvest i hpc hfin =>
    rcases hks with ⟨hk, _⟩ | ⟨i', hpc', _⟩
    · refine ⟨?_, ?_⟩
      · intro k hk' hc
        have := h1 k hk' hc
        by_cases hki : k = i
        · subst hki; simpa [aggiorna] using this
        · simpa [aggiorna, hki] using this
      · intro k hk' ho
        rw [hk]
        apply h2 k hk'
        by_cases hki : k = i
        · subst hki; simpa [aggiorna] using ho
        · simpa [aggiorna, hki] using ho
    · rw [hpc] at hpc'; cases hpc'
  | write i tk hpc ht =>
    rcases hks with ⟨hk, _⟩ | ⟨i', _, hn, _⟩
    · have hcs : i < cfg.NUM_PROC := hp.cs_lt i (by simp [hpc])
      have hph := hp.phase i hcs
      simp only [Phase, hpc] at hph
      simp at hph
      have hop : tk.op ≠ 'K' := valid_ne_K (hv tk (ticket_of_some ht).2)
      refine ⟨?_, ?_⟩
      · intro k hk' hc
        have hc' : s.child k = ChildPc.exited := hc
        by_cases hki : k = i
        · subst hki
          rw [hc'] at hph
          simp at hph
        · simpa [aggiorna, hki] using h1 k hk' hc'
      · intro k hk' ho
        rw [hk]
        by_cases hki : k = i
        · subst hki
          simp [aggiorna] at ho
          exact absurd ho hop
        · exact h2 k hk' (by simpa [aggiorna, hki] using ho)
    · rw [hn] at ht; cases ht
  | write_K i hpc ht =>
    rcases hks with ⟨_, hkd⟩ | ⟨i', hpc', _, hk, _, hik⟩
    · simp at hkd
    · rw [hpc] at hpc'
      cases hpc'
      refine ⟨?_, ?_⟩
      · intro k hk' hc
        have hc' : s.child k = ChildPc.exited := hc
        by_cases hki : k = i
        · subst hki; simp [aggiorna]
        · simpa [aggiorna, hki] using h1 k hk' hc'
      · intro k hk' ho
        rw [hk]
        by_cases hki : k = i
        · omega
        · have := h2 k hk' (by simpa [aggiorna, hki] using ho)
          omega
  | wake i hi hpc hs =>
    rcases hks with ⟨hk, _⟩ | ⟨i', _, _, _, hkd, _⟩
    · refine ⟨?_, fun k hk' ho => by rw [hk]; exact h2 k hk' ho⟩
      intro k hk' hc
      by_cases hki : k = i
      · subst hki; simp [aggiorna] at hc
      · exact h1 k hk' (by simpa [aggiorna, hki] using hc)
    · simp at hkd
  | compute i r hi hpc hr =>
    rcases hks with ⟨hk, _⟩ | ⟨i', _, _, _, hkd, _⟩
    · refine ⟨?_, ?_⟩
      · intro k hk' hc
        by_cases hki : k = i
        · subst hki; simp [aggiorna] at hc
        · have := h1 k hk' (by simpa [aggiorna, hki] using hc)
          simpa [aggiorna, hki] using this
      · intro k hk' ho
        rw [hk]
        apply h2 k hk'
        by_cases hki : k = i
        · subst hki; simpa [aggiorna] using ho
        · simpa [aggiorna, hki] using ho
    · simp at hkd
  | compute_default i hi hpc hr =>
    rcases hks with ⟨hk, _⟩ | ⟨i', _, _, _, hkd, _⟩
    · refine ⟨?_, fun k hk' ho => by rw [hk]; exact h2 k hk' ho⟩
      intro k hk' hc
      by_cases hki : k = i
      · subst hki; simp [aggiorna] at hc
      · exact h1 k hk' (by simpa [aggiorna, hki] using hc)
    · simp at hkd
  | compute_exit i hi hpc hr =>
    rcases hks with ⟨hk, _⟩ | ⟨i', _, _, _, hkd, _⟩
    · refine ⟨?_, fun k hk' ho => by rw [hk]; exact h2 k hk' ho⟩
      intro k hk' hc
      by_cases hki : k = i
      · subst hki; exact calcolo_exit hr
      · exact h1 k hk' (by simpa [aggiorna, hki] using hc)
    · simp at hkd
  | compute_trap i hi hpc hr =>
    rcases hks with ⟨hk, _⟩ | ⟨i', _, _, _, hkd, _⟩
    · refine ⟨?_, fun k hk' ho => by rw [hk]; exact h2 k hk' ho⟩
      intro k hk' hc
      by_cases hki : k = i
      · subst hki; simp [aggiorna] at hc
      · exact h1 k hk' (by simpa [aggiorna, hki] using hc)
    · simp at hkd
  | flag i hi hpc =>
    rcases hks with ⟨hk, _⟩ | ⟨i', _, _, _, hkd, _⟩
    · refine ⟨?_, ?_⟩
      · intro k hk' hc
        by_cases hki : k = i
        · subst hki; simp [aggiorna] at hc
        · have := h1 k hk' (by simpa [aggiorna, hki] using hc)
          simpa [aggiorna, hki] using this
      · intro k hk' ho
        rw [hk]
        apply h2 k hk'
        by_cases hki : k = i
        · subst hki; simpa [aggiorna] using ho
        · simpa [aggiorna, hki] using ho
    · simp at hkd
  | release i hi hpc hs =>
    rcases hks with ⟨hk, _⟩ | ⟨i', _, _, _, hkd, _⟩
    · refine ⟨?_, fun k hk' ho => by rw [hk]; exact h2 k hk' ho⟩
      intro k hk' hc
      by_cases hki : k = i
      · subst hki; simp [aggiorna] at hc
      · exact h1 k hk' (by simpa [aggiorna, hki] using hc)
    · simp at hkd
  | free i hi hpc =>
    rcases hks with ⟨hk, _⟩ | ⟨i', _, _, _, hkd, _⟩
    · refine ⟨?_, fun k hk' ho => by rw [hk]; exact h2 k hk' ho⟩
      intro k hk' hc
      by_cases hki : k = i
      · subst hki; simp [aggiorna] at hc
      · exact h1 k hk' (by simpa [aggiorna, hki] using hc)
    · simp at hkd

theorem Reachable.marker {cfg : Config} {s : State} (hv : ValidOps cfg)
    (h : Reachable cfg s) : Marker cfg s :=
  (Reachable.invariant (fun s => (Protocol cfg s ∧ Flags cfg s) ∧ Marker cfg s)
    ⟨⟨protocol_initial cfg, flags_initial cfg⟩, marker_initial cfg⟩
    (fun _ _ _ hp ht =>
      ⟨⟨protocol_step hp.1.1 ht, flags_step hp.1.1 hp.1.2 ht⟩,
        marker_step hv hp.1.1 hp.1.2 hp.2 ht⟩) s h).2

theorem target_pc_ne_fault (cfg : Config) (k : Nat) : target_pc cfg k ≠ FatherPc.fault := by
  unfold target_pc
  split
  · split <;> simp
  · simp

theorem next_pc_ne_fault (cfg : Config) (k : Nat) : next_pc cfg k ≠ FatherPc.fault := by
  unfold next_pc
  split <;> simp

/-- With valid `val` fields the child the father is about to use always exists. -/
theorem mark_lt {cfg : Config} {s : State} (hid : ValidIds cfg) (hf : Flags cfg s)
    (hs : Search cfg s) {i : Nat} (hpc : s.father = FatherPc.mark i) : i < cfg.NUM_PROC := by
  cases ht : cfg.tickets[s.job]? with
  | some t =>
    by_cases h0 : t.id = 0
    · exact (hs.chosen_free t i ht h0 (Or.inl hpc)).1
    · have h1 := hs.chosen_id t i ht h0 (Or.inl hpc)
      have h2 := hid t (ticket_of_some ht).2
      omega
  | none =>
    have h1 := ticket_of_none ht
    have h2 := hf.drain h1 i (Or.inl hpc)
    have h3 := hf.job_lt (by simp [hpc])
    omega

theorem Reachable.no_fault {cfg : Config} {s : State} (hid : ValidIds cfg)
    (h : Reachable cfg s) : s.father ≠ FatherPc.fault := by
  refine Reachable.invariant (fun s => s.father ≠ FatherPc.fault) ?_ ?_ s h
  · simp only [initial]
    split <;> simp
  · intro s t hr hnf ht
    have hf := hr.flags
    have hs := hr.search
    cases ht with
    | acquire hpc hsem => exact target_pc_ne_fault _ _
    | scan_free j hpc hj hb => simp
    | scan_busy j hpc hj hb => simp
    | scan_end j hpc hj => simp
    | mark i hpc hi hb => simp
    | mark_fault i hpc hi => exact absurd (mark_lt hid hf hs hpc) hi
    | harvest i hpc hfin => simp
    | harvest_none i hpc hfin => simp
    | write i tk hpc ht => simp
    | write_K i hpc ht => simp
    | signal i hpc hsem => exact next_pc_ne_fault _ _
    | wake i hi hpc hsem => exact hnf
    | compute i r hi hpc hr => exact hnf
    | compute_default i hi hpc hr => exact hnf
    | compute_exit i hi hpc hr => exact hnf
    | compute_trap i hi hpc hr => exact hnf
    | flag i hi hpc => exact hnf
    | release i hi hpc hsem => exact hnf
    | free i hi hpc => exact hnf

theorem Reachable.no_crash {cfg : Config} {s : State} (hv : ValidOps cfg) (hnt : NoTrap cfg)
    (h : Reachable cfg s) : ∀ k, k < cfg.NUM_PROC → s.child k ≠ ChildPc.crashed := by
  refine Reachable.invariant
    (fun s => ∀ k, k < cfg.NUM_PROC → s.child k ≠ ChildPc.crashed) ?_ ?_ s h
  · intro k _
    simp [initial]
  · intro s t hr hnc ht k hk
    have hk' := hnc k hk
    cases ht with
    | compute_trap i hi hpc hr' =>
      by_cases hki : k = i
      · subst hki
        exfalso
        obtain ⟨_, _, _, hd⟩ := hr.invariants hv
        have hop : (s.memoria k).op ≠ 'K' := by
          intro e
          rw [e, calcolo_K] at hr'
          cases hr'
        obtain ⟨A, tk, hA, hH, _, _⟩ := (hd.slot k hk).1 hop (Or.inr (Or.inr (Or.inl hpc)))
        have hmem : tk ∈ cfg.tickets :=
          assigned_mem_tickets hd (mem_of_mem_view (by rw [hA]; simp))
        obtain ⟨h1, h2, h3⟩ := hH
        rw [h1, h2, h3] at hr'
        exact hnt tk hmem hr'
      · simpa [aggiorna, hki] using hk'
    | acquire hpc hsem => exact hk'
    | scan_free j hpc hj hb => exact hk'
    | scan_busy j hpc hj hb => exact hk'
    | scan_end j hpc hj => exact hk'
    | mark i hpc hi hb => exact hk'
    | mark_fault i hpc hi => exact hk'
    | harvest i hpc hfin => exact hk'
    | harvest_none i hpc hfin => exact hk'
    | write i tk hpc ht => exact hk'
    | write_K i hpc ht => exact hk'
    | signal i hpc hsem => exact hk'
    | wake i hi hpc hsem =>
      by_cases hki : k = i
      · subst hki; simp [aggiorna]
      · simpa [aggiorna, hki] using hk'
    | compute i r hi hpc hr' =>
      by_cases hki : k = i
      · subst hki; simp [aggiorna]
      · simpa [aggiorna, hki] using hk'
    | compute_default i hi hpc hr' =>
      by_cases hki : k = i
      · subst hki; simp [aggiorna]
      · simpa [aggiorna, hki] using hk'
    | compute_exit i hi hpc hr' =>
      by_cases hki : k = i
      · subst hki; simp [aggiorna]
      · simpa [aggiorna, hki] using hk'
    | flag i hi hpc =>
      by_cases hki : k = i
      · subst hki; simp [aggiorna]
      · simpa [aggiorna, hki] using hk'
    | release i hi hpc hsem =>
      by_cases hki : k = i
      · subst hki; simp [aggiorna]
      · simpa [aggiorna, hki] using hk'
    | free i hi hpc =>
      by_cases hki : k = i
      · subst hki; simp [aggiorna]
      · simpa [aggiorna, hki] using hk'

/-! ### The bound on the remaining steps decreases -/

theorem sum_below_congr {f g : Nat → Nat} {n : Nat} (h : ∀ k, k < n → f k = g k) :
    sum_below f n = sum_below g n := by
  induction n with
  | zero => rfl
  | succ n ih =>
    simp only [sum_below]
    rw [ih (fun k hk => h k (by omega)), h n (by omega)]

theorem sum_below_update {f g : Nat → Nat} {n i : Nat} (hi : i < n)
    (h : ∀ k, k < n → k ≠ i → f k = g k) :
    sum_below f n + g i = sum_below g n + f i := by
  induction n with
  | zero => omega
  | succ n ih =>
    simp only [sum_below]
    by_cases hin : i = n
    · subst hin
      have := sum_below_congr (f := f) (g := g) (n := i)
        (fun k hk => h k (by omega) (by omega))
      omega
    · have := ih (by omega) (fun k hk hki => h k (by omega) hki)
      rw [h n (by omega) (fun e => hin e.symm)]
      omega

theorem father_work_target (cfg : Config) (k : Nat) :
    father_work cfg.NUM_PROC (target_pc cfg k) ≤ cfg.NUM_PROC + 10 := by
  unfold target_pc
  split
  · split <;> simp [father_work]
  · simp [father_work]

theorem father_work_next (cfg : Config) (k : Nat) :
    father_work cfg.NUM_PROC (next_pc cfg k) ≤ cfg.NUM_PROC + 11 := by
  unfold next_pc
  split <;> simp [father_work]

/-- Every step makes the bound `remaining` smaller: no run is infinite. -/
theorem remaining_decreases {cfg : Config} {s t : State} (hp : Protocol cfg s)
    (hf : Flags cfg s) (h : Trans cfg s t) : remaining cfg t < remaining cfg s := by
  unfold remaining
  cases h with
  | acquire hpc hsem =>
    have hsum : sum_below (pending_work
        { s with
          semaforo := aggiorna s.semaforo (2 * cfg.NUM_PROC) (freecount cfg s.semaforo - 1)
          probes := []
          father := target_pc cfg s.job }) cfg.NUM_PROC =
        sum_below (pending_work s) cfg.NUM_PROC := by
      apply sum_below_congr
      intro k hk
      have : k ≠ cfg.NUM_PROC := by omega
      simp [pending_work, this]
    have := father_work_target cfg s.job
    have hfa : father_work cfg.NUM_PROC FatherPc.acquire = cfg.NUM_PROC + 11 := rfl
    simp only [hsum, hpc, hfa]
    omega
  | scan_free j hpc hj hb =>
    have hsum : sum_below (pending_work
        { s with probes := s.probes ++ [(j, true)], father := FatherPc.mark j })
        cfg.NUM_PROC = sum_below (pending_work s) cfg.NUM_PROC := rfl
    simp only [hsum, hpc, father_work]
    omega
  | scan_busy j hpc hj hb =>
    have hsum : sum_below (pending_work
        { s with probes := s.probes ++ [(j, false)], father := FatherPc.scan (j + 1) })
        cfg.NUM_PROC = sum_below (pending_work s) cfg.NUM_PROC := rfl
    simp only [hsum, hpc, father_work]
    omega
  | scan_end j hpc hj =>
    have hsum : sum_below (pending_work { s with father := FatherPc.mark j })
        cfg.NUM_PROC = sum_below (pending_work s) cfg.NUM_PROC := rfl
    simp only [hsum, hpc, father_work]
    omega
  | mark i hpc hi hb =>
    have hsum : sum_below (pending_work
        { s with
          semaforo := aggiorna s.semaforo (2 * i + 1) 1
          father := FatherPc.harvest i }) cfg.NUM_PROC =
        sum_below (pending_work s) cfg.NUM_PROC := by
      apply sum_below_congr
      intro k _
      simp [pending_work]
    simp only [hsum, hpc, father_work]
    omega
  | mark_fault i hpc hi =>
    have hsum : sum_below (pending_work { s with father := FatherPc.fault })
        cfg.NUM_PROC = sum_below (pending_work s) cfg.NUM_PROC := rfl
    simp only [hsum, hpc, father_work]
    omega
  | harvest i hpc hfin =>
    have hsum : sum_below (pending_work
        { s with
          risultati := s.risultati ++ [riga_risultato (s.memoria i)]
          collected := s.collected ++ [(i, riga_risultato (s.memoria i))]
          memoria := aggiorna s.memoria i { s.memoria i with finish := false }
          father := FatherPc.write i }) cfg.NUM_PROC =
        sum_below (pending_work s) cfg.NUM_PROC := rfl
    simp only [hsum, hpc, father_work]
    omega
  | harvest_none i hpc hfin =>
    have hsum : sum_below (pending_work { s with father := FatherPc.write i })
        cfg.NUM_PROC = sum_below (pending_work s) cfg.NUM_PROC := rfl
    simp only [hsum, hpc, father_work]
    omega
  | write i tk hpc ht =>
    have hsum : sum_below (pending_work
        { s with
          memoria := aggiorna s.memoria i
            { s.memoria i with val1 := tk.num1, op := tk.op, val2 := tk.num2 }
          assigned := s.assigned ++ [(i, tk)]
          father := FatherPc.signal i }) cfg.NUM_PROC =
        sum_below (pending_work s) cfg.NUM_PROC := rfl
    simp only [hsum, hpc, father_work]
    omega
  | write_K i hpc ht =>
    have hsum : sum_below (pending_work
        { s with
          memoria := aggiorna s.memoria i { s.memoria i with op := 'K' }
          killed := s.killed ++ [i]
          father := FatherPc.signal i }) cfg.NUM_PROC =
        sum_below (pending_work s) cfg.NUM_PROC := rfl
    simp only [hsum, hpc, father_work]
    omega
  | signal i hpc hsem =>
    have hi : i < cfg.NUM_PROC := hp.cs_lt i (by simp [hpc])
    have hjob := hf.job_lt (by simp [hpc])
    have hsum := sum_below_update (f := pending_work
        { s with
          semaforo := aggiorna s.semaforo (2 * i) (ready s.semaforo i - 1)
          job := s.job + 1
          father := next_pc cfg (s.job + 1) }) (g := pending_work s) hi
      (by intro k _ hk; simp [pending_work, hk])
    have hle : pending_work
        { s with
          semaforo := aggiorna s.semaforo (2 * i) (ready s.semaforo i - 1)
          job := s.job + 1
          father := next_pc cfg (s.job + 1) } i ≤ pending_work s i + 5 := by
      simp only [pending_work, ready_upd_even, if_true]
      split <;> split <;> omega
    have hfw := father_work_next cfg (s.job + 1)
    have hmul : (cfg.NUM_PROC + 12) * (cfg.tickets.length + cfg.NUM_PROC - s.job) =
        (cfg.NUM_PROC + 12) * (cfg.tickets.length + cfg.NUM_PROC - (s.job + 1)) +
          (cfg.NUM_PROC + 12) := by
      have : cfg.tickets.length + cfg.NUM_PROC - s.job =
          (cfg.tickets.length + cfg.NUM_PROC - (s.job + 1)) + 1 := by omega
      rw [this, Nat.mul_succ]
    have hfa : father_work cfg.NUM_PROC (FatherPc.signal i) = 6 := rfl
    simp only [hpc, hfa]
    generalize (cfg.NUM_PROC + 12) * (cfg.tickets.length + cfg.NUM_PROC - (s.job + 1)) = X
      at hmul ⊢
    generalize (cfg.NUM_PROC + 12) * (cfg.tickets.length + cfg.NUM_PROC - s.job) = Y
      at hmul ⊢
    omega
  | wake i hi hpc hsem =>
    have hsum := sum_below_update (f := pending_work
        { s with
          semaforo := aggiorna s.semaforo (2 * i) 1
          child := aggiorna s.child i ChildPc.compute }) (g := pending_work s) hi
      (by intro k _ hk; simp [pending_work, aggiorna, hk])
    simp [pending_work, aggiorna, hpc, hsem, child_work] at hsum
    simp only
    omega
  | compute i r hi hpc hr =>
    have hsum := sum_below_update (f := pending_work
        { s with
          memoria := aggiorna s.memoria i { s.memoria i with res := r }
          computed := s.computed ++ [(i, r)]
          child := aggiorna s.child i ChildPc.flag }) (g := pending_work s) hi
      (by intro k _ hk; simp [pending_work, aggiorna, hk])
    simp [pending_work, aggiorna, hpc, child_work] at hsum
    simp only
    omega
  | compute_default i hi hpc hr =>
    have hsum := sum_below_update (f := pending_work
        { s with child := aggiorna s.child i ChildPc.flag }) (g := pending_work s) hi
      (by intro k _ hk; simp [pending_work, aggiorna, hk])
    simp [pending_work, aggiorna, hpc, child_work] at hsum
    simp only
    omega
  | compute_exit i hi hpc hr =>
    have hsum := sum_below_update (f := pending_work
        { s with child := aggiorna s.child i ChildPc.exited }) (g := pending_work s) hi
      (by intro k _ hk; simp [pending_work, aggiorna, hk])
    simp [pending_work, aggiorna, hpc, child_work] at hsum
    simp only
    omega
  | compute_trap i hi hpc hr =>
    have hsum := sum_below_update (f := pending_work
        { s with child := aggiorna s.child i ChildPc.crashed }) (g := pending_work s) hi
      (by intro k _ hk; simp [pending_work, aggiorna, hk])
    simp [pending_work, aggiorna, hpc, child_work] at hsum
    simp only
    omega
  | flag i hi hpc =>
    have hsum := sum_below_update (f := pending_work
        { s with
          memoria := aggiorna s.memoria i { s.memoria i with finish := true }
          child := aggiorna s.child i ChildPc.release }) (g := pending_work s) hi
      (by intro k _ hk; simp [pending_work, aggiorna, hk])
    simp [pending_work, aggiorna, hpc, child_work] at hsum
    simp only
    omega
  | release i hi hpc hsem =>
    have hsum := sum_below_update (f := pending_work
        { s with
          semaforo := aggiorna s.semaforo (2 * i + 1) (busy s.semaforo i - 1)
          child := aggiorna s.child i ChildPc.free }) (g := pending_work s) hi
      (by intro k _ hk; simp [pending_work, aggiorna, hk])
    simp [pending_work, aggiorna, hpc, child_work] at hsum
    simp only
    omega
  | free i hi hpc =>
    have hiN : i ≠ cfg.NUM_PROC := by omega
    have hsum := sum_below_update (f := pending_work
        { s with
          semaforo := aggiorna s.semaforo (2 * cfg.NUM_PROC) (freecount cfg s.semaforo + 1)
          child := aggiorna s.child i ChildPc.wait }) (g := pending_work s) hi
      (by
        intro k hkn hk
        have hkN : k ≠ cfg.NUM_PROC := by omega
        simp [pending_work, aggiorna, hk, hkN])
    simp [pending_work, aggiorna, hpc, child_work, hiN] at hsum
    simp only
    omega

/-! ### No deadlock -/

theorem child_step_wait {cfg : Config} {s : State} {i : Nat} (hpc : s.child i = ChildPc.wait)
    (hr : ready s.semaforo i = 0) : ∃ t, child_step cfg i s = some t := by
  have hr' : s.semaforo (2 * i) = 0 := hr
  simp [child_step, hpc, semop_zero_inc, hr']

theorem child_step_compute {cfg : Config} {s : State} {i : Nat}
    (hpc : s.child i = ChildPc.compute) : ∃ t, child_step cfg i s = some t := by
  unfold child_step
  rw [hpc]
  simp only
  cases calcolo (s.memoria i).val1 (s.memoria i).op (s.memoria i).val2 <;> exact ⟨_, rfl⟩

theorem child_step_flag {cfg : Config} {s : State} {i : Nat}
    (hpc : s.child i = ChildPc.flag) : ∃ t, child_step cfg i s = some t := by
  simp [child_step, hpc]

theorem child_step_release {cfg : Config} {s : State} {i : Nat}
    (hpc : s.child i = ChildPc.release) (hb : 1 ≤ busy s.semaforo i) :
    ∃ t, child_step cfg i s = some t := by
  have hb' : 1 ≤ s.semaforo (2 * i + 1) := hb
  simp [child_step, hpc, semop_dec, hb']

theorem child_step_free {cfg : Config} {s : State} {i : Nat}
    (hpc : s.child i = ChildPc.free) : ∃ t, child_step cfg i s = some t := by
  simp [child_step, hpc, semop_inc]

/-- A child whose semaphore `2*i+1` is not 0, whose record is not in the hands of the father
and which has not stopped can make a step. -/
theorem child_can_move {cfg : Config} {s : State} {i : Nat} (hi : i < cfg.NUM_PROC)
    (hph : Phase s i) (hb : busy s.semaforo i ≠ 0) (hcs : s.father.inCS i = false)
    (hne : s.child i ≠ ChildPc.exited) (hnc : s.child i ≠ ChildPc.crashed) :
    ∃ t, Step cfg s t := by
  have key : ∃ t, child_step cfg i s = some t := by
    rcases hph with ⟨h1, _⟩ | ⟨_, _, _, h4⟩ | ⟨_, h2, h3, _⟩ | ⟨h1, _, h3, _⟩
    · exact absurd h1 hb
    · rw [hcs] at h4
      cases h4
    · rcases ChildPc.idle_of_not_inCS h3 with e | e
      · exact child_step_wait e h2
      · exact child_step_free e
    · cases hc : s.child i with
      | wait => rw [hc] at h3; cases h3
      | free => rw [hc] at h3; cases h3
      | compute => exact child_step_compute hc
      | flag => exact child_step_flag hc
      | release => exact child_step_release hc (by omega)
      | exited => exact absurd hc hne
      | crashed => exact absurd hc hnc
  obtain ⟨t, ht⟩ := key
  exact ⟨t, Step.child i hi ht⟩

theorem father_moves {cfg : Config} {s : State} (h : ∃ t, father_step cfg s = some t) :
    ∃ t, Step cfg s t := by
  obtain ⟨t, ht⟩ := h
  exact ⟨t, Step.father ht⟩

theorem count_below_pos_of {p : Nat → Bool} {n i : Nat} (hi : i < n) (h : p i = true) :
    0 < count_below p n := by
  induction n with
  | zero => omega
  | succ n ih =>
    simp only [count_below]
    by_cases hin : i = n
    · subst hin
      simp [h]
    · have := ih (by omega)
      omega

/-- No deadlock: with valid operators and at least one child, a reachable state in which the
father has neither finished nor used a wrong index and no child was stopped by a division
always has a next step. -/
theorem progress {cfg : Config} {s : State} (hv : ValidOps cfg) (hN : 1 ≤ cfg.NUM_PROC)
    (hr : Reachable cfg s) (hnd : s.father ≠ FatherPc.done)
    (hnf : s.father ≠ FatherPc.fault)
    (hnc : ∀ i, i < cfg.NUM_PROC → s.child i ≠ ChildPc.crashed) : ∃ t, Step cfg s t := by
  obtain ⟨hp, hf⟩ := hr.protocol_flags
  have hm := hr.marker hv
  have hjob := hf.job_lt hnd
  cases hpc : s.father with
  | acquire =>
    by_cases hfc : 1 ≤ freecount cfg s.semaforo
    · have hfc' : 1 ≤ s.semaforo (2 * cfg.NUM_PROC) := hfc
      exact father_moves (by simp [father_step, hpc, semop_dec, hfc'])
    · have hb := hp.balance
      simp only [hpc, FatherPc.mid_acquire] at hb
      by_cases hrel : 0 < releasing cfg s
      · obtain ⟨k, hk, hck⟩ := count_below_pos hrel
        have hck' : s.child k = ChildPc.free := by simpa using hck
        obtain ⟨t, ht⟩ : ∃ t, child_step cfg k s = some t := child_step_free hck'
        exact ⟨t, Step.child k hk ht⟩
      · have hfree : free_children cfg s = 0 := by omega
        by_cases hall : ∀ i, i < cfg.NUM_PROC → s.child i = ChildPc.exited
        · exfalso
          have h1 := hm.marked (cfg.NUM_PROC - 1) (by omega)
            (hm.exited _ (by omega) (hall _ (by omega)))
          simp [kills, hpc] at h1
          omega
        · have hall' : ∃ i, i < cfg.NUM_PROC ∧ s.child i ≠ ChildPc.exited := by
            by_contra hcon
            apply hall
            intro i hi
            by_contra hne
            exact hcon ⟨i, hi, hne⟩
          obtain ⟨i, hi, hne⟩ := hall'
          have hbi : busy s.semaforo i ≠ 0 := by
            intro e
            have hpos : 0 < free_children cfg s :=
              count_below_pos_of hi (by simpa using e)
            omega
          exact child_can_move hi (hp.phase i hi) hbi (by simp [hpc]) hne (hnc i hi)
  | scan j =>
    by_cases hj : j < cfg.NUM_PROC
    · by_cases hb : s.semaforo (2 * j + 1) = 0
      · exact father_moves (by simp [father_step, hpc, hj, semop_zero, hb])
      · exact father_moves (by simp [father_step, hpc, hj, semop_zero, hb])
    · exact father_moves (by simp [father_step, hpc, hj])
  | mark i =>
    by_cases hi : i < cfg.NUM_PROC
    · by_cases hb : busy s.semaforo i = 0
      · have hb' : s.semaforo (2 * i + 1) = 0 := hb
        exact father_moves (by simp [father_step, hpc, hi, semop_zero_inc, hb'])
      · have hne : s.child i ≠ ChildPc.exited := by
          intro e
          have h1 := hm.marked i hi (hm.exited i hi e)
          simp only [kills, hpc, FatherPc.isSignal_mark] at h1
          by_cases hjm : cfg.tickets.length ≤ s.job
          · have := hf.drain hjm i (Or.inl hpc)
            simp at h1
            omega
          · simp at h1
            omega
        exact child_can_move hi (hp.phase i hi) hb (by simp [hpc]) hne (hnc i hi)
    · exact father_moves (by simp [father_step, hpc, hi])
  | harvest i =>
    by_cases hfin : (s.memoria i).finish = true
    · exact father_moves (by simp [father_step, hpc, hfin])
    · exact father_moves (by simp [father_step, hpc, hfin])
  | write i =>
    cases ht : cfg.tickets[s.job]? with
    | some t => exact father_moves (by simp [father_step, hpc, ht])
    | none => exact father_moves (by simp [father_step, hpc, ht])
  | signal i =>
    have hi : i < cfg.NUM_PROC := hp.cs_lt i (by simp [hpc])
    have hph := hp.phase i hi
    simp only [Phase, hpc] at hph
    simp at hph
    have hrd : 1 ≤ s.semaforo (2 * i) := by
      have : ready s.semaforo i = 1 := hph.2.1
      unfold ready at this
      omega
    exact father_moves (by simp [father_step, hpc, semop_dec, hrd])
  | done => exact absurd hpc hnd
  | fault => exact absurd hpc hnf

/-! ### Every run reaches the end -/

/-- From every reachable state the system reaches a state without a next step. -/
theorem terminal_reachable {cfg : Config} :
    ∀ (n : Nat) (s : State), Reachable cfg s → remaining cfg s ≤ n →
      ∃ t, Reachable cfg t ∧ ∀ u, ¬ Step cfg t u
  | 0, s, hr, hn => by
    refine ⟨s, hr, ?_⟩
    intro u hu
    have := remaining_decreases hr.protocol hr.flags hu.trans
    omega
  | n + 1, s, hr, hn => by
    by_cases hex : ∃ u, Step cfg s u
    · obtain ⟨u, hu⟩ := hex
      have := remaining_decreases hr.protocol hr.flags hu.trans
      exact terminal_reachable n u (Reachable.step hr hu) (by omega)
    · exact ⟨s, hr, fun u hu => hex ⟨u, hu⟩⟩

/-- Total correctness of the protocol.  With at least one child, valid operators, valid `val`
fields and no division without quotient: every step decreases the bound `remaining` (no run
is infinite), a reachable state without a next step has the father behind its final loop (no
run stops early), and such a state is reachable. -/
theorem runs_complete (cfg : Config) (hN : 1 ≤ cfg.NUM_PROC) (hv : ValidOps cfg)
    (hid : ValidIds cfg) (hnt : NoTrap cfg) :
    (∀ s t, Reachable cfg s → Step cfg s t → remaining cfg t < remaining cfg s) ∧
    (∀ s, Reachable cfg s → (∀ u, ¬ Step cfg s u) → s.father = FatherPc.done) ∧
    (∃ s, Reachable cfg s ∧ s.father = FatherPc.done) := by
  have h2 : ∀ s, Reachable cfg s → (∀ u, ¬ Step cfg s u) → s.father = FatherPc.done := by
    intro s hr hterm
    by_contra hnd
    obtain ⟨u, hu⟩ := progress hv hN hr hnd (hr.no_fault hid) (hr.no_crash hv hnt)
    exact hterm u hu
  refine ⟨fun s t hr hst => remaining_decreases hr.protocol hr.flags hst.trans, h2, ?_⟩
  obtain ⟨t, ht, hterm⟩ :=
    terminal_reachable (remaining cfg (initial cfg)) (initial cfg) Reachable.init
      (Nat.le_refl _)
  exact ⟨t, ht, h2 t ht hterm⟩

/-! ## A free child stays free until the father marks it -/

/-- No step of a child changes a semaphore `2*k+1` that is 0: a child only decrements its
own semaphore `2*i+1`, and only when it is at least 1. -/
theorem child_step_keeps_free {cfg : Config} {s t : State} {i : Nat}
    (h : child_step cfg i s = some t) (k : Nat) (hk : busy s.semaforo k = 0) :
    busy t.semaforo k = 0 := by
  unfold child_step at h
  split at h
  · rw [semop_zero_inc] at h
    by_cases hs : s.semaforo (2 * i) = 0
    · simp only [hs, if_true] at h
      cases h
      simpa using hk
    · simp [hs] at h
  · split at h <;> cases h <;> exact hk
  · cases h
    exact hk
  · rw [semop_dec] at h
    by_cases hs : 1 ≤ s.semaforo (2 * i + 1)
    · simp only [hs, if_true] at h
      cases h
      simp only [busy_upd_odd]
      by_cases hki : k = i
      · subst hki
        have hk2 : s.semaforo (2 * k + 1) = 0 := hk
        omega
      · simp [hki, hk]
    · simp [hs] at h
  · rw [semop_inc] at h
    cases h
    have hk2 : s.semaforo (2 * k + 1) = 0 := hk
    have hne : ¬ 2 * k + 1 = 2 * cfg.NUM_PROC := by omega
    simp [busy, aggiorna, hne, hk2]
  · cases h
  · cases h

/-- The child found by a search is still free when the father marks it: between the
successful probe and the `semop` that sets semaphore `2*i+1`, that semaphore is 0. -/
theorem Reachable.chosen_stays_free {cfg : Config} {s : State} (h : Reachable cfg s) :
    ∀ i tk, s.father = FatherPc.mark i → cfg.tickets[s.job]? = some tk → tk.id = 0 →
      busy s.semaforo i = 0 := by
  refine Reachable.invariant
    (fun s => ∀ i tk, s.father = FatherPc.mark i → cfg.tickets[s.job]? = some tk → tk.id = 0 →
      busy s.semaforo i = 0) ?_ ?_ s h
  · intro i tk hpc
    simp only [initial] at hpc
    split at hpc <;> simp at hpc
  · intro s t hr ih ht
    have hp := hr.protocol
    cases ht with
    | acquire hpc hsem =>
      intro i tk hm hk h0
      simp only [target_pc] at hm hk
      rw [hk] at hm
      simp [h0] at hm
    | scan_free j hpc hj hb =>
      intro i tk hm hk h0
      simp only [FatherPc.mark.injEq] at hm
      subst hm
      exact hb
    | scan_busy j hpc hj hb => intro i tk hm; simp at hm
    | scan_end j hpc hj =>
      obtain ⟨k, hk1, hk2, _⟩ := hp.scan j hpc
      exact absurd (by omega) hj
    | mark i hpc hi hb => intro i tk hm; simp at hm
    | mark_fault i hpc hi => intro i tk hm; simp at hm
    | harvest i hpc hfin => intro i tk hm; simp at hm
    | harvest_none i hpc hfin => intro i tk hm; simp at hm
    | write i tk hpc ht => intro i tk hm; simp at hm
    | write_K i hpc ht => intro i tk hm; simp at hm
    | signal i hpc hsem =>
      intro i tk hm
      simp only [next_pc] at hm
      split at hm <;> simp at hm
    | wake i hi hpc hsem =>
      intro k tk hm hk h0
      simpa using ih k tk hm hk h0
    | compute i r hi hpc hc => exact ih
    | compute_default i hi hpc hc => exact ih
    | compute_exit i hi hpc hc => exact ih
    | compute_trap i hi hpc hc => exact ih
    | flag i hi hpc => exact ih
    | release i hi hpc hsem =>
      intro k tk hm hk h0
      have hb := ih k tk hm hk h0
      simp only [busy_upd_odd]
      by_cases hki : k = i
      · subst hki
        omega
      · simp [hki, hb]
    | free i hi hpc =>
      intro k tk hm hk h0
      have hb : s.semaforo (2 * k + 1) = 0 := ih k tk hm hk h0
      have hne : ¬ 2 * k + 1 = 2 * cfg.NUM_PROC := by omega
      simp [busy, aggiorna, hne, hb]

/-! ## The results when the father has finished -/

/-- With valid operators, when the father has finished the final loop `counter` equals the
number of operations and the entries of the results are, up to order, what the collection
code builds for each operation with the result its child stored (`riga`): one entry per
operation, none missing, none twice. -/
theorem log_complete (cfg : Config) (hv : ValidOps cfg) (s : State) (hr : Reachable cfg s)
    (hd : s.father = FatherPc.done) :
    s.counter = cfg.tickets.length ∧ List.Perm s.risultati (cfg.tickets.map riga) := by
  obtain ⟨_, _, _, hdat⟩ := hr.invariants hv
  have hperm : List.Perm s.risultati (cfg.tickets.map riga) := by
    rw [hdat.log]
    have h1 := perm_gather_view s.collected cfg.NUM_PROC hdat.collected_lt
    have h2 := perm_gather_view s.assigned cfg.NUM_PROC (fun p hp => (hdat.assigned_lt p hp).1)
    have h3 : gather (fun i => view i s.collected) cfg.NUM_PROC =
        (gather (fun i => view i s.assigned) cfg.NUM_PROC).map riga := by
      rw [← gather_map]
      apply gather_congr
      intro i hi
      exact (slot_of_done hv hr hd i hi).2
    rw [h3] at h1
    rw [assigned_of_done hv hr hd] at h2
    exact h1.trans (h2.map riga).symm
  refine ⟨?_, hperm⟩
  have := hperm.length_eq
  simpa [State.counter] using this

/-- With `NUM_PROC = 1` and valid operators, when the father has finished the final loop the
entries of the results are in file order. -/
theorem log_in_file_order (cfg : Config) (hN : cfg.NUM_PROC = 1) (hv : ValidOps cfg)
    (s : State) (hr : Reachable cfg s) (hd : s.father = FatherPc.done) :
    s.risultati = cfg.tickets.map riga := by
  obtain ⟨_, _, _, hdat⟩ := hr.invariants hv
  have hc : ∀ p ∈ s.collected, p.1 < 1 := by
    intro p hp
    have := hdat.collected_lt p hp
    omega
  have ha : ∀ p ∈ s.assigned, p.1 < 1 := by
    intro p hp
    have := (hdat.assigned_lt p hp).1
    omega
  have h0 := (slot_of_done hv hr hd 0 (by omega)).2
  rw [view_zero_of_single hc, view_zero_of_single ha, assigned_of_done hv hr hd] at h0
  rw [hdat.log, h0]

/-! ## Theorems of the claims -/

/-- C1, the code at failing inputs.  The configuration with `NUM_PROC = 2` and the operations
`0 3 + 4` and `0 65536 * 32768` has valid `val` fields and operators and no division.  The
run in which the father and the children take turns is complete: the father has finished the
final loop and `counter` is 2, the number of operations.  The entries are the lines `3+4=7`
and `65536*32768=-(`: the second operation is not in the results with its result, neither
with the value `-2147483648` that its child stored nor with the product `2147483648`.  In the
complete run for the single operation `2 100000 * 10000` the result `1000000000` has ten
digits, `itoa` needs 11 bytes in the array `res` of `BUFLEN = 10` bytes, and the entry is
not a line of the operation. -/
theorem log_entry_without_result :
    (ValidIds scenario_log ∧ ValidOps scenario_log ∧ NoTrap scenario_log) ∧
    (run scenario_log (turns 30) (initial scenario_log)).father = FatherPc.done ∧
    (run scenario_log (turns 30) (initial scenario_log)).counter =
      scenario_log.tickets.length ∧
    (run scenario_log (turns 30) (initial scenario_log)).risultati =
      [some (String.toList "3+4=7\n"), some (String.toList "65536*32768=-(\n")] ∧
    scenario_log.tickets.map risultato = [7, -2147483648] ∧
    scenario_log.tickets.map sequential = [7, 2147483648] ∧
    some (decimal_line 65536 '*' 32768 (-2147483648)) ∉
      (run scenario_log (turns 30) (initial scenario_log)).risultati ∧
    some (decimal_line 65536 '*' 32768 2147483648) ∉
      (run scenario_log (turns 30) (initial scenario_log)).risultati ∧
    (run scenario_digits (turns 24) (initial scenario_digits)).father = FatherPc.done ∧
    view 1 (run scenario_digits (turns 24) (initial scenario_digits)).computed =
      [1000000000] ∧
    itoa 1000000000 = String.toList "1000000000" ∧
    itoa_buf BUFLEN 1000000000 = none ∧
    (run scenario_digits (turns 24) (initial scenario_digits)).risultati = [none] := by
  refine ⟨⟨by decide, by decide, by decide⟩, by decide, by decide, by decide, by decide,
    by decide, by decide, by decide, by decide, by decide, by decide, by decide, by decide⟩

/-- C2.  In every reachable state in which the father is about to write operands and operator
(or `'K'`) into `memoria[i]`, and until it has signalled the child, `finish` of that record
is false.  The write is only reached through the test of `finish`: when the flag is set there,
the father's step appends the line built from the `val1`, `op`, `val2`, `res` of the record to
the results and clears the flag; when it is not set, the step changes nothing but the program
point.  With valid operators, at the moment of the write the lines collected from child `i`
are the lines of all operations it was given and it has stored a result for each of them: no
result is overwritten before it is collected. -/
theorem write_after_harvest (cfg : Config) (s : State) (hr : Reachable cfg s) (i : Nat) :
    (s.father = FatherPc.write i ∨ s.father = FatherPc.signal i →
      (s.memoria i).finish = false) ∧
    (s.father = FatherPc.harvest i → (s.memoria i).finish = true →
      father_step cfg s = some { s with
        risultati := s.risultati ++ [riga_risultato (s.memoria i)]
        collected := s.collected ++ [(i, riga_risultato (s.memoria i))]
        memoria := aggiorna s.memoria i { s.memoria i with finish := false }
        father := FatherPc.write i }) ∧
    (s.father = FatherPc.harvest i → (s.memoria i).finish = false →
      father_step cfg s = some { s with father := FatherPc.write i }) ∧
    (ValidOps cfg → s.father = FatherPc.write i →
      view i s.collected = (view i s.assigned).map riga ∧
      view i s.computed = (view i s.assigned).map risultato) := by
  refine ⟨?_, ?_, ?_, ?_⟩
  · intro h
    have hp := hr.protocol
    have hi : i < cfg.NUM_PROC := hp.cs_lt i (by rcases h with h | h <;> simp [h])
    exact hr.flags.write_clear i hi h
  · intro hpc hfin
    simp [father_step, hpc, hfin]
  · intro hpc hfin
    simp [father_step, hpc, hfin]
  · intro hv hpc
    obtain ⟨hp, hf, _, hd⟩ := hr.invariants hv
    have hi : i < cfg.NUM_PROC := hp.cs_lt i (by simp [hpc])
    have hph := hp.phase i hi
    simp only [Phase, hpc] at hph
    simp at hph
    obtain ⟨_, hrd, hidle⟩ := hph
    have hidle' := ChildPc.idle_of_not_inCS hidle
    have hfin := hf.write_clear i hi (Or.inl hpc)
    have hnh : ¬ Handed s i := by
      intro hh
      rcases hh with hh | hh | hh | hh
      · rw [hpc] at hh; cases hh
      · omega
      · rcases hidle' with e | e <;> rw [e] at hh <;> cases hh
      · rcases hidle' with e | e <;> rw [e] at hh <;> cases hh
    have hnf : s.child i ≠ ChildPc.flag := by
      intro hh
      rcases hidle' with e | e <;> rw [e] at hh <;> cases hh
    obtain ⟨hR, hC⟩ := (hd.slot i hi).2.2 (fun hh => hnh hh.2) hnf hfin
    exact ⟨hC, hR⟩

theorem write_after_harvest_witness :
    (((run scenario1 (turns 13) (initial scenario1)).father = FatherPc.write 0 ∨
        (run scenario1 (turns 13) (initial scenario1)).father = FatherPc.signal 0 →
      ((run scenario1 (turns 13) (initial scenario1)).memoria 0).finish = false)) ∧
    (run scenario1 (turns 13) (initial scenario1)).father = FatherPc.write 0 ∧
    (run scenario1 (turns 13) (initial scenario1)).risultati =
      [some (String.toList "3+4=7\n")] :=
  ⟨(write_after_harvest scenario1 _ (run_reachable _ _ _ Reachable.init) 0).1,
    by decide, by decide⟩

/-- C3, as the code behaves.  With valid operators and no operation with `val==0`, in every
reachable state the values that child `i` has stored in `res`, in the order it stored them,
are the first values of the sequential evaluation of the operations addressed to it (`val` is
`i+1`), in file order, each reduced to the 32-bit range of an `int`; when the father has
finished they are all of them.  The reduced value is the exact integer sum, difference,
product or truncated quotient whenever that lies between `INT_MIN` and `INT_MAX`. -/
theorem child_results_sequential (cfg : Config) (hv : ValidOps cfg)
    (hno : ∀ t ∈ cfg.tickets, t.id ≠ 0) (s : State) (hr : Reachable cfg s) (i : Nat)
    (hi : i < cfg.NUM_PROC) :
    (view i s.computed <+:
      (cfg.tickets.filter (fun t => decide (t.id = i + 1))).map
        (fun t => wrap32 (sequential t))) ∧
    (s.father = FatherPc.done →
      view i s.computed =
        (cfg.tickets.filter (fun t => decide (t.id = i + 1))).map
          (fun t => wrap32 (sequential t))) ∧
    (∀ t : Ticket, INT_MIN ≤ sequential t → sequential t ≤ INT_MAX →
      wrap32 (sequential t) = sequential t) := by
  obtain ⟨_, _, _, hdat⟩ := hr.invariants hv
  have hids : ∀ p ∈ s.assigned, p.1 + 1 = p.2.id := by
    intro p hp
    obtain ⟨v, t⟩ := p
    exact (hdat.assigned_lt (v, t) hp).2 (hno t (assigned_mem_tickets hdat hp))
  have hview := view_eq_filter hids i
  refine ⟨?_, ?_, fun t h1 h2 => wrap32_of_range h1 h2⟩
  · have h1 := computed_prefix hv hr i hi
    rw [hview, hdat.handed] at h1
    refine h1.trans ?_
    exact ((List.take_prefix _ _).filter _).map _
  · intro hd
    have h1 := (slot_of_done hv hr hd i hi).1
    rw [hview, assigned_of_done hv hr hd] at h1
    exact h1

theorem child_results_sequential_witness :
    view 1 (run scenario3 (turns 26) (initial scenario3)).computed =
      (scenario3.tickets.filter (fun t => decide (t.id = 1 + 1))).map
        (fun t => wrap32 (sequential t)) :=
  (child_results_sequential scenario3 (by decide) (by decide) _
    (run_reachable _ _ _ Reachable.init) 1 (by decide)).2.1 (by decide)

/-- C3 as stated fails: in the complete run of `scenario_overflow` the only child is given
`65536 * 32768`; the value it stores is `-2147483648`, while integer multiplication gives
`2147483648`. -/
theorem child_result_not_integer_product :
    (run scenario_overflow (turns 20) (initial scenario_overflow)).father = FatherPc.done ∧
    view 0 (run scenario_overflow (turns 20) (initial scenario_overflow)).computed =
      [-2147483648] ∧
    (scenario_overflow.tickets.filter (fun t => decide (t.id = 0 + 1))).map sequential =
      [2147483648] ∧
    view 0 (run scenario_overflow (turns 20) (initial scenario_overflow)).computed ≠
      (scenario_overflow.tickets.filter (fun t => decide (t.id = 0 + 1))).map sequential := by
  refine ⟨by decide, by decide, by decide, by decide⟩

/-- C4, the code at failing inputs.  With `NUM_PROC = 1` and the single operation
`1 65536 * 32768` the run is complete and the only entry of the results is the line
`65536*32768=-(`: the result is not in decimal notation, neither for the stored value
`-2147483648` nor for the integer product `2147483648`.  With `NUM_PROC = 1` and the single
operation `1 100000 * 10000` the result `1000000000` has ten digits and does not fit the
array `res` of `BUFLEN = 10` bytes: the entry is not the line `100000*10000=1000000000`. -/
theorem overflow_line_not_decimal :
    (ValidIds scenario_overflow ∧ ValidOps scenario_overflow ∧ NoTrap scenario_overflow) ∧
    (run scenario_overflow (turns 20) (initial scenario_overflow)).father = FatherPc.done ∧
    (run scenario_overflow (turns 20) (initial scenario_overflow)).risultati =
      [some (String.toList "65536*32768=-(\n")] ∧
    (run scenario_overflow (turns 20) (initial scenario_overflow)).risultati ≠
      scenario_overflow.tickets.map
        (fun t => some (decimal_line t.num1 t.op t.num2 (risultato t))) ∧
    (run scenario_overflow (turns 20) (initial scenario_overflow)).risultati ≠
      scenario_overflow.tickets.map
        (fun t => some (decimal_line t.num1 t.op t.num2 (sequential t))) ∧
    (run scenario_overrun (turns 20) (initial scenario_overrun)).father = FatherPc.done ∧
    (run scenario_overrun (turns 20) (initial scenario_overrun)).risultati = [none] ∧
    (run scenario_overrun (turns 20) (initial scenario_overrun)).risultati ≠
      scenario_overrun.tickets.map
        (fun t => some (decimal_line t.num1 t.op t.num2 (risultato t))) ∧
    decimal_line 100000 '*' 10000 1000000000 = String.toList "100000*10000=1000000000\n" := by
  refine ⟨⟨by decide, by decide, by decide⟩, by decide, by decide, by decide, by decide,
    by decide, by decide, by decide, by decide⟩

/-- C5, as the code behaves.  A child that finds operator `/` and second operand 0 in its
record executes the division unguarded and is stopped there: it stores no result and does not
set `finish`.  From then on, in every reachable state, the child stays stopped, semaphore
`2*i+1` stays at 1, `finish` stays false, the father is never inside its section on
`memoria[i]` (so nothing is collected from that record), and the father never finishes the
final loop. -/
theorem division_by_zero_stops_child (cfg : Config) (s : State) (hr : Reachable cfg s)
    (i : Nat) (hi : i < cfg.NUM_PROC) :
    (s.child i = ChildPc.compute → (s.memoria i).op = '/' → (s.memoria i).val2 = 0 →
      child_step cfg i s = some { s with child := aggiorna s.child i ChildPc.crashed }) ∧
    (s.child i = ChildPc.crashed →
      (s.memoria i).finish = false ∧ busy s.semaforo i = 1 ∧ s.father.inCS i = false ∧
      s.father ≠ FatherPc.done ∧ ∀ t, Step cfg s t → t.child i = ChildPc.crashed) := by
  refine ⟨?_, ?_⟩
  · intro hpc hop hz
    simp [child_step, hpc, hop, hz, calcolo]
  · intro hpc
    obtain ⟨hp, hf⟩ := hr.protocol_flags
    have hph := hp.phase i hi
    simp only [Phase, hpc] at hph
    simp at hph
    obtain ⟨hb, hrd, hcs⟩ := hph
    refine ⟨hf.child_clear i hi (by simp [hpc]) (by simp [hpc]), hb, hcs, ?_, ?_⟩
    · intro hd
      have hk : kills cfg s = cfg.NUM_PROC := by
        have := hf.job_eq hd
        simp [kills, hd, this]
      obtain ⟨_, _, h3⟩ := hf.killed i hi (by omega)
      rcases h3 with h3 | h3 | h3 | h3
      · rw [hcs] at h3; cases h3
      · omega
      · rw [hpc] at h3; cases h3
      · rw [hpc] at h3; cases h3
    · intro t ht
      have htr := ht.trans
      cases htr with
      | acquire h1 h2 => exact hpc
      | scan_free j h1 h2 h3 => exact hpc
      | scan_busy j h1 h2 h3 => exact hpc
      | scan_end j h1 h2 => exact hpc
      | mark j h1 h2 h3 => exact hpc
      | mark_fault j h1 h2 => exact hpc
      | harvest j h1 h2 => exact hpc
      | harvest_none j h1 h2 => exact hpc
      | write j tk h1 h2 => exact hpc
      | write_K j h1 h2 => exact hpc
      | signal j h1 h2 => exact hpc
      | wake j h0 h1 h2 =>
        have : i ≠ j := by intro e; subst e; rw [hpc] at h1; cases h1
        simp [aggiorna, this, hpc]
      | compute j r h0 h1 h2 =>
        have : i ≠ j := by intro e; subst e; rw [hpc] at h1; cases h1
        simp [aggiorna, this, hpc]
      | compute_default j h0 h1 h2 =>
        have : i ≠ j := by intro e; subst e; rw [hpc] at h1; cases h1
        simp [aggiorna, this, hpc]
      | compute_exit j h0 h1 h2 =>
        have : i ≠ j := by intro e; subst e; rw [hpc] at h1; cases h1
        simp [aggiorna, this, hpc]
      | compute_trap j h0 h1 h2 =>
        have : i ≠ j := by intro e; subst e; rw [hpc] at h1; cases h1
        simp [aggiorna, this, hpc]
      | flag j h0 h1 =>
        have : i ≠ j := by intro e; subst e; rw [hpc] at h1; cases h1
        simp [aggiorna, this, hpc]
      | release j h0 h1 h2 =>
        have : i ≠ j := by intro e; subst e; rw [hpc] at h1; cases h1
        simp [aggiorna, this, hpc]
      | free j h0 h1 =>
        have : i ≠ j := by intro e; subst e; rw [hpc] at h1; cases h1
        simp [aggiorna, this, hpc]

theorem division_by_zero_stops_child_witness :
    (run scenario_zero (turns 6) (initial scenario_zero)).child 0 = ChildPc.crashed ∧
    ((run scenario_zero (turns 6) (initial scenario_zero)).memoria 0).finish = false ∧
    busy (run scenario_zero (turns 6) (initial scenario_zero)).semaforo 0 = 1 ∧
    (run scenario_zero (turns 6) (initial scenario_zero)).father.inCS 0 = false ∧
    (run scenario_zero (turns 6) (initial scenario_zero)).father ≠ FatherPc.done ∧
    ∀ t, Step scenario_zero (run scenario_zero (turns 6) (initial scenario_zero)) t →
      t.child 0 = ChildPc.crashed :=
  ⟨by decide,
    (division_by_zero_stops_child scenario_zero _ (run_reachable _ _ _ Reachable.init) 0
      (by decide)).2 (by decide)⟩

/-- C5 as stated fails: in the run of `scenario_zero` in which the father hands `5 / 0` to
child 0 and the child executes it, the child is stopped, no result is marked as unclaimed
(`finish` is false, `res` is untouched), nothing is in the results, and the father cannot
make another step: it sleeps on the counting semaphore, with one operation and the final loop
still to do. -/
theorem division_by_zero_not_reported :
    (run scenario_zero (turns 6) (initial scenario_zero)).child 0 = ChildPc.crashed ∧
    ((run scenario_zero (turns 6) (initial scenario_zero)).memoria 0).finish = false ∧
    ((run scenario_zero (turns 6) (initial scenario_zero)).memoria 0).res = 0 ∧
    (run scenario_zero (turns 6) (initial scenario_zero)).risultati = [] ∧
    (run scenario_zero (turns 6) (initial scenario_zero)).job = 1 ∧
    father_step scenario_zero (run scenario_zero (turns 6) (initial scenario_zero)) = none ∧
    child_step scenario_zero 0 (run scenario_zero (turns 6) (initial scenario_zero)) = none := by
  refine ⟨by decide, by decide, by decide, by decide, by decide, ?_, ?_⟩
  · exact father_step_blocked (by decide) (by decide)
  · have h : (run scenario_zero (turns 6) (initial scenario_zero)).child 0 = ChildPc.crashed := by
      decide
    simp [child_step, h]

/-- C6.  While the father looks for a free child for an operation with `val==0`, it has
probed the semaphores `2*k+1` of the children `0, ..., j-1` in this order, each was found
different from 0, and its next step probes child `j < NUM_PROC`: the child is chosen if the
semaphore is 0 now, otherwise the search goes on with `j+1`.  Hence the child `i` that is
chosen is the one with the lowest index whose semaphore was 0 at its probe.  For an operation
with `val>=1` the child is `val-1`.  The operation is then written to the record of that
child. -/
theorem free_child_search (cfg : Config) (s : State) (hr : Reachable cfg s) :
    (∀ j, s.father = FatherPc.scan j →
      j < cfg.NUM_PROC ∧ s.probes = (List.range j).map (fun k => (k, false)) ∧
      (∃ t, cfg.tickets[s.job]? = some t ∧ t.id = 0) ∧
      father_step cfg s = some
        (if busy s.semaforo j = 0 then
          { s with probes := s.probes ++ [(j, true)], father := FatherPc.mark j }
        else { s with probes := s.probes ++ [(j, false)], father := FatherPc.scan (j + 1) })) ∧
    (∀ t i, cfg.tickets[s.job]? = some t →
      s.father = FatherPc.mark i ∨ s.father.inCS i = true →
        (t.id = 0 →
          i < cfg.NUM_PROC ∧
            s.probes = (List.range i).map (fun k => (k, false)) ++ [(i, true)]) ∧
        (t.id ≠ 0 → i = t.id - 1)) ∧
    (∀ t i, cfg.tickets[s.job]? = some t → s.father = FatherPc.write i →
      father_step cfg s = some { s with
        memoria := aggiorna s.memoria i
          { s.memoria i with val1 := t.num1, op := t.op, val2 := t.num2 }
        assigned := s.assigned ++ [(i, t)]
        father := FatherPc.signal i }) := by
  have hs := hr.search
  have hp := hr.protocol
  refine ⟨?_, ?_, ?_⟩
  · intro j hpc
    obtain ⟨k, hk1, hk2, _⟩ := hp.scan j hpc
    have hj : j < cfg.NUM_PROC := by omega
    obtain ⟨h1, h2⟩ := hs.scanning j hpc
    refine ⟨hj, h1, h2, ?_⟩
    by_cases hb : busy s.semaforo j = 0
    · have hb' : s.semaforo (2 * j + 1) = 0 := hb
      simp [father_step, hpc, hj, semop_zero, hb, hb']
    · have hb' : ¬ s.semaforo (2 * j + 1) = 0 := hb
      simp [father_step, hpc, hj, semop_zero, hb, hb']
  · intro t i ht hpc
    refine ⟨fun h0 => hs.chosen_free t i ht h0 hpc, fun h0 => ?_⟩
    have := hs.chosen_id t i ht h0 hpc
    omega
  · intro t i ht hpc
    simp [father_step, hpc, ht]

theorem free_child_search_witness :
    1 < scenario2.NUM_PROC ∧
      (run scenario2 (turns 9) (initial scenario2)).probes =
        (List.range 1).map (fun k => (k, false)) ++ [(1, true)] :=
  ((free_child_search scenario2 _ (run_reachable _ (turns 9) _ Reachable.init)).2.1
    ⟨0, 9, '/', 3⟩ 1 (by decide) (by decide)).1 rfl

/-- C7.  In every reachable state in which no paired operation is half done (the father is
not between its decrement of the counting semaphore and its wait-and-set of a semaphore
`2*i+1`, and no child is between its decrement of semaphore `2*i+1` and its increment of the
counting semaphore), the value of the counting semaphore equals the number of children whose
semaphore `2*i+1` is 0.  The states between paired operations are exactly of this kind. -/
theorem freecount_eq_free_children (cfg : Config) (s : State) (hr : Reachable cfg s)
    (hfather : s.father.mid = 0) (hchildren : releasing cfg s = 0) :
    freecount cfg s.semaforo = free_children cfg s := by
  have h := hr.protocol.balance
  omega

theorem freecount_eq_free_children_witness :
    freecount scenario2 (run scenario2 (father_turns 6) (initial scenario2)).semaforo =
      free_children scenario2 (run scenario2 (father_turns 6) (initial scenario2)) :=
  freecount_eq_free_children scenario2 _ (run_reachable _ _ _ Reachable.init)
    (by decide) (by decide)

/-- C8.  In no reachable state is the father between its wait-and-set of semaphore `2*i+1`
and its signal on semaphore `2*i` while child `i` is between its wait-and-set of semaphore
`2*i` and its decrement of semaphore `2*i+1` (or has stopped there): the accesses of the two
processes to `memoria[i]` exclude each other. -/
theorem mutual_exclusion (cfg : Config) (s : State) (hr : Reachable cfg s) (i : Nat) :
    ¬ (s.father.inCS i = true ∧ (s.child i).inCS = true) := by
  intro ⟨hf, hc⟩
  have hp := hr.protocol
  have hph := hp.phase i (hp.cs_lt i hf)
  simp [Phase, hf, hc] at hph

theorem mutual_exclusion_witness :
    ¬ ((run scenario1 (turns 2) (initial scenario1)).father.inCS 0 = true ∧
        ((run scenario1 (turns 2) (initial scenario1)).child 0).inCS = true) :=
  mutual_exclusion scenario1 _ (run_reachable _ _ _ Reachable.init) 0

/-- C10, the code at a failing input: for the file with first line `1`, the single operation
line `1 3 + 4` and the final empty line, the first pass leaves `righe = 2`, not 1. -/
theorem righe_one_operation :
    righe (config_file (String.toList "1") [String.toList "1 3 + 4"]) 1 ' ' = 2 ∧
    config_file (String.toList "1") [String.toList "1 3 + 4"] =
      String.toList "1\n1 3 + 4\n\n" := by
  refine ⟨by decide, by decide⟩

/-- C11, the code at the failing input: for `n = INT_MIN` the negation `n=-n` leaves `n`
negative, the loop of `itoa` runs once and stores `n%10+'0'`, which is `(`, and the string
left in `s` is `-(`, not the decimal notation `-2147483648`.  For the neighbouring value
`INT_MIN + 1` the string is the decimal notation. -/
theorem itoa_int_min_not_decimal :
    itoa INT_MIN = ['-', '('] ∧
    decimal INT_MIN = String.toList "-2147483648" ∧
    itoa INT_MIN ≠ decimal INT_MIN ∧
    itoa (INT_MIN + 1) = decimal (INT_MIN + 1) := by
  refine ⟨by decide, by decide, by decide, by decide⟩

/-- C12.  With valid `val` fields, in every reachable state of the step relation in which
every `semop` call is one step.  While the father is in the search loop (the operation has
`val==0` and the counting semaphore has been decremented), the loop index `j` is below
`NUM_PROC` and some child `k >= j` has semaphore `2*k+1` at 0; the probe is a step the father
can take, it changes no semaphore, and it leaves the loop with `val-1 = j` exactly when
semaphore `2*j+1` is 0, otherwise it goes on with `j+1`.  No step of a child changes a
semaphore `2*k+1` that is 0.  When the father is past the search for an operation with
`val==0`, the probes were `j` failures followed by one success at the chosen child, and the
semaphore of the chosen child is still 0 when the father is about to set it.  For every kind
of operation and in the final loop the index `val-1` used for `memoria` and for the semaphores
is below `NUM_PROC`, and the father never reaches an index out of range. -/
theorem scan_finds_free_child (cfg : Config) (hid : ValidIds cfg) (s : State)
    (hr : Reachable cfg s) :
    (∀ j, s.father = FatherPc.scan j →
      (∃ tk, cfg.tickets[s.job]? = some tk ∧ tk.id = 0) ∧
      j < cfg.NUM_PROC ∧ (∃ k, j ≤ k ∧ k < cfg.NUM_PROC ∧ busy s.semaforo k = 0) ∧
      ∃ t, father_step cfg s = some t ∧ t.semaforo = s.semaforo ∧
        ((busy s.semaforo j = 0 ∧ t.father = FatherPc.mark j) ∨
          (busy s.semaforo j ≠ 0 ∧ t.father = FatherPc.scan (j + 1)))) ∧
    (∀ i t, child_step cfg i s = some t →
      ∀ k, busy s.semaforo k = 0 → busy t.semaforo k = 0) ∧
    (∀ tk i, cfg.tickets[s.job]? = some tk → tk.id = 0 →
      s.father = FatherPc.mark i ∨ s.father.inCS i = true →
      s.probes = (List.range i).map (fun k => (k, false)) ++ [(i, true)] ∧
      (s.father = FatherPc.mark i → busy s.semaforo i = 0)) ∧
    (∀ i, s.father = FatherPc.mark i ∨ s.father.inCS i = true → i < cfg.NUM_PROC) ∧
    s.father ≠ FatherPc.fault := by
  have hp := hr.protocol
  refine ⟨?_, ?_, ?_, ?_, hr.no_fault hid⟩
  · intro j hpc
    obtain ⟨k, hk1, hk2, hk3⟩ := hp.scan j hpc
    have hj : j < cfg.NUM_PROC := by omega
    refine ⟨(hr.search.scanning j hpc).2, hj, ⟨k, hk1, hk2, hk3⟩, ?_⟩
    by_cases hb : busy s.semaforo j = 0
    · have hb2 : s.semaforo (2 * j + 1) = 0 := hb
      refine ⟨{ s with probes := s.probes ++ [(j, true)], father := FatherPc.mark j }, ?_, rfl,
        Or.inl ⟨hb, rfl⟩⟩
      simp [father_step, hpc, hj, semop_zero, hb2]
    · have hb2 : ¬ s.semaforo (2 * j + 1) = 0 := hb
      refine ⟨{ s with probes := s.probes ++ [(j, false)], father := FatherPc.scan (j + 1) },
        ?_, rfl, Or.inr ⟨hb, rfl⟩⟩
      simp [father_step, hpc, hj, semop_zero, hb2]
  · intro i t ht k hk
    exact child_step_keeps_free ht k hk
  · intro tk i hk h0 hi
    exact ⟨(hr.search.chosen_free tk i hk h0 hi).2, fun hm => hr.chosen_stays_free i tk hm hk h0⟩
  · intro i hi
    rcases hi with hi | hi
    · exact mark_lt hid hr.flags hr.search hi
    · exact hp.cs_lt i hi

theorem scan_finds_free_child_witness :
    (run scenario2 (turns 8) (initial scenario2)).father = FatherPc.scan 1 ∧
    busy (run scenario2 (turns 8) (initial scenario2)).semaforo 0 = 1 ∧
    1 < scenario2.NUM_PROC ∧
    ∃ k, 1 ≤ k ∧ k < scenario2.NUM_PROC ∧
      busy (run scenario2 (turns 8) (initial scenario2)).semaforo k = 0 :=
  ⟨by decide, by decide,
    ((scan_finds_free_child scenario2 (by decide)
      (run scenario2 (turns 8) (initial scenario2))
      (run_reachable scenario2 (turns 8) (initial scenario2) Reachable.init)).1 1
        (by decide)).2.1,
    ((scan_finds_free_child scenario2 (by decide)
      (run scenario2 (turns 8) (initial scenario2))
      (run_reachable scenario2 (turns 8) (initial scenario2) Reachable.init)).1 1
        (by decide)).2.2.1⟩

end SystemCall
